import Mathlib

/-!
AVL tree of `klee_programs/15.c` and `klee_programs/8.c`.

A shallow embedding of the height-balanced binary search tree implemented twice in the
repository.  A C pointer to a node is a value of `BSTNode`, the null pointer being
`BSTNode.NULL`.  A function that dereferences a pointer returns `Option`: `none` stands for
the dereference of a null pointer.

Keys and cached heights are `int` in the source.  Keys are only compared, never computed
with, so they are modelled by `Int`.  In `newHeight`, `getBalance` and the functions built
on them, cached heights are computed with in `Int` without wrap-around: on a tree whose
cached heights are consistent, a height is at most the number of nodes on a root-to-leaf
path, far below `2^31` for any tree that fits in memory, and then no height update and no
balance leaves the range of `int` (`consistent_node_no_overflow`).  Statements that assume
no invariant on the cached heights are made about `newHeight32`, `getBalance32`,
`rightRotate32` and `leftRotate32`, which compute as the 32-bit `int` of the source does.
-/

namespace AVL

/-- The node type `BSTNode` of 15.c (`AVLNode` in 8.c): key, left, right, height. -/
inductive BSTNode where
  | NULL : BSTNode
  | node (key : Int) (left right : BSTNode) (height : Int) : BSTNode
deriving DecidableEq, Repr

/-- The two source files; they differ in `getHeight(NULL)` and in the height given by
`createNode`, and 15.c has `findMin`, `deleteNode` and `inorderTraversal` in addition. -/
inductive Variant where
  | c15 : Variant
  | c8 : Variant
deriving DecidableEq, Repr

open BSTNode

/-- `createNode`: 15.c lines 13-20 (height 1), 8.c lines 25-32 (height 0). -/
def createNode (v : Variant) (key : Int) : BSTNode :=
  node key NULL NULL (match v with | .c15 => 1 | .c8 => 0)

/-- `getHeight`: 15.c lines 23-26 (0 for NULL), 8.c lines 13-16 (-1 for NULL). -/
def getHeight (v : Variant) : BSTNode → Int
  | NULL => (match v with | .c15 => 0 | .c8 => -1)
  | node _ _ _ height => height

/-- `getBalance`: 15.c lines 29-32, 8.c lines 19-22, with the difference taken in `Int`:
the value the source computes whenever that difference is a value of `int`
(`getBalance32_eq_getBalance`), as it is at every node with a consistent cached height. -/
def getBalance (v : Variant) : BSTNode → Int
  | NULL => 0
  | node _ left right _ => getHeight v left - getHeight v right

/-- The expression `1 + (getHeight(l) > getHeight(r) ? getHeight(l) : getHeight(r))` that
every height update of the source evaluates, with the sum taken in `Int`: the value the
source computes whenever that sum is a value of `int` (`newHeight32_eq_newHeight`). -/
def newHeight (v : Variant) (l r : BSTNode) : Int :=
  1 + (if getHeight v l > getHeight v r then getHeight v l else getHeight v r)

/-- `rightRotate`: lines 35-48 of both files.  `y->left` and `x->right` are dereferenced, so
the result is `none` when `y` or `y->left` is NULL. -/
def rightRotate (v : Variant) : BSTNode → Option BSTNode
  | node ky (node kx xl T2 _) yr _ =>
      let y := node ky T2 yr (newHeight v T2 yr)
      some (node kx xl y (newHeight v xl y))
  | _ => none

/-- `leftRotate`: lines 51-64 of both files.  `none` when `x` or `x->right` is NULL. -/
def leftRotate (v : Variant) : BSTNode → Option BSTNode
  | node kx xl (node ky T2 yr _) _ =>
      let x := node kx xl T2 (newHeight v xl T2)
      some (node ky x yr (newHeight v x yr))
  | _ => none

/-- The read `node->key`; `none` on the null pointer. -/
def keyOf : BSTNode → Option Int
  | NULL => none
  | node key _ _ _ => some key

/-- A condition `c && rel(p->key)` of the source: `&&` short-circuits, so `p` is
dereferenced only when `c` holds. -/
def andKey (c : Bool) (p : BSTNode) (rel : Int → Bool) : Option Bool :=
  if c then (keyOf p).map rel else some false

/-- Lines 80-109 of `insert` (both files), run on the node with key `k` whose children are
now `l` and `r`: the height update, then the four cases in source order. -/
def insertRebalance (v : Variant) (k : Int) (l r : BSTNode) (key : Int) : Option BSTNode :=
  let nd := node k l r (newHeight v l r)
  let balance := getBalance v nd
  -- Left Left Case
  (andKey (balance > 1) l (fun lk => key < lk)).bind fun c1 =>
  if c1 then rightRotate v nd else
  -- Right Right Case
  (andKey (balance < -1) r (fun rk => key > rk)).bind fun c2 =>
  if c2 then leftRotate v nd else
  -- Left Right Case
  (andKey (balance > 1) l (fun lk => key > lk)).bind fun c3 =>
  if c3 then (leftRotate v l).bind fun l2 => rightRotate v (node k l2 r (newHeight v l r)) else
  -- Right Left Case
  (andKey (balance < -1) r (fun rk => key < rk)).bind fun c4 =>
  if c4 then (rightRotate v r).bind fun r2 => leftRotate v (node k l r2 (newHeight v l r)) else
  some nd

/-- `insert`: lines 67-110 of both files. -/
def insert (v : Variant) : BSTNode → Int → Option BSTNode
  | NULL, key => some (createNode v key)
  | node k l r h, key =>
      if key < k then
        (insert v l key).bind fun l2 => insertRebalance v k l2 r key
      else if key > k then
        (insert v r key).bind fun r2 => insertRebalance v k l r2 key
      else
        some (node k l r h)

/-- `search`: 15.c lines 113-123, 8.c lines 113-123.  The result is the node found (a
subtree) or NULL. -/
def search : BSTNode → Int → BSTNode
  | NULL, _ => NULL
  | node k l r h, key =>
      if k = key then node k l r h
      else if key < k then search l key
      else search r key

/-- `findMin`: 15.c lines 126-132; the loop walks `left` links while they are not NULL. -/
def findMin : BSTNode → BSTNode
  | NULL => NULL
  | node k l r h => if l ≠ NULL then findMin l else node k l r h

/-- Lines 162-195 of `deleteNode` (15.c), run on the pointer `root`: the NULL test, the
height update, then the four cases in source order. -/
def deleteRebalance (root : BSTNode) : Option BSTNode :=
  match root with
  | NULL => some NULL
  | node k l r _ =>
      let nd := node k l r (newHeight .c15 l r)
      let balance := getBalance .c15 nd
      -- Left Left Case
      if balance > 1 ∧ getBalance .c15 l ≥ 0 then rightRotate .c15 nd else
      -- Left Right Case
      if balance > 1 ∧ getBalance .c15 l < 0 then
        (leftRotate .c15 l).bind fun l2 => rightRotate .c15 (node k l2 r (newHeight .c15 l r))
      else
      -- Right Right Case
      if balance < -1 ∧ getBalance .c15 r ≤ 0 then leftRotate .c15 nd else
      -- Right Left Case
      if balance < -1 ∧ getBalance .c15 r > 0 then
        (rightRotate .c15 r).bind fun r2 => leftRotate .c15 (node k l r2 (newHeight .c15 l r))
      else
      some nd

/-- `deleteNode`: 15.c lines 135-196. -/
def deleteNode : BSTNode → Int → Option BSTNode
  | NULL, _ => some NULL
  | node k l r h, key =>
      if key < k then
        (deleteNode l key).bind fun l2 => deleteRebalance (node k l2 r h)
      else if key > k then
        (deleteNode r key).bind fun r2 => deleteRebalance (node k l r2 h)
      else if l = NULL then some r
      else if r = NULL then some l
      else
        (keyOf (findMin r)).bind fun tk =>
        (deleteNode r tk).bind fun r2 => deleteRebalance (node tk l r2 h)

/-- `countNodes`: 15.c lines 199-202, 8.c lines 126-129. -/
def countNodes : BSTNode → Int
  | NULL => 0
  | node _ l r _ => 1 + countNodes l + countNodes r

/-- `isValidBST`: 15.c lines 205-212, 8.c lines 142-149; the result is the C truth value. -/
def isValidBST : BSTNode → Int → Int → Int
  | NULL, _, _ => 1
  | node k l r _, min, max =>
      if k ≤ min ∨ k ≥ max then 0
      else if isValidBST l min k ≠ 0 ∧ isValidBST r k max ≠ 0 then 1 else 0

/-- `isBalanced`: 15.c lines 215-222, 8.c lines 132-139; the result is the C truth value. -/
def isBalanced (v : Variant) : BSTNode → Int
  | NULL => 1
  | node k l r h =>
      if getBalance v (node k l r h) > 1 ∨ getBalance v (node k l r h) < -1 then 0
      else if isBalanced v l ≠ 0 ∧ isBalanced v r ≠ 0 then 1 else 0

/-- The key sequence in left, node, right order: the keys `inorderTraversal` (15.c lines
225-232) emits. -/
def inorder : BSTNode → List Int
  | NULL => []
  | node k l r _ => inorder l ++ k :: inorder r

/-- Every node of the tree, the root first. -/
def nodes : BSTNode → List BSTNode
  | NULL => []
  | node k l r h => node k l r h :: (nodes l ++ nodes r)

/-- A call made by a driver of 15.c: `insert(root, k)` or `deleteNode(root, k)`. -/
inductive Op where
  | ins (k : Int) : Op
  | del (k : Int) : Op
deriving DecidableEq, Repr

/-- The tree a driver of 15.c holds after the calls `ops`, each result replacing `root`. -/
def runOps : BSTNode → List Op → Option BSTNode
  | root, [] => some root
  | root, Op.ins k :: ops => (insert .c15 root k).bind fun root2 => runOps root2 ops
  | root, Op.del k :: ops => (deleteNode root k).bind fun root2 => runOps root2 ops

/-- Whether `k` is inserted and not subsequently deleted: `b` before the calls, and after
them what the last call that names `k` says. -/
def liveAfter (k : Int) : Bool → List Op → Bool
  | b, [] => b
  | b, Op.ins x :: ops => liveAfter k (if x = k then true else b) ops
  | b, Op.del x :: ops => liveAfter k (if x = k then false else b) ops

/-- The tree a driver holds after the calls `insert(root, k)` for the keys of the list, in
order, each result replacing `root` (the driver's `main` of both files does four of them). -/
def insertAll (v : Variant) : BSTNode → List Int → Option BSTNode
  | root, [] => some root
  | root, k :: ks => (insert v root k).bind fun root2 => insertAll v root2 ks

/-- `inorderTraversal`: 15.c lines 225-232.  `arr` is the memory the pointer `arr` gives
access to, one `int` cell per index (the function knows no capacity: room is the caller's
business), and `index` is the value of `*index`; the result is both after the call. -/
def inorderTraversal : BSTNode → (Int → Int) → Int → (Int → Int) × Int
  | NULL, arr, index => (arr, index)
  | node k l r _, arr, index =>
      let s := inorderTraversal l arr index
      inorderTraversal r (Function.update s.1 s.2 k) (s.2 + 1)

/-- The executions of lines 80-109 during `insert(t, key)`, innermost first: each is the key
of the node and its two children as they are after the recursive call returned. -/
def insertSteps (v : Variant) : BSTNode → Int → List (Int × BSTNode × BSTNode)
  | NULL, _ => []
  | node k l r _, key =>
      if key < k then
        insertSteps v l key ++
          (match insert v l key with
            | some l2 => [(k, l2, r)]
            | none => [])
      else if key > k then
        insertSteps v r key ++
          (match insert v r key with
            | some r2 => [(k, l, r2)]
            | none => [])
      else []

/-- The executions of lines 162-195 during `deleteNode(t, key)`, innermost first: each is
the node `root` points to when line 162 is reached. -/
def deleteSteps : BSTNode → Int → List BSTNode
  | NULL, _ => []
  | node k l r h, key =>
      if key < k then
        deleteSteps l key ++
          (match deleteNode l key with
            | some l2 => [node k l2 r h]
            | none => [])
      else if key > k then
        deleteSteps r key ++
          (match deleteNode r key with
            | some r2 => [node k l r2 h]
            | none => [])
      else if l = NULL then []
      else if r = NULL then []
      else
        match keyOf (findMin r) with
        | none => []
        | some tk =>
            deleteSteps r tk ++
              (match deleteNode r tk with
                | some r2 => [node tk l r2 h]
                | none => [])

/-- The nodes at which `deleteNode(t, key)` reaches line 157 (the node found has two
children), outermost first. -/
def deleteTwoChildren : BSTNode → Int → List BSTNode
  | NULL, _ => []
  | node k l r h, key =>
      if key < k then deleteTwoChildren l key
      else if key > k then deleteTwoChildren r key
      else if l = NULL then []
      else if r = NULL then []
      else
        node k l r h ::
          (match keyOf (findMin r) with
            | none => []
            | some tk => deleteTwoChildren r tk)

/-- The tree with every cached height raised by one: the form a tree of 8.c (empty height
-1, leaf height 0) takes under the convention of 15.c (empty height 0, leaf height 1).
Shape and keys are kept. -/
def shift : BSTNode → BSTNode
  | NULL => NULL
  | node k l r h => node k (shift l) (shift r) (h + 1)

/-- The tree without its cached heights (each set to 0): shape and keys only. -/
def shape : BSTNode → BSTNode
  | NULL => NULL
  | node k l r _ => node k (shape l) (shape r) 0

/-- The height recomputed from the shape alone, without reading any cached height: the
number of nodes on a longest path from the root down (0 for the empty tree). -/
def structHeight : BSTNode → Int
  | NULL => 0
  | node _ l r _ => 1 + max (structHeight l) (structHeight r)

/-- The balance of a node recomputed from the shape alone: the difference of the
recomputed heights of its left and right subtrees. -/
def structBalance : BSTNode → Int
  | NULL => 0
  | node _ l r _ => structHeight l - structHeight r

/-- `insert` of 15.c with its decision (lines 87-107, by comparing `key` with the key of
the child) replaced by the decision of `deleteNode` (lines 173-193, by the sign of the
child's balance): after the recursive call the height update and the delete table run, which
is `deleteRebalance`.  This variant is not in the source; it is what the comparison of the
two decision procedures is stated about. -/
def insertByChildBalance : BSTNode → Int → Option BSTNode
  | NULL, key => some (createNode .c15 key)
  | node k l r h, key =>
      if key < k then
        (insertByChildBalance l key).bind fun l2 => deleteRebalance (node k l2 r h)
      else if key > k then
        (insertByChildBalance r key).bind fun r2 => deleteRebalance (node k l r2 h)
      else
        some (node k l r h)

/-- Lines 166-195 of `deleteNode` run on the pointer `root` without the test
`root == NULL` of lines 162-164 before them: the height update dereferences `root`. -/
def deleteRebalanceUnchecked (root : BSTNode) : Option BSTNode :=
  match root with
  | NULL => none
  | node k l r _ =>
      let nd := node k l r (newHeight .c15 l r)
      let balance := getBalance .c15 nd
      if balance > 1 ∧ getBalance .c15 l ≥ 0 then rightRotate .c15 nd else
      if balance > 1 ∧ getBalance .c15 l < 0 then
        (leftRotate .c15 l).bind fun l2 => rightRotate .c15 (node k l2 r (newHeight .c15 l r))
      else
      if balance < -1 ∧ getBalance .c15 r ≤ 0 then leftRotate .c15 nd else
      if balance < -1 ∧ getBalance .c15 r > 0 then
        (rightRotate .c15 r).bind fun r2 => leftRotate .c15 (node k l r2 (newHeight .c15 l r))
      else
      some nd

/-- `deleteNode` of 15.c with lines 162-164 (the test `root == NULL` after the recursive
calls) removed. -/
def deleteNodeUnchecked : BSTNode → Int → Option BSTNode
  | NULL, _ => some NULL
  | node k l r h, key =>
      if key < k then
        (deleteNodeUnchecked l key).bind fun l2 => deleteRebalanceUnchecked (node k l2 r h)
      else if key > k then
        (deleteNodeUnchecked r key).bind fun r2 => deleteRebalanceUnchecked (node k l r2 h)
      else if l = NULL then some r
      else if r = NULL then some l
      else
        (keyOf (findMin r)).bind fun tk =>
        (deleteNodeUnchecked r tk).bind fun r2 => deleteRebalanceUnchecked (node tk l r2 h)

/-- The smallest value of a 32-bit `int`. -/
def INT_MIN : Int := -2147483648

/-- The largest value of a 32-bit `int`. -/
def INT_MAX : Int := 2147483647

/-- The value a 32-bit `int` holds after an arithmetic operation whose mathematical result
is `x`: two's complement wrap-around, the identity on the values of `int`. -/
def wrap32 (x : Int) : Int := (x + 2147483648) % 4294967296 - 2147483648

/-- The expression `1 + (getHeight(l) > getHeight(r) ? getHeight(l) : getHeight(r))` of the
height updates, computed in 32-bit `int` as in the source. -/
def newHeight32 (v : Variant) (l r : BSTNode) : Int :=
  wrap32 (1 + (if getHeight v l > getHeight v r then getHeight v l else getHeight v r))

/-- `getBalance`: 15.c lines 29-32, 8.c lines 19-22, with the subtraction computed in 32-bit
`int` as in the source. -/
def getBalance32 (v : Variant) : BSTNode → Int
  | NULL => 0
  | node _ left right _ => wrap32 (getHeight v left - getHeight v right)

/-- `rightRotate`: lines 35-48 of both files, with the two height updates computed in
32-bit `int` as in the source.  `none` when `y` or `y->left` is NULL. -/
def rightRotate32 (v : Variant) : BSTNode → Option BSTNode
  | node ky (node kx xl T2 _) yr _ =>
      let y := node ky T2 yr (newHeight32 v T2 yr)
      some (node kx xl y (newHeight32 v xl y))
  | _ => none

/-- `leftRotate`: lines 51-64 of both files, with the two height updates computed in 32-bit
`int` as in the source.  `none` when `x` or `x->right` is NULL. -/
def leftRotate32 (v : Variant) : BSTNode → Option BSTNode
  | node kx xl (node ky T2 yr _) _ =>
      let x := node kx xl T2 (newHeight32 v xl T2)
      some (node ky x yr (newHeight32 v x yr))
  | _ => none

/-- The Fibonacci numbers: `Fib 1 = Fib 2 = 1` and `Fib (n+2) = Fib (n+1) + Fib n`. -/
def Fib : Nat → Nat
  | 0 => 0
  | 1 => 1
  | n + 2 => Fib (n + 1) + Fib n

/-- Invariant I1 (order): at every node, the keys of the left subtree are smaller than the
node's key and the keys of the right subtree are greater. -/
def I1 : BSTNode → Prop
  | NULL => True
  | node k l r _ => (∀ x ∈ inorder l, x < k) ∧ (∀ x ∈ inorder r, k < x) ∧ I1 l ∧ I1 r

/-- Invariant I2 (height): at every node, the cached height is
`1 + max(getHeight(left), getHeight(right))`. -/
def I2 (v : Variant) : BSTNode → Prop
  | NULL => True
  | node _ l r h => h = newHeight v l r ∧ I2 v l ∧ I2 v r

/-- Invariant I3 (balance): at every node, `getBalance` is -1, 0 or 1. -/
def I3 (v : Variant) : BSTNode → Prop
  | NULL => True
  | node k l r h =>
      (-1 ≤ getBalance v (node k l r h) ∧ getBalance v (node k l r h) ≤ 1) ∧ I3 v l ∧ I3 v r

/-- The shape a subtree has after an insertion of `key` made it one level higher: it is a
single node, or it leans to the side `key` went to. -/
def Grew (v : Variant) (key : Int) : BSTNode → Prop
  | NULL => False
  | node k l r _ =>
      (l = NULL ∧ r = NULL) ∨ (key < k ∧ getHeight v l = getHeight v r + 1) ∨
        (key > k ∧ getHeight v r = getHeight v l + 1)

instance I1.dec : (t : BSTNode) → Decidable (I1 t)
  | NULL => isTrue trivial
  | node k l r _ =>
      have := I1.dec l
      have := I1.dec r
      by unfold I1; exact inferInstance

instance I2.dec (v : Variant) : (t : BSTNode) → Decidable (I2 v t)
  | NULL => isTrue trivial
  | node _ l r _ =>
      have := I2.dec v l
      have := I2.dec v r
      by unfold I2; exact inferInstance

instance I3.dec (v : Variant) : (t : BSTNode) → Decidable (I3 v t)
  | NULL => isTrue trivial
  | node _ l r _ =>
      have := I3.dec v l
      have := I3.dec v r
      by unfold I3; exact inferInstance


/-! Heights and the balance checker -/

theorem height_node_ge (v : Variant) (k : Int) (l r : BSTNode) (h : Int)
    (h2 : I2 v (node k l r h)) (hl : getHeight v NULL ≤ getHeight v l) :
    getHeight v NULL + 1 ≤ h := by
  have e := h2.1
  simp only [newHeight] at e
  split_ifs at e <;> omega

theorem height_ge (v : Variant) : ∀ t : BSTNode, I2 v t → getHeight v NULL ≤ getHeight v t
  | NULL, _ => le_refl _
  | node k l r h, h2 => by
      have := height_node_ge v k l r h h2 (height_ge v l h2.2.1)
      simp only [getHeight] at this ⊢
      omega

theorem node_of_height_gt (v : Variant) (t : BSTNode) (h : getHeight v NULL < getHeight v t) :
    ∃ k l r ht, t = node k l r ht := by
  cases t with
  | NULL => exact absurd h (lt_irrefl _)
  | node k l r ht => exact ⟨k, l, r, ht, rfl⟩

theorem isBalanced_zero_or_one (v : Variant) (t : BSTNode) :
    isBalanced v t = 0 ∨ isBalanced v t = 1 := by
  cases t with
  | NULL => exact Or.inr rfl
  | node k l r h => simp only [isBalanced]; split_ifs <;> simp

theorem isBalanced_eq_one_iff (v : Variant) : ∀ t : BSTNode, isBalanced v t = 1 ↔ I3 v t
  | NULL => by simp [isBalanced, I3]
  | node k l r h => by
      have hl := isBalanced_eq_one_iff v l
      have hr := isBalanced_eq_one_iff v r
      have zl := isBalanced_zero_or_one v l
      have zr := isBalanced_zero_or_one v r
      simp only [isBalanced, I3, ← hl, ← hr]
      split_ifs with c1 c2
      · constructor
        · intro h; omega
        · rintro ⟨⟨a, b⟩, -⟩; omega
      · constructor
        · intro _; refine ⟨⟨by omega, by omega⟩, by omega, by omega⟩
        · intro _; rfl
      · constructor
        · intro h; omega
        · rintro ⟨-, a, b⟩; exact absurd ⟨by omega, by omega⟩ c2

/-! The five outcomes of the insert decision table -/

theorem insertRebalance_balanced (v : Variant) (k : Int) (l r : BSTNode) (key : Int)
    (h1 : -1 ≤ getHeight v l - getHeight v r) (h2 : getHeight v l - getHeight v r ≤ 1) :
    insertRebalance v k l r key = some (node k l r (newHeight v l r)) := by
  have a : ¬ (getHeight v l - getHeight v r > 1) := by omega
  have b : ¬ (getHeight v l - getHeight v r < -1) := by omega
  simp [insertRebalance, andKey, getBalance, a, b]

theorem insertRebalance_LL (v : Variant) (k : Int) (lk : Int) (ll lr : BSTNode) (lh : Int)
    (r : BSTNode) (key : Int)
    (hb : getHeight v (node lk ll lr lh) - getHeight v r > 1) (hk : key < lk) :
    insertRebalance v k (node lk ll lr lh) r key =
      some (node lk ll (node k lr r (newHeight v lr r))
        (newHeight v ll (node k lr r (newHeight v lr r)))) := by
  simp [insertRebalance, andKey, getBalance, keyOf, hb, hk, rightRotate]

theorem insertRebalance_LR (v : Variant) (k : Int) (lk : Int) (ll : BSTNode)
    (mk : Int) (ml mr : BSTNode) (mh lh : Int) (r : BSTNode) (key : Int)
    (hb : getHeight v (node lk ll (node mk ml mr mh) lh) - getHeight v r > 1) (hk : key > lk) :
    insertRebalance v k (node lk ll (node mk ml mr mh) lh) r key =
      some (node mk (node lk ll ml (newHeight v ll ml)) (node k mr r (newHeight v mr r))
        (newHeight v (node lk ll ml (newHeight v ll ml)) (node k mr r (newHeight v mr r)))) := by
  have a : ¬ (key < lk) := by omega
  have b : ¬ (getHeight v (node lk ll (node mk ml mr mh) lh) - getHeight v r < -1) := by omega
  simp [insertRebalance, andKey, getBalance, keyOf, hb, hk, a, b, rightRotate, leftRotate]

theorem insertRebalance_RR (v : Variant) (k : Int) (l : BSTNode) (rk : Int) (rl rr : BSTNode)
    (rh : Int) (key : Int)
    (hb : getHeight v l - getHeight v (node rk rl rr rh) < -1) (hk : key > rk) :
    insertRebalance v k l (node rk rl rr rh) key =
      some (node rk (node k l rl (newHeight v l rl)) rr
        (newHeight v (node k l rl (newHeight v l rl)) rr)) := by
  have b : ¬ (getHeight v l - getHeight v (node rk rl rr rh) > 1) := by omega
  simp [insertRebalance, andKey, getBalance, keyOf, hb, hk, b, leftRotate]

theorem insertRebalance_RL (v : Variant) (k : Int) (l : BSTNode) (rk : Int)
    (mk : Int) (ml mr : BSTNode) (mh : Int) (rr : BSTNode) (rh : Int) (key : Int)
    (hb : getHeight v l - getHeight v (node rk (node mk ml mr mh) rr rh) < -1) (hk : key < rk) :
    insertRebalance v k l (node rk (node mk ml mr mh) rr rh) key =
      some (node mk (node k l ml (newHeight v l ml)) (node rk mr rr (newHeight v mr rr))
        (newHeight v (node k l ml (newHeight v l ml)) (node rk mr rr (newHeight v mr rr)))) := by
  have a : ¬ (key > rk) := by omega
  have b : ¬ (getHeight v l - getHeight v (node rk (node mk ml mr mh) rr rh) > 1) := by omega
  simp [insertRebalance, andKey, getBalance, keyOf, hb, hk, a, b, rightRotate, leftRotate]

/-! One step of `insert` on the way back up -/

@[simp] theorem getHeight_node (v : Variant) (k : Int) (l r : BSTNode) (h : Int) :
    getHeight v (node k l r h) = h := rfl

theorem insert_step_left (v : Variant) (k : Int) (l l2 r : BSTNode) (key : Int)
    (hl2 : I2 v l2) (hl3 : I3 v l2) (hr2 : I2 v r) (hr3 : I3 v r) (hl : I2 v l)
    (b1 : -1 ≤ getHeight v l - getHeight v r) (b2 : getHeight v l - getHeight v r ≤ 1)
    (hk : key < k)
    (hg : getHeight v l2 = getHeight v l ∨ (getHeight v l2 = getHeight v l + 1 ∧ Grew v key l2)) :
    ∃ t2, insertRebalance v k l2 r key = some t2 ∧ I2 v t2 ∧ I3 v t2 ∧
      (getHeight v t2 = newHeight v l r ∨
        (getHeight v t2 = newHeight v l r + 1 ∧ Grew v key t2)) := by
  have er := height_ge v r hr2
  have el := height_ge v l hl
  by_cases hb : getHeight v l2 - getHeight v r ≤ 1
  · rw [insertRebalance_balanced v k l2 r key (by omega) hb]
    refine ⟨_, rfl, ⟨rfl, hl2, hr2⟩, ⟨⟨?_, ?_⟩, hl3, hr3⟩, ?_⟩
    · simp only [getBalance]; omega
    · simp only [getBalance]; omega
    · by_cases e : newHeight v l2 r = newHeight v l r
      · exact Or.inl e
      · refine Or.inr ⟨?_, Or.inr (Or.inl ⟨hk, ?_⟩)⟩
        · simp only [getHeight_node, newHeight] at e ⊢
          split_ifs at e ⊢ <;> omega
        · simp only [newHeight] at e
          split_ifs at e <;> omega
  · obtain ⟨hh, g⟩ : getHeight v l2 = getHeight v l + 1 ∧ Grew v key l2 := by
      rcases hg with hg | hg
      · omega
      · exact hg
    cases l2 with
    | NULL => exact absurd g (by simp [Grew])
    | node lk ll lr lh =>
      simp only [I2, I3, getBalance, getHeight_node] at hl2 hl3 hh hb
      obtain ⟨hlh, hll2, hlr2⟩ := hl2
      obtain ⟨⟨c1, c2⟩, hll3, hlr3⟩ := hl3
      have ell := height_ge v ll hll2
      simp only [Grew] at g
      rcases g with ⟨rfl, rfl⟩ | ⟨gk, gh⟩ | ⟨gk, gh⟩
      · simp only [newHeight] at hlh
        split_ifs at hlh <;> omega
      · rw [insertRebalance_LL v k lk ll lr lh r key (by simp only [getHeight_node]; omega) gk]
        simp only [newHeight] at hlh
        refine ⟨_, rfl, ⟨rfl, hll2, rfl, hlr2, hr2⟩, ⟨⟨?_, ?_⟩, hll3, ⟨?_, ?_⟩, hlr3, hr3⟩, Or.inl ?_⟩ <;>
          simp only [getBalance, getHeight_node, newHeight] <;> split_ifs at hlh ⊢ <;> omega
      · obtain ⟨mk, ml, mr, mh, rfl⟩ := node_of_height_gt v lr (by omega)
        simp only [I2, I3, getBalance, getHeight_node] at hlr2 hlr3 gh
        obtain ⟨hmh, hml2, hmr2⟩ := hlr2
        obtain ⟨⟨d1, d2⟩, hml3, hmr3⟩ := hlr3
        rw [insertRebalance_LR v k lk ll mk ml mr mh lh r key
          (by simp only [getHeight_node]; omega) gk]
        simp only [newHeight, getHeight_node] at hlh hmh
        refine ⟨_, rfl, ⟨rfl, ⟨rfl, hll2, hml2⟩, rfl, hmr2, hr2⟩,
          ⟨⟨?_, ?_⟩, ⟨⟨?_, ?_⟩, hll3, hml3⟩, ⟨?_, ?_⟩, hmr3, hr3⟩, Or.inl ?_⟩ <;>
          simp only [getBalance, getHeight_node, newHeight] <;>
          split_ifs at hlh hmh ⊢ <;> omega

theorem insert_step_right (v : Variant) (k : Int) (l r r2 : BSTNode) (key : Int)
    (hr2 : I2 v r2) (hr3 : I3 v r2) (hl2 : I2 v l) (hl3 : I3 v l) (hr : I2 v r)
    (b1 : -1 ≤ getHeight v l - getHeight v r) (b2 : getHeight v l - getHeight v r ≤ 1)
    (hk : key > k)
    (hg : getHeight v r2 = getHeight v r ∨ (getHeight v r2 = getHeight v r + 1 ∧ Grew v key r2)) :
    ∃ t2, insertRebalance v k l r2 key = some t2 ∧ I2 v t2 ∧ I3 v t2 ∧
      (getHeight v t2 = newHeight v l r ∨
        (getHeight v t2 = newHeight v l r + 1 ∧ Grew v key t2)) := by
  have el := height_ge v l hl2
  have er := height_ge v r hr
  by_cases hb : -1 ≤ getHeight v l - getHeight v r2
  · rw [insertRebalance_balanced v k l r2 key hb (by omega)]
    refine ⟨_, rfl, ⟨rfl, hl2, hr2⟩, ⟨⟨?_, ?_⟩, hl3, hr3⟩, ?_⟩
    · simp only [getBalance]; omega
    · simp only [getBalance]; omega
    · by_cases e : newHeight v l r2 = newHeight v l r
      · exact Or.inl e
      · refine Or.inr ⟨?_, Or.inr (Or.inr ⟨hk, ?_⟩)⟩
        · simp only [getHeight_node, newHeight] at e ⊢
          split_ifs at e ⊢ <;> omega
        · simp only [newHeight] at e
          split_ifs at e <;> omega
  · obtain ⟨hh, g⟩ : getHeight v r2 = getHeight v r + 1 ∧ Grew v key r2 := by
      rcases hg with hg | hg
      · omega
      · exact hg
    cases r2 with
    | NULL => exact absurd g (by simp [Grew])
    | node rk rl rr rh =>
      simp only [I2, I3, getBalance, getHeight_node] at hr2 hr3 hh hb
      obtain ⟨hrh, hrl2, hrr2⟩ := hr2
      obtain ⟨⟨c1, c2⟩, hrl3, hrr3⟩ := hr3
      have erl := height_ge v rl hrl2
      have err := height_ge v rr hrr2
      simp only [Grew] at g
      rcases g with ⟨rfl, rfl⟩ | ⟨gk, gh⟩ | ⟨gk, gh⟩
      · simp only [newHeight] at hrh
        split_ifs at hrh <;> omega
      · obtain ⟨mk, ml, mr, mh, rfl⟩ := node_of_height_gt v rl (by omega)
        simp only [I2, I3, getBalance, getHeight_node] at hrl2 hrl3 gh
        obtain ⟨hmh, hml2, hmr2⟩ := hrl2
        obtain ⟨⟨d1, d2⟩, hml3, hmr3⟩ := hrl3
        rw [insertRebalance_RL v k l rk mk ml mr mh rr rh key
          (by simp only [getHeight_node]; omega) gk]
        simp only [newHeight, getHeight_node] at hrh hmh
        refine ⟨_, rfl, ⟨rfl, ⟨rfl, hl2, hml2⟩, rfl, hmr2, hrr2⟩,
          ⟨⟨?_, ?_⟩, ⟨⟨?_, ?_⟩, hl3, hml3⟩, ⟨?_, ?_⟩, hmr3, hrr3⟩, Or.inl ?_⟩ <;>
          simp only [getBalance, getHeight_node, newHeight] <;>
          split_ifs at hrh hmh ⊢ <;> omega
      · rw [insertRebalance_RR v k l rk rl rr rh key (by simp only [getHeight_node]; omega) gk]
        simp only [newHeight] at hrh
        refine ⟨_, rfl, ⟨rfl, ⟨rfl, hl2, hrl2⟩, hrr2⟩, ⟨⟨?_, ?_⟩, ⟨⟨?_, ?_⟩, hl3, hrl3⟩, hrr3⟩, Or.inl ?_⟩ <;>
          simp only [getBalance, getHeight_node, newHeight] <;> split_ifs at hrh ⊢ <;> omega

/-- The induction behind every statement on `insert`: on a tree with consistent heights
and balanced nodes `insert` returns a tree with the same two properties, of the same
height or one level higher, and in the second case of the shape `Grew`. -/
theorem insert_core (v : Variant) (key : Int) : ∀ t : BSTNode, I2 v t → I3 v t →
    ∃ t2, insert v t key = some t2 ∧ I2 v t2 ∧ I3 v t2 ∧
      (getHeight v t2 = getHeight v t ∨
        (getHeight v t2 = getHeight v t + 1 ∧ Grew v key t2))
  | NULL, _, _ => by
      refine ⟨createNode v key, rfl, ?_, ?_, Or.inr ⟨?_, ?_⟩⟩
      · cases v <;> simp [createNode, I2, newHeight, getHeight]
      · simp [createNode, I3, getBalance]
      · cases v <;> simp [createNode, getHeight]
      · simp [createNode, Grew]
  | node k l r h, h2, h3 => by
      obtain ⟨hh, hl2, hr2⟩ := h2
      obtain ⟨⟨b1, b2⟩, hl3, hr3⟩ := h3
      simp only [getBalance] at b1 b2
      simp only [insert]
      by_cases c1 : key < k
      · obtain ⟨l2, e, a2, a3, g⟩ := insert_core v key l hl2 hl3
        simp only [c1, if_true, e, Option.some_bind]
        have := insert_step_left v k l l2 r key a2 a3 hr2 hr3 hl2 b1 b2 c1 g
        simpa only [getHeight_node, hh] using this
      · by_cases c2 : key > k
        · obtain ⟨r2, e, a2, a3, g⟩ := insert_core v key r hr2 hr3
          simp only [c1, c2, if_true, if_false, e, Option.some_bind]
          have := insert_step_right v k l r r2 key a2 a3 hl2 hl3 hr2 b1 b2 c2 g
          simpa only [getHeight_node, hh] using this
        · simp only [c1, c2, if_false]
          exact ⟨_, rfl, ⟨hh, hl2, hr2⟩, ⟨⟨b1, b2⟩, hl3, hr3⟩, Or.inl rfl⟩

/-! The five outcomes of the delete decision table -/

theorem deleteRebalance_balanced (k : Int) (l r : BSTNode) (h : Int)
    (h1 : -1 ≤ getHeight .c15 l - getHeight .c15 r)
    (h2 : getHeight .c15 l - getHeight .c15 r ≤ 1) :
    deleteRebalance (node k l r h) = some (node k l r (newHeight .c15 l r)) := by
  simp only [deleteRebalance, getBalance]
  rw [if_neg (by omega), if_neg (by omega), if_neg (by omega), if_neg (by omega)]

theorem deleteRebalance_LL (k : Int) (lk : Int) (ll lr : BSTNode) (lh : Int)
    (r : BSTNode) (h : Int)
    (hb : getHeight .c15 (node lk ll lr lh) - getHeight .c15 r > 1)
    (hc : getHeight .c15 ll - getHeight .c15 lr ≥ 0) :
    deleteRebalance (node k (node lk ll lr lh) r h) =
      some (node lk ll (node k lr r (newHeight .c15 lr r))
        (newHeight .c15 ll (node k lr r (newHeight .c15 lr r)))) := by
  simp only [deleteRebalance, getBalance]
  rw [if_pos ⟨hb, hc⟩]
  rfl

theorem deleteRebalance_LR (k : Int) (lk : Int) (ll : BSTNode)
    (mk : Int) (ml mr : BSTNode) (mh lh : Int) (r : BSTNode) (h : Int)
    (hb : getHeight .c15 (node lk ll (node mk ml mr mh) lh) - getHeight .c15 r > 1)
    (hc : getHeight .c15 ll - getHeight .c15 (node mk ml mr mh) < 0) :
    deleteRebalance (node k (node lk ll (node mk ml mr mh) lh) r h) =
      some (node mk (node lk ll ml (newHeight .c15 ll ml)) (node k mr r (newHeight .c15 mr r))
        (newHeight .c15 (node lk ll ml (newHeight .c15 ll ml))
          (node k mr r (newHeight .c15 mr r)))) := by
  simp only [deleteRebalance, getBalance]
  rw [if_neg (by omega), if_pos ⟨hb, hc⟩]
  rfl

theorem deleteRebalance_RR (k : Int) (l : BSTNode) (rk : Int) (rl rr : BSTNode)
    (rh h : Int)
    (hb : getHeight .c15 l - getHeight .c15 (node rk rl rr rh) < -1)
    (hc : getHeight .c15 rl - getHeight .c15 rr ≤ 0) :
    deleteRebalance (node k l (node rk rl rr rh) h) =
      some (node rk (node k l rl (newHeight .c15 l rl)) rr
        (newHeight .c15 (node k l rl (newHeight .c15 l rl)) rr)) := by
  simp only [deleteRebalance, getBalance]
  rw [if_neg (by omega), if_neg (by omega), if_pos ⟨hb, hc⟩]
  rfl

theorem deleteRebalance_RL (k : Int) (l : BSTNode) (rk : Int)
    (mk : Int) (ml mr : BSTNode) (mh : Int) (rr : BSTNode) (rh h : Int)
    (hb : getHeight .c15 l - getHeight .c15 (node rk (node mk ml mr mh) rr rh) < -1)
    (hc : getHeight .c15 (node mk ml mr mh) - getHeight .c15 rr > 0) :
    deleteRebalance (node k l (node rk (node mk ml mr mh) rr rh) h) =
      some (node mk (node k l ml (newHeight .c15 l ml)) (node rk mr rr (newHeight .c15 mr rr))
        (newHeight .c15 (node k l ml (newHeight .c15 l ml))
          (node rk mr rr (newHeight .c15 mr rr)))) := by
  simp only [deleteRebalance, getBalance]
  rw [if_neg (by omega), if_neg (by omega), if_neg (by omega), if_pos ⟨hb, hc⟩]
  rfl

/-! One step of `deleteNode` on the way back up -/

theorem delete_step_left (k : Int) (l l2 r : BSTNode) (h : Int)
    (hl2 : I2 .c15 l2) (hl3 : I3 .c15 l2) (hr2 : I2 .c15 r) (hr3 : I3 .c15 r)
    (b1 : -1 ≤ getHeight .c15 l - getHeight .c15 r)
    (b2 : getHeight .c15 l - getHeight .c15 r ≤ 1)
    (hg : getHeight .c15 l2 = getHeight .c15 l ∨ getHeight .c15 l2 = getHeight .c15 l - 1) :
    ∃ t2, deleteRebalance (node k l2 r h) = some t2 ∧ I2 .c15 t2 ∧ I3 .c15 t2 ∧
      (getHeight .c15 t2 = newHeight .c15 l r ∨ getHeight .c15 t2 = newHeight .c15 l r - 1) := by
  have el := height_ge .c15 l2 hl2
  by_cases hb : -1 ≤ getHeight .c15 l2 - getHeight .c15 r
  · rw [deleteRebalance_balanced k l2 r h hb (by omega)]
    refine ⟨_, rfl, ⟨rfl, hl2, hr2⟩, ⟨⟨?_, ?_⟩, hl3, hr3⟩, ?_⟩
    · simp only [getBalance]; omega
    · simp only [getBalance]; omega
    · simp only [getHeight_node, newHeight]
      split_ifs <;> omega
  · obtain ⟨rk, rl, rr, rh, rfl⟩ := node_of_height_gt .c15 r (by omega)
    simp only [I2, I3, getBalance, getHeight_node] at hr2 hr3 hb b1 b2
    obtain ⟨hrh, hrl2, hrr2⟩ := hr2
    obtain ⟨⟨c1, c2⟩, hrl3, hrr3⟩ := hr3
    have err := height_ge .c15 rr hrr2
    by_cases hc : getHeight .c15 rl - getHeight .c15 rr ≤ 0
    · rw [deleteRebalance_RR k l2 rk rl rr rh h (by simp only [getHeight_node]; omega) hc]
      simp only [newHeight] at hrh
      refine ⟨_, rfl, ⟨rfl, ⟨rfl, hl2, hrl2⟩, hrr2⟩,
        ⟨⟨?_, ?_⟩, ⟨⟨?_, ?_⟩, hl3, hrl3⟩, hrr3⟩, ?_⟩ <;>
        simp only [getBalance, getHeight_node, newHeight] <;> split_ifs at hrh ⊢ <;> omega
    · obtain ⟨mk, ml, mr, mh, rfl⟩ := node_of_height_gt .c15 rl (by omega)
      simp only [I2, I3, getBalance, getHeight_node] at hrl2 hrl3 hc c1 c2
      obtain ⟨hmh, hml2, hmr2⟩ := hrl2
      obtain ⟨⟨d1, d2⟩, hml3, hmr3⟩ := hrl3
      rw [deleteRebalance_RL k l2 rk mk ml mr mh rr rh h
        (by simp only [getHeight_node]; omega) (by simp only [getHeight_node]; omega)]
      simp only [newHeight, getHeight_node] at hrh hmh
      refine ⟨_, rfl, ⟨rfl, ⟨rfl, hl2, hml2⟩, rfl, hmr2, hrr2⟩,
        ⟨⟨?_, ?_⟩, ⟨⟨?_, ?_⟩, hl3, hml3⟩, ⟨?_, ?_⟩, hmr3, hrr3⟩, ?_⟩ <;>
        simp only [getBalance, getHeight_node, newHeight] <;>
        split_ifs at hrh hmh ⊢ <;> omega

theorem delete_step_right (k : Int) (l r r2 : BSTNode) (h : Int)
    (hr2 : I2 .c15 r2) (hr3 : I3 .c15 r2) (hl2 : I2 .c15 l) (hl3 : I3 .c15 l)
    (b1 : -1 ≤ getHeight .c15 l - getHeight .c15 r)
    (b2 : getHeight .c15 l - getHeight .c15 r ≤ 1)
    (hg : getHeight .c15 r2 = getHeight .c15 r ∨ getHeight .c15 r2 = getHeight .c15 r - 1) :
    ∃ t2, deleteRebalance (node k l r2 h) = some t2 ∧ I2 .c15 t2 ∧ I3 .c15 t2 ∧
      (getHeight .c15 t2 = newHeight .c15 l r ∨ getHeight .c15 t2 = newHeight .c15 l r - 1) := by
  have er := height_ge .c15 r2 hr2
  by_cases hb : getHeight .c15 l - getHeight .c15 r2 ≤ 1
  · rw [deleteRebalance_balanced k l r2 h (by omega) hb]
    refine ⟨_, rfl, ⟨rfl, hl2, hr2⟩, ⟨⟨?_, ?_⟩, hl3, hr3⟩, ?_⟩
    · simp only [getBalance]; omega
    · simp only [getBalance]; omega
    · simp only [getHeight_node, newHeight]
      split_ifs <;> omega
  · obtain ⟨lk, ll, lr, lh, rfl⟩ := node_of_height_gt .c15 l (by omega)
    simp only [I2, I3, getBalance, getHeight_node] at hl2 hl3 hb b1 b2
    obtain ⟨hlh, hll2, hlr2⟩ := hl2
    obtain ⟨⟨c1, c2⟩, hll3, hlr3⟩ := hl3
    have ell := height_ge .c15 ll hll2
    by_cases hc : getHeight .c15 ll - getHeight .c15 lr ≥ 0
    · rw [deleteRebalance_LL k lk ll lr lh r2 h (by simp only [getHeight_node]; omega) hc]
      simp only [newHeight] at hlh
      refine ⟨_, rfl, ⟨rfl, hll2, rfl, hlr2, hr2⟩,
        ⟨⟨?_, ?_⟩, hll3, ⟨?_, ?_⟩, hlr3, hr3⟩, ?_⟩ <;>
        simp only [getBalance, getHeight_node, newHeight] <;> split_ifs at hlh ⊢ <;> omega
    · obtain ⟨mk, ml, mr, mh, rfl⟩ := node_of_height_gt .c15 lr (by omega)
      simp only [I2, I3, getBalance, getHeight_node] at hlr2 hlr3 hc c1 c2
      obtain ⟨hmh, hml2, hmr2⟩ := hlr2
      obtain ⟨⟨d1, d2⟩, hml3, hmr3⟩ := hlr3
      rw [deleteRebalance_LR k lk ll mk ml mr mh lh r2 h
        (by simp only [getHeight_node]; omega) (by simp only [getHeight_node]; omega)]
      simp only [newHeight, getHeight_node] at hlh hmh
      refine ⟨_, rfl, ⟨rfl, ⟨rfl, hll2, hml2⟩, rfl, hmr2, hr2⟩,
        ⟨⟨?_, ?_⟩, ⟨⟨?_, ?_⟩, hll3, hml3⟩, ⟨?_, ?_⟩, hmr3, hr3⟩, ?_⟩ <;>
        simp only [getBalance, getHeight_node, newHeight] <;>
        split_ifs at hlh hmh ⊢ <;> omega

theorem keyOf_findMin (r : BSTNode) (hr : r ≠ NULL) : ∃ tk, keyOf (findMin r) = some tk := by
  induction r with
  | NULL => exact absurd rfl hr
  | node k l r h ihl _ =>
    simp only [findMin]
    split_ifs with c
    · exact ihl c
    · exact ⟨k, rfl⟩

/-- The induction behind every statement on `deleteNode`: on a tree with consistent heights
and balanced nodes `deleteNode` returns a tree with the same two properties, of the same
height or one level lower. -/
theorem delete_core (t : BSTNode) : ∀ key : Int, I2 .c15 t → I3 .c15 t →
    ∃ t2, deleteNode t key = some t2 ∧ I2 .c15 t2 ∧ I3 .c15 t2 ∧
      (getHeight .c15 t2 = getHeight .c15 t ∨ getHeight .c15 t2 = getHeight .c15 t - 1) := by
  induction t with
  | NULL => intro key h2 h3; exact ⟨NULL, rfl, h2, h3, Or.inl rfl⟩
  | node k l r h ihl ihr =>
    intro key h2 h3
    obtain ⟨hh, hl2, hr2⟩ := h2
    obtain ⟨⟨b1, b2⟩, hl3, hr3⟩ := h3
    simp only [getBalance] at b1 b2
    have el := height_ge .c15 l hl2
    have er := height_ge .c15 r hr2
    simp only [deleteNode]
    by_cases c1 : key < k
    · obtain ⟨l2, e, a2, a3, g⟩ := ihl key hl2 hl3
      simp only [c1, if_true, e, Option.some_bind]
      have := delete_step_left k l l2 r h a2 a3 hr2 hr3 b1 b2 g
      simpa only [getHeight_node, hh] using this
    · by_cases c2 : key > k
      · obtain ⟨r2, e, a2, a3, g⟩ := ihr key hr2 hr3
        simp only [c1, c2, if_true, if_false, e, Option.some_bind]
        have := delete_step_right k l r r2 h a2 a3 hl2 hl3 b1 b2 g
        simpa only [getHeight_node, hh] using this
      · simp only [c1, c2, if_false]
        by_cases c3 : l = NULL
        · subst c3
          simp only [if_true]
          refine ⟨r, rfl, hr2, hr3, Or.inr ?_⟩
          simp only [getHeight_node, hh, newHeight]
          split_ifs <;> omega
        · by_cases c4 : r = NULL
          · subst c4
            simp only [c3, if_true, if_false]
            refine ⟨l, rfl, hl2, hl3, Or.inr ?_⟩
            simp only [getHeight_node, hh, newHeight]
            split_ifs <;> omega
          · obtain ⟨tk, etk⟩ := keyOf_findMin r c4
            obtain ⟨r2, e, a2, a3, g⟩ := ihr tk hr2 hr3
            simp only [c3, c4, if_false, etk, e, Option.some_bind]
            have := delete_step_right tk l r r2 h a2 a3 hl2 hl3 b1 b2 g
            simpa only [getHeight_node, hh] using this

/-! Key sequences -/

theorem rightRotate_inorder (v : Variant) (t t2 : BSTNode) (h : rightRotate v t = some t2) :
    inorder t2 = inorder t := by
  unfold rightRotate at h
  split at h
  · simp only [Option.some.injEq] at h
    subst h
    simp [inorder]
  · exact absurd h (by simp)

theorem leftRotate_inorder (v : Variant) (t t2 : BSTNode) (h : leftRotate v t = some t2) :
    inorder t2 = inorder t := by
  unfold leftRotate at h
  split at h
  · simp only [Option.some.injEq] at h
    subst h
    simp [inorder]
  · exact absurd h (by simp)

theorem insertRebalance_inorder (v : Variant) (k : Int) (l r : BSTNode) (key : Int)
    (t2 : BSTNode) (h : insertRebalance v k l r key = some t2) :
    inorder t2 = inorder l ++ k :: inorder r := by
  unfold insertRebalance at h
  simp only [Option.bind_eq_some] at h
  obtain ⟨c1, -, h⟩ := h
  cases c1
  · simp only [Bool.false_eq_true, if_false, Option.bind_eq_some] at h
    obtain ⟨c2, -, h⟩ := h
    cases c2
    · simp only [Bool.false_eq_true, if_false, Option.bind_eq_some] at h
      obtain ⟨c3, -, h⟩ := h
      cases c3
      · simp only [Bool.false_eq_true, if_false, Option.bind_eq_some] at h
        obtain ⟨c4, -, h⟩ := h
        cases c4
        · simp only [Bool.false_eq_true, if_false, Option.some.injEq] at h
          subst h
          rfl
        · simp only [if_true, Option.bind_eq_some] at h
          obtain ⟨r2, e, h⟩ := h
          rw [leftRotate_inorder v _ _ h]
          simp only [inorder, rightRotate_inorder v _ _ e]
      · simp only [if_true, Option.bind_eq_some] at h
        obtain ⟨l2, e, h⟩ := h
        rw [rightRotate_inorder v _ _ h]
        simp only [inorder, leftRotate_inorder v _ _ e]
    · simp only [if_true] at h
      rw [leftRotate_inorder v _ _ h]
      rfl
  · simp only [if_true] at h
    rw [rightRotate_inorder v _ _ h]
    rfl

theorem deleteRebalance_inorder (k : Int) (l r : BSTNode) (h0 : Int)
    (t2 : BSTNode) (h : deleteRebalance (node k l r h0) = some t2) :
    inorder t2 = inorder l ++ k :: inorder r := by
  simp only [deleteRebalance] at h
  split_ifs at h
  · rw [rightRotate_inorder _ _ _ h]; rfl
  · simp only [Option.bind_eq_some] at h
    obtain ⟨l2, e, h⟩ := h
    rw [rightRotate_inorder _ _ _ h]
    simp only [inorder, leftRotate_inorder _ _ _ e]
  · rw [leftRotate_inorder _ _ _ h]; rfl
  · simp only [Option.bind_eq_some] at h
    obtain ⟨r2, e, h⟩ := h
    rw [leftRotate_inorder _ _ _ h]
    simp only [inorder, rightRotate_inorder _ _ _ e]
  · simp only [Option.some.injEq] at h
    subst h
    rfl

theorem I1_iff_sorted : ∀ t : BSTNode, I1 t ↔ (inorder t).Sorted (· < ·)
  | NULL => by simp [I1, inorder]
  | node k l r h => by
      simp only [I1, inorder, List.Sorted, List.pairwise_append, List.pairwise_cons,
        List.mem_cons, I1_iff_sorted l, I1_iff_sorted r]
      constructor
      · rintro ⟨a, b, c, d⟩
        refine ⟨c, ⟨b, d⟩, ?_⟩
        rintro x hx y (rfl | hy)
        · exact a x hx
        · exact lt_trans (a x hx) (b y hy)
      · rintro ⟨c, ⟨b, d⟩, e⟩
        exact ⟨fun x hx => e x hx k (Or.inl rfl), b, c, d⟩

theorem findMin_inorder (r : BSTNode) (hr : r ≠ NULL) :
    ∃ tk tl, keyOf (findMin r) = some tk ∧ inorder r = tk :: tl := by
  induction r with
  | NULL => exact absurd rfl hr
  | node k l r h ihl _ =>
    simp only [findMin]
    split_ifs with c
    · obtain ⟨tk, tl, e1, e2⟩ := ihl c
      exact ⟨tk, tl ++ k :: inorder r, e1, by simp [inorder, e2]⟩
    · have : l = NULL := not_not.mp c
      subst this
      exact ⟨k, inorder r, rfl, rfl⟩

theorem orderedInsert_append_left (key k : Int) (hk : key ≤ k) (R : List Int) :
    ∀ L : List Int, (L ++ k :: R).orderedInsert (· ≤ ·) key =
      L.orderedInsert (· ≤ ·) key ++ k :: R
  | [] => by simp [List.orderedInsert, hk]
  | a :: L => by
      simp only [List.cons_append, List.orderedInsert]
      split_ifs
      · rfl
      · exact congrArg (a :: ·) (orderedInsert_append_left key k hk R L)

theorem orderedInsert_append_right (key : Int) (R : List Int) :
    ∀ L : List Int, (∀ x ∈ L, x < key) → (L ++ R).orderedInsert (· ≤ ·) key =
      L ++ R.orderedInsert (· ≤ ·) key
  | [], _ => rfl
  | a :: L, h => by
      have ha : ¬ key ≤ a := not_le.mpr (h a (List.mem_cons_self a L))
      simp only [List.cons_append, List.orderedInsert, ha, if_false]
      exact congrArg (a :: ·)
        (orderedInsert_append_right key R L (fun x hx => h x (List.mem_cons_of_mem a hx)))

/-- The key sequence `insert` returns, on an ordered tree: the sequence itself when it has
the key, the sequence with the key put at its sorted position otherwise. -/
theorem insert_inorder (v : Variant) (key : Int) : ∀ (t t2 : BSTNode), I1 t →
    insert v t key = some t2 →
    inorder t2 = if key ∈ inorder t then inorder t else (inorder t).orderedInsert (· ≤ ·) key
  | NULL, t2, _, h => by
      simp only [insert, Option.some.injEq] at h
      subst h
      simp [createNode, inorder]
  | node k l r h0, t2, h1, h => by
      obtain ⟨a, b, hl1, hr1⟩ := h1
      simp only [insert] at h
      by_cases c1 : key < k
      · simp only [c1, if_true, Option.bind_eq_some] at h
        obtain ⟨l2, e, h⟩ := h
        have ih := insert_inorder v key l l2 hl1 e
        have hnr : key ∉ inorder r := fun hm => absurd (b key hm) (by omega)
        rw [insertRebalance_inorder v k l2 r key t2 h, ih]
        by_cases hm : key ∈ inorder l
        · simp [inorder, hm]
        · have hne : key ≠ k := by omega
          simp only [inorder, hm, List.mem_append, List.mem_cons, hne, hnr, or_self, if_false]
          rw [orderedInsert_append_left key k (le_of_lt c1)]
      · by_cases c2 : key > k
        · simp only [c1, c2, if_true, if_false, Option.bind_eq_some] at h
          obtain ⟨r2, e, h⟩ := h
          have ih := insert_inorder v key r r2 hr1 e
          have hnl : key ∉ inorder l := fun hm => absurd (a key hm) (by omega)
          have hkk : ¬ key ≤ k := by omega
          rw [insertRebalance_inorder v k l r2 key t2 h, ih]
          by_cases hm : key ∈ inorder r
          · simp [inorder, hm]
          · have hne : key ≠ k := by omega
            simp only [inorder, hm, List.mem_append, List.mem_cons, hne, hnl, or_self, if_false]
            rw [orderedInsert_append_right key _ _ (fun x hx => lt_trans (a x hx) c2)]
            simp only [List.orderedInsert, hkk, if_false]
        · simp only [c1, c2, if_false, Option.some.injEq] at h
          subst h
          have : key = k := by omega
          simp [inorder, this]

/-- The key sequence `deleteNode` returns, on an ordered tree: the sequence with the key
erased. -/
theorem delete_inorder (t : BSTNode) : ∀ (key : Int) (t2 : BSTNode), I1 t →
    deleteNode t key = some t2 → inorder t2 = (inorder t).erase key := by
  induction t with
  | NULL =>
    intro key t2 _ h
    simp only [deleteNode, Option.some.injEq] at h
    subst h
    rfl
  | node k l r h0 ihl ihr =>
    intro key t2 h1 h
    obtain ⟨a, b, hl1, hr1⟩ := h1
    have hkl : k ∉ inorder l := fun hm => absurd (a k hm) (lt_irrefl k)
    simp only [deleteNode] at h
    by_cases c1 : key < k
    · simp only [c1, if_true, Option.bind_eq_some] at h
      obtain ⟨l2, e, h⟩ := h
      rw [deleteRebalance_inorder k l2 r h0 t2 h, ihl key l2 hl1 e]
      have hnr : key ∉ inorder r := fun hm => absurd (b key hm) (by omega)
      have hne : k ≠ key := by omega
      by_cases hm : key ∈ inorder l
      · simp only [inorder]
        rw [List.erase_append_left _ hm]
      · simp only [inorder]
        rw [List.erase_append_right _ hm, List.erase_cons_tail (by simpa using hne),
          List.erase_of_not_mem hnr, List.erase_of_not_mem hm]
    · by_cases c2 : key > k
      · simp only [c1, c2, if_true, if_false, Option.bind_eq_some] at h
        obtain ⟨r2, e, h⟩ := h
        rw [deleteRebalance_inorder k l r2 h0 t2 h, ihr key r2 hr1 e]
        have hnl : key ∉ inorder l := fun hm => absurd (a key hm) (by omega)
        have hne : k ≠ key := by omega
        simp only [inorder]
        rw [List.erase_append_right _ hnl, List.erase_cons_tail (by simpa using hne)]
      · have hk : key = k := by omega
        subst hk
        simp only [c1, c2, if_false] at h
        simp only [inorder]
        rw [List.erase_append_right _ hkl, List.erase_cons_head]
        by_cases c3 : l = NULL
        · subst c3
          simp only [if_true, Option.some.injEq] at h
          subst h
          rfl
        · by_cases c4 : r = NULL
          · subst c4
            simp only [c3, if_true, if_false, Option.some.injEq] at h
            subst h
            simp [inorder]
          · obtain ⟨tk, tl, e1, e2⟩ := findMin_inorder r c4
            simp only [c3, c4, if_false, e1, Option.some_bind, Option.bind_eq_some] at h
            obtain ⟨r2, e, h⟩ := h
            rw [deleteRebalance_inorder tk l r2 h0 t2 h, ihr tk r2 hr1 e, e2,
              List.erase_cons_head]

theorem isValidBST_zero_or_one (t : BSTNode) (lo hi : Int) :
    isValidBST t lo hi = 0 ∨ isValidBST t lo hi = 1 := by
  cases t with
  | NULL => exact Or.inr rfl
  | node k l r h => simp only [isValidBST]; split_ifs <;> simp

/-- What `isValidBST` computes: the order invariant together with the exclusive bounds. -/
theorem isValidBST_eq_one_iff : ∀ (t : BSTNode) (lo hi : Int),
    isValidBST t lo hi = 1 ↔ I1 t ∧ ∀ x ∈ inorder t, lo < x ∧ x < hi
  | NULL, lo, hi => by simp [isValidBST, I1, inorder]
  | node k l r h, lo, hi => by
      have hl := isValidBST_eq_one_iff l lo k
      have hr := isValidBST_eq_one_iff r k hi
      have zl := isValidBST_zero_or_one l lo k
      have zr := isValidBST_zero_or_one r k hi
      simp only [isValidBST, I1, inorder, List.mem_append, List.mem_cons]
      constructor
      · intro e
        split_ifs at e with c1 c2
        · exact absurd e (by decide)
        · have el := hl.mp (by omega)
          have er := hr.mp (by omega)
          refine ⟨⟨fun x hx => (el.2 x hx).2, fun x hx => (er.2 x hx).1, el.1, er.1⟩, ?_⟩
          rintro x (hx | rfl | hx)
          · exact ⟨(el.2 x hx).1, by have := (el.2 x hx).2; omega⟩
          · omega
          · exact ⟨by have := (er.2 x hx).1; omega, (er.2 x hx).2⟩
        · exact absurd e (by decide)
      · rintro ⟨⟨a, b, i1l, i1r⟩, bd⟩
        have bk := bd k (Or.inr (Or.inl rfl))
        have el := hl.mpr ⟨i1l, fun x hx => ⟨(bd x (Or.inl hx)).1, a x hx⟩⟩
        have er := hr.mpr ⟨i1r, fun x hx => ⟨b x hx, (bd x (Or.inr (Or.inr hx))).2⟩⟩
        rw [if_neg (by omega), if_pos ⟨by omega, by omega⟩]

/-! Order and membership after `insert` and `deleteNode` -/

theorem insert_mem (v : Variant) (key : Int) (t t2 : BSTNode) (h1 : I1 t)
    (h : insert v t key = some t2) (x : Int) :
    x ∈ inorder t2 ↔ x ∈ inorder t ∨ x = key := by
  rw [insert_inorder v key t t2 h1 h]
  split_ifs with c
  · constructor
    · exact Or.inl
    · rintro (hx | rfl)
      · exact hx
      · exact c
  · rw [List.mem_orderedInsert]
    exact or_comm

theorem insert_I1 (v : Variant) (key : Int) (t t2 : BSTNode) (h1 : I1 t)
    (h : insert v t key = some t2) : I1 t2 := by
  have hs := (I1_iff_sorted t).mp h1
  rw [I1_iff_sorted, insert_inorder v key t t2 h1 h]
  split_ifs with c
  · exact hs
  · have hle : ((inorder t).orderedInsert (· ≤ ·) key).Sorted (· ≤ ·) :=
      List.Sorted.orderedInsert key _ hs.le_of_lt
    have hnd : ((inorder t).orderedInsert (· ≤ ·) key).Nodup :=
      (List.perm_orderedInsert (· ≤ ·) key (inorder t)).nodup_iff.mpr
        (List.nodup_cons.mpr ⟨c, hs.nodup⟩)
    exact hle.lt_of_le hnd

theorem delete_mem (key : Int) (t t2 : BSTNode) (h1 : I1 t)
    (h : deleteNode t key = some t2) (x : Int) :
    x ∈ inorder t2 ↔ x ∈ inorder t ∧ x ≠ key := by
  rw [delete_inorder t key t2 h1 h, ((I1_iff_sorted t).mp h1).nodup.mem_erase_iff]
  exact and_comm

theorem delete_I1 (key : Int) (t t2 : BSTNode) (h1 : I1 t)
    (h : deleteNode t key = some t2) : I1 t2 := by
  have hs := (I1_iff_sorted t).mp h1
  rw [I1_iff_sorted, delete_inorder t key t2 h1 h]
  exact List.Pairwise.sublist (List.erase_sublist key (inorder t)) hs

/-! `search` and the duplicate insert -/

theorem search_spec (key : Int) : ∀ t : BSTNode, I1 t →
    (key ∈ inorder t → ∃ l r h, search t key = node key l r h) ∧
      (key ∉ inorder t → search t key = NULL)
  | NULL, _ => by simp [search, inorder]
  | node k l r h, h1 => by
      obtain ⟨a, b, hl1, hr1⟩ := h1
      have ihl := search_spec key l hl1
      have ihr := search_spec key r hr1
      simp only [search, inorder, List.mem_append, List.mem_cons]
      by_cases c0 : k = key
      · subst c0
        simp only [if_true]
        exact ⟨fun _ => ⟨l, r, h, rfl⟩, fun hn => absurd (Or.inr (Or.inl trivial)) hn⟩
      · have hne : key ≠ k := fun e => c0 e.symm
        by_cases c1 : key < k
        · have hnr : key ∉ inorder r := fun hm => absurd (b key hm) (by omega)
          simp only [c0, c1, if_true, if_false, hne, hnr, false_or, or_false]
          exact ihl
        · have hnl : key ∉ inorder l := fun hm => absurd (a key hm) c1
          simp only [c0, c1, if_false, hne, hnl, false_or]
          exact ihr

theorem insert_duplicate (v : Variant) (key : Int) : ∀ t : BSTNode, I1 t → I2 v t → I3 v t →
    key ∈ inorder t → insert v t key = some t
  | NULL, _, _, _, hm => by simp [inorder] at hm
  | node k l r h, h1, h2, h3, hm => by
      obtain ⟨a, b, hl1, hr1⟩ := h1
      obtain ⟨hh, hl2, hr2⟩ := h2
      obtain ⟨⟨b1, b2⟩, hl3, hr3⟩ := h3
      simp only [getBalance] at b1 b2
      simp only [inorder, List.mem_append, List.mem_cons] at hm
      simp only [insert]
      by_cases c1 : key < k
      · have hml : key ∈ inorder l := by
          rcases hm with hm | hm | hm
          · exact hm
          · omega
          · exact absurd (b key hm) (by omega)
        simp only [c1, if_true, insert_duplicate v key l hl1 hl2 hl3 hml, Option.some_bind]
        rw [insertRebalance_balanced v k l r key b1 b2, hh]
      · by_cases c2 : key > k
        · have hmr : key ∈ inorder r := by
            rcases hm with hm | hm | hm
            · exact absurd (a key hm) (by omega)
            · omega
            · exact hm
          simp only [c1, c2, if_true, if_false, insert_duplicate v key r hr1 hr2 hr3 hmr,
            Option.some_bind]
          rw [insertRebalance_balanced v k l r key b1 b2, hh]
        · simp only [c1, c2, if_false]

theorem search_mem_nodes (key : Int) : ∀ t : BSTNode,
    search t key = NULL ∨ search t key ∈ nodes t
  | NULL => Or.inl rfl
  | node k l r h => by
      simp only [search, nodes, List.mem_cons, List.mem_append]
      split_ifs
      · exact Or.inr (Or.inl rfl)
      · rcases search_mem_nodes key l with e | e
        · exact Or.inl e
        · exact Or.inr (Or.inr (Or.inl e))
      · rcases search_mem_nodes key r with e | e
        · exact Or.inl e
        · exact Or.inr (Or.inr (Or.inr e))

theorem I3_iff_nodes (v : Variant) : ∀ t : BSTNode,
    I3 v t ↔ ∀ n ∈ nodes t, -1 ≤ getBalance v n ∧ getBalance v n ≤ 1
  | NULL => by simp [I3, nodes]
  | node k l r h => by
      simp only [I3, nodes, List.mem_cons, List.mem_append, I3_iff_nodes v l, I3_iff_nodes v r]
      constructor
      · rintro ⟨a, b, c⟩ n (rfl | hn | hn)
        · exact a
        · exact b n hn
        · exact c n hn
      · intro a
        exact ⟨a _ (Or.inl rfl), fun n hn => a n (Or.inr (Or.inl hn)),
          fun n hn => a n (Or.inr (Or.inr hn))⟩

theorem I2_iff_nodes (v : Variant) : ∀ t : BSTNode,
    I2 v t ↔ ∀ k l r h, node k l r h ∈ nodes t →
      h = 1 + max (getHeight v l) (getHeight v r)
  | NULL => by simp [I2, nodes]
  | node k l r h => by
      have hmax : newHeight v l r = 1 + max (getHeight v l) (getHeight v r) := by
        simp only [newHeight]
        split_ifs <;> omega
      simp only [I2, nodes, List.mem_cons, List.mem_append, I2_iff_nodes v l, I2_iff_nodes v r,
        hmax]
      constructor
      · rintro ⟨a, b, c⟩ k2 l2 r2 h2 (e | hn | hn)
        · cases e
          exact a
        · exact b _ _ _ _ hn
        · exact c _ _ _ _ hn
      · intro a
        exact ⟨a _ _ _ _ (Or.inl rfl), fun _ _ _ _ hn => a _ _ _ _ (Or.inr (Or.inl hn)),
          fun _ _ _ _ hn => a _ _ _ _ (Or.inr (Or.inr hn))⟩

/-- A driver of 15.c that starts from a well-formed tree holds a well-formed tree after any
calls, and its keys are the keys inserted and not subsequently deleted. -/
theorem runOps_spec : ∀ (ops : List Op) (t : BSTNode), I1 t → I2 .c15 t → I3 .c15 t →
    ∃ t2, runOps t ops = some t2 ∧ I1 t2 ∧ I2 .c15 t2 ∧ I3 .c15 t2 ∧
      ∀ k, k ∈ inorder t2 ↔ liveAfter k (decide (k ∈ inorder t)) ops = true
  | [], t, h1, h2, h3 => ⟨t, rfl, h1, h2, h3, fun k => by simp [liveAfter]⟩
  | Op.ins x :: ops, t, h1, h2, h3 => by
      obtain ⟨t1, e, a2, a3, -⟩ := insert_core .c15 x t h2 h3
      have a1 := insert_I1 .c15 x t t1 h1 e
      obtain ⟨t2, e2, c1, c2, c3, hm⟩ := runOps_spec ops t1 a1 a2 a3
      refine ⟨t2, by simp only [runOps, e, Option.some_bind, e2], c1, c2, c3, fun k => ?_⟩
      rw [hm k]
      simp only [liveAfter]
      have := insert_mem .c15 x t t1 h1 e k
      by_cases c : x = k
      · subst c
        simp [this]
      · have c' : k ≠ x := fun e => c e.symm
        simp [this, c, c']
  | Op.del x :: ops, t, h1, h2, h3 => by
      obtain ⟨t1, e, a2, a3, -⟩ := delete_core t x h2 h3
      have a1 := delete_I1 x t t1 h1 e
      obtain ⟨t2, e2, c1, c2, c3, hm⟩ := runOps_spec ops t1 a1 a2 a3
      refine ⟨t2, by simp only [runOps, e, Option.some_bind, e2], c1, c2, c3, fun k => ?_⟩
      rw [hm k]
      simp only [liveAfter]
      have := delete_mem x t t1 h1 e k
      by_cases c : x = k
      · subst c
        simp [this]
      · have c' : k ≠ x := fun e => c e.symm
        simp [this, c, c']

/-! The invariants are kept by `insert` -/

/-- Claim C1: insert preserves the balance invariant I3.  In both variants (15.c and 8.c),
on every tree with consistent cached heights (I2) whose `isBalanced` is 1 and for every key,
`insert` returns a tree whose `isBalanced` is 1, that is, every node of the result has
`getBalance` between -1 and 1; the empty tree satisfies the invariant.  The order invariant
I1 is not needed for this. -/
theorem insert_preserves_I3 (v : Variant) (t : BSTNode) (k : Int)
    (h2 : I2 v t) (h3 : isBalanced v t = 1) :
    isBalanced v NULL = 1 ∧
      ∃ t2, insert v t k = some t2 ∧ isBalanced v t2 = 1 ∧
        ∀ n ∈ nodes t2, -1 ≤ getBalance v n ∧ getBalance v n ≤ 1 := by
  obtain ⟨t2, e, -, a3, -⟩ := insert_core v k t h2 ((isBalanced_eq_one_iff v t).mp h3)
  exact ⟨rfl, t2, e, (isBalanced_eq_one_iff v t2).mpr a3, (I3_iff_nodes v t2).mp a3⟩

theorem insert_preserves_I3_witness :
    isBalanced .c8 NULL = 1 ∧
      ∃ t2, insert .c8 (node 20 (node 10 NULL NULL 0) NULL 1) 5 = some t2 ∧
        isBalanced .c8 t2 = 1 ∧
        ∀ n ∈ nodes t2, -1 ≤ getBalance .c8 n ∧ getBalance .c8 n ≤ 1 :=
  insert_preserves_I3 .c8 (node 20 (node 10 NULL NULL 0) NULL 1) 5 (by decide) (by decide)

/-- Claim C2: insert preserves the order invariant I1 within exclusive bounds.  In both
variants, on every tree with consistent heights (I2) and balanced nodes (I3), for all
`lo < k < hi` with `isValidBST(t, lo, hi) = 1`, `insert(t, k)` returns a tree on which
`isValidBST` with the same bounds is 1. -/
theorem insert_preserves_isValidBST (v : Variant) (t : BSTNode) (k lo hi : Int)
    (h2 : I2 v t) (h3 : isBalanced v t = 1) (hlo : lo < k) (hhi : k < hi)
    (hv : isValidBST t lo hi = 1) :
    ∃ t2, insert v t k = some t2 ∧ isValidBST t2 lo hi = 1 := by
  obtain ⟨t2, e, -, -, -⟩ := insert_core v k t h2 ((isBalanced_eq_one_iff v t).mp h3)
  obtain ⟨h1, hb⟩ := (isValidBST_eq_one_iff t lo hi).mp hv
  refine ⟨t2, e, (isValidBST_eq_one_iff t2 lo hi).mpr ⟨insert_I1 v k t t2 h1 e, ?_⟩⟩
  intro x hx
  rcases (insert_mem v k t t2 h1 e x).mp hx with hx | rfl
  · exact hb x hx
  · exact ⟨hlo, hhi⟩

theorem insert_preserves_isValidBST_witness :
    ∃ t2, insert .c15 (node 30 NULL (node 40 NULL NULL 1) 2) 35 = some t2 ∧
      isValidBST t2 (-1) 101 = 1 :=
  insert_preserves_isValidBST .c15 (node 30 NULL (node 40 NULL NULL 1) 2) 35 (-1) 101
    (by decide) (by decide) (by decide) (by decide) (by decide)

/-- Claim C3: insert preserves height consistency I2.  In both variants, on every tree in
which every cached height is `1 + max(getHeight(left), getHeight(right))` and whose nodes
are balanced (I3), and for every key, `insert` returns a tree in which every node again has
`height == 1 + max(getHeight(left), getHeight(right))`; in 15.c `getHeight(NULL)` is 0 and a
new leaf has height 1, in 8.c they are -1 and 0.  The order invariant I1 is not needed. -/
theorem insert_preserves_I2 (v : Variant) (t : BSTNode) (k : Int)
    (h2 : I2 v t) (h3 : isBalanced v t = 1) :
    (∃ t2, insert v t k = some t2 ∧ I2 v t2 ∧
        ∀ x l r h, node x l r h ∈ nodes t2 → h = 1 + max (getHeight v l) (getHeight v r)) ∧
      getHeight .c15 NULL = 0 ∧ createNode .c15 k = node k NULL NULL 1 ∧
      getHeight .c8 NULL = -1 ∧ createNode .c8 k = node k NULL NULL 0 := by
  obtain ⟨t2, e, a2, -, -⟩ := insert_core v k t h2 ((isBalanced_eq_one_iff v t).mp h3)
  exact ⟨⟨t2, e, a2, (I2_iff_nodes v t2).mp a2⟩, rfl, rfl, rfl, rfl⟩

theorem insert_preserves_I2_witness :
    (∃ t2, insert .c15 (node 30 (node 10 NULL NULL 1) NULL 2) 20 = some t2 ∧ I2 .c15 t2 ∧
        ∀ x l r h, node x l r h ∈ nodes t2 →
          h = 1 + max (getHeight .c15 l) (getHeight .c15 r)) ∧
      getHeight .c15 NULL = 0 ∧ createNode .c15 20 = node 20 NULL NULL 1 ∧
      getHeight .c8 NULL = -1 ∧ createNode .c8 20 = node 20 NULL NULL 0 :=
  insert_preserves_I2 .c15 (node 30 (node 10 NULL NULL 1) NULL 2) 20 (by decide) (by decide)

/-! The invariants are kept by `deleteNode` -/

/-- Claim C4: delete preserves the balance invariant I3.  On every tree of 15.c with
consistent cached heights (I2) whose `isBalanced` is 1 and for every key, present in the
tree or not, `deleteNode` returns a tree whose `isBalanced` is 1: every node of the result
has `getBalance` between -1 and 1.  The order invariant I1 is not needed for this. -/
theorem deleteNode_preserves_I3 (t : BSTNode) (k : Int)
    (h2 : I2 .c15 t) (h3 : isBalanced .c15 t = 1) :
    ∃ t2, deleteNode t k = some t2 ∧ isBalanced .c15 t2 = 1 ∧
      ∀ n ∈ nodes t2, -1 ≤ getBalance .c15 n ∧ getBalance .c15 n ≤ 1 := by
  obtain ⟨t2, e, -, a3, -⟩ := delete_core t k h2 ((isBalanced_eq_one_iff .c15 t).mp h3)
  exact ⟨t2, e, (isBalanced_eq_one_iff .c15 t2).mpr a3, (I3_iff_nodes .c15 t2).mp a3⟩

theorem deleteNode_preserves_I3_witness :
    ∃ t2, deleteNode (node 20 (node 10 (node 5 NULL NULL 1) NULL 2) (node 30 NULL NULL 1) 3) 30
        = some t2 ∧ isBalanced .c15 t2 = 1 ∧
      ∀ n ∈ nodes t2, -1 ≤ getBalance .c15 n ∧ getBalance .c15 n ≤ 1 :=
  deleteNode_preserves_I3 (node 20 (node 10 (node 5 NULL NULL 1) NULL 2) (node 30 NULL NULL 1) 3)
    30 (by decide) (by decide)

/-- Claim C5: delete preserves the order invariant I1 within exclusive bounds.  On every
tree of 15.c with consistent heights (I2) and balanced nodes (I3), for all bounds with
`isValidBST(t, lo, hi) = 1` and every key, `deleteNode(t, k)` returns a tree on which
`isValidBST` with the same bounds is 1; this includes the case of a node with two children,
whose key is overwritten by the key of its inorder successor. -/
theorem deleteNode_preserves_isValidBST (t : BSTNode) (k lo hi : Int)
    (h2 : I2 .c15 t) (h3 : isBalanced .c15 t = 1) (hv : isValidBST t lo hi = 1) :
    ∃ t2, deleteNode t k = some t2 ∧ isValidBST t2 lo hi = 1 := by
  obtain ⟨t2, e, -, -, -⟩ := delete_core t k h2 ((isBalanced_eq_one_iff .c15 t).mp h3)
  obtain ⟨h1, hb⟩ := (isValidBST_eq_one_iff t lo hi).mp hv
  refine ⟨t2, e, (isValidBST_eq_one_iff t2 lo hi).mpr ⟨delete_I1 k t t2 h1 e, ?_⟩⟩
  intro x hx
  exact hb x ((delete_mem k t t2 h1 e x).mp hx).1

theorem deleteNode_preserves_isValidBST_witness :
    ∃ t2, deleteNode (node 20 (node 10 NULL NULL 1) (node 30 (node 25 NULL NULL 1) NULL 2) 3) 20
        = some t2 ∧ isValidBST t2 (-1) 101 = 1 :=
  deleteNode_preserves_isValidBST
    (node 20 (node 10 NULL NULL 1) (node 30 (node 25 NULL NULL 1) NULL 2) 3) 20 (-1) 101
    (by decide) (by decide) (by decide)

/-- Claim C6: delete preserves height consistency I2.  On every tree of 15.c with
consistent cached heights (I2) and balanced nodes (I3) and for every key, every node `n` of
`deleteNode(t, k)` has `n.height == 1 + max(getHeight(n.left), getHeight(n.right))`.  The
order invariant I1 is not needed for this. -/
theorem deleteNode_preserves_I2 (t : BSTNode) (k : Int)
    (h2 : I2 .c15 t) (h3 : isBalanced .c15 t = 1) :
    ∃ t2, deleteNode t k = some t2 ∧ I2 .c15 t2 ∧
      ∀ x l r h, node x l r h ∈ nodes t2 →
        h = 1 + max (getHeight .c15 l) (getHeight .c15 r) := by
  obtain ⟨t2, e, a2, -, -⟩ := delete_core t k h2 ((isBalanced_eq_one_iff .c15 t).mp h3)
  exact ⟨t2, e, a2, (I2_iff_nodes .c15 t2).mp a2⟩

theorem deleteNode_preserves_I2_witness :
    ∃ t2, deleteNode (node 20 (node 10 NULL NULL 1) (node 30 NULL (node 40 NULL NULL 1) 2) 3) 10
        = some t2 ∧ I2 .c15 t2 ∧
      ∀ x l r h, node x l r h ∈ nodes t2 →
        h = 1 + max (getHeight .c15 l) (getHeight .c15 r) :=
  deleteNode_preserves_I2
    (node 20 (node 10 NULL NULL 1) (node 30 NULL (node 40 NULL NULL 1) 2) 3) 10
    (by decide) (by decide)

/-! What `insert`, `deleteNode` and `search` compute -/

/-- Claim C7: insert adds exactly the key.  In both variants, on every tree that satisfies
I1, I2 and I3 and for every key `k`, `insert(t, k)` returns a tree whose inorder key
sequence is the inorder sequence of `t` with `k` put at its sorted position when `k` is not
a key of `t` (the result is again strictly increasing), and is the inorder sequence of `t`
itself when `k` is a key of `t`; so the keys of the result are the keys of `t` and `k`. -/
theorem insert_adds_exactly_key (v : Variant) (t : BSTNode) (k : Int)
    (h1 : I1 t) (h2 : I2 v t) (h3 : isBalanced v t = 1) :
    ∃ t2, insert v t k = some t2 ∧
      (k ∉ inorder t → inorder t2 = (inorder t).orderedInsert (· ≤ ·) k) ∧
      (k ∈ inorder t → inorder t2 = inorder t) ∧
      (inorder t2).Sorted (· < ·) ∧
      ∀ x, x ∈ inorder t2 ↔ x ∈ inorder t ∨ x = k := by
  obtain ⟨t2, e, -, -, -⟩ := insert_core v k t h2 ((isBalanced_eq_one_iff v t).mp h3)
  have hi := insert_inorder v k t t2 h1 e
  refine ⟨t2, e, fun hn => ?_, fun hm => ?_, (I1_iff_sorted t2).mp (insert_I1 v k t t2 h1 e),
    insert_mem v k t t2 h1 e⟩
  · rw [hi, if_neg hn]
  · rw [hi, if_pos hm]

theorem insert_adds_exactly_key_witness :
    ∃ t2, insert .c8 (node 20 (node 10 NULL NULL 0) (node 30 NULL NULL 0) 1) 25 = some t2 ∧
      (25 ∉ inorder (node 20 (node 10 NULL NULL 0) (node 30 NULL NULL 0) 1) →
        inorder t2 = (inorder (node 20 (node 10 NULL NULL 0) (node 30 NULL NULL 0) 1)).orderedInsert
          (· ≤ ·) 25) ∧
      (25 ∈ inorder (node 20 (node 10 NULL NULL 0) (node 30 NULL NULL 0) 1) →
        inorder t2 = inorder (node 20 (node 10 NULL NULL 0) (node 30 NULL NULL 0) 1)) ∧
      (inorder t2).Sorted (· < ·) ∧
      ∀ x, x ∈ inorder t2 ↔
        x ∈ inorder (node 20 (node 10 NULL NULL 0) (node 30 NULL NULL 0) 1) ∨ x = 25 :=
  insert_adds_exactly_key .c8 (node 20 (node 10 NULL NULL 0) (node 30 NULL NULL 0) 1) 25
    (by decide) (by decide) (by decide)

/-- Claim C8: delete removes exactly the key.  On every tree of 15.c that satisfies I1, I2
and I3 and for every key `k`, `deleteNode(t, k)` returns a tree whose inorder key sequence
is the inorder sequence of `t` with `k` removed, and is that sequence unchanged when `k` is
not a key of `t`; no key other than `k` is lost or duplicated, also when the node found has
two children and receives the key of its successor. -/
theorem deleteNode_removes_exactly_key (t : BSTNode) (k : Int)
    (h1 : I1 t) (h2 : I2 .c15 t) (h3 : isBalanced .c15 t = 1) :
    ∃ t2, deleteNode t k = some t2 ∧
      inorder t2 = (inorder t).erase k ∧
      (k ∉ inorder t → inorder t2 = inorder t) ∧
      k ∉ inorder t2 ∧
      ∀ x, x ≠ k → (inorder t2).count x = (inorder t).count x := by
  obtain ⟨t2, e, -, -, -⟩ := delete_core t k h2 ((isBalanced_eq_one_iff .c15 t).mp h3)
  have hi := delete_inorder t k t2 h1 e
  refine ⟨t2, e, hi, fun hn => ?_, fun hm => ?_, fun x hx => ?_⟩
  · rw [hi, List.erase_of_not_mem hn]
  · exact ((delete_mem k t t2 h1 e k).mp hm).2 rfl
  · rw [hi, List.count_erase_of_ne hx]

theorem deleteNode_removes_exactly_key_witness :
    ∃ t2, deleteNode (node 20 (node 10 NULL NULL 1) (node 30 NULL NULL 1) 2) 20 = some t2 ∧
      inorder t2 = (inorder (node 20 (node 10 NULL NULL 1) (node 30 NULL NULL 1) 2)).erase 20 ∧
      (20 ∉ inorder (node 20 (node 10 NULL NULL 1) (node 30 NULL NULL 1) 2) →
        inorder t2 = inorder (node 20 (node 10 NULL NULL 1) (node 30 NULL NULL 1) 2)) ∧
      20 ∉ inorder t2 ∧
      ∀ x, x ≠ 20 → (inorder t2).count x =
        (inorder (node 20 (node 10 NULL NULL 1) (node 30 NULL NULL 1) 2)).count x :=
  deleteNode_removes_exactly_key (node 20 (node 10 NULL NULL 1) (node 30 NULL NULL 1) 2) 20
    (by decide) (by decide) (by decide)

/-- Claim C9: search correctness.  On every tree that satisfies I1 and for every key `k`,
`search(t, k)` returns a node of `t` whose key is `k` when `k` is among the keys of `t`, and
returns NULL otherwise; on the empty tree it returns NULL for every key.  Consequently, on
the tree a driver of 15.c has built from the empty tree by any calls of `insert` and
`deleteNode`, `search` finds exactly the keys inserted and not subsequently deleted. -/
theorem search_correct (t : BSTNode) (k : Int) (h1 : I1 t) :
    (k ∈ inorder t → ∃ l r h, search t k = node k l r h ∧ node k l r h ∈ nodes t) ∧
      (k ∉ inorder t → search t k = NULL) ∧
      search NULL k = NULL ∧
      ∀ ops : List Op, ∃ t2, runOps NULL ops = some t2 ∧
        (liveAfter k false ops = true → ∃ l r h, search t2 k = node k l r h) ∧
        (liveAfter k false ops = false → search t2 k = NULL) := by
  refine ⟨fun hm => ?_, (search_spec k t h1).2, rfl, fun ops => ?_⟩
  · obtain ⟨l, r, h, e⟩ := (search_spec k t h1).1 hm
    refine ⟨l, r, h, e, ?_⟩
    rcases search_mem_nodes k t with e2 | e2
    · rw [e] at e2
      exact absurd e2 (by simp)
    · rw [e] at e2
      exact e2
  · obtain ⟨t2, e, a1, -, -, hm⟩ := runOps_spec ops NULL trivial trivial trivial
    have hk := hm k
    simp only [inorder, List.not_mem_nil, decide_False] at hk
    refine ⟨t2, e, fun hl => (search_spec k t2 a1).1 (hk.mpr hl), fun hl => ?_⟩
    refine (search_spec k t2 a1).2 (fun hin => ?_)
    rw [hk.mp hin] at hl
    exact absurd hl (by decide)

theorem search_correct_witness :
    (15 ∈ inorder (node 10 (node 5 NULL NULL 1) (node 15 NULL NULL 1) 2) →
        ∃ l r h, search (node 10 (node 5 NULL NULL 1) (node 15 NULL NULL 1) 2) 15 = node 15 l r h ∧
          node 15 l r h ∈ nodes (node 10 (node 5 NULL NULL 1) (node 15 NULL NULL 1) 2)) ∧
      (15 ∉ inorder (node 10 (node 5 NULL NULL 1) (node 15 NULL NULL 1) 2) →
        search (node 10 (node 5 NULL NULL 1) (node 15 NULL NULL 1) 2) 15 = NULL) ∧
      search NULL 15 = NULL ∧
      ∀ ops : List Op, ∃ t2, runOps NULL ops = some t2 ∧
        (liveAfter 15 false ops = true → ∃ l r h, search t2 15 = node 15 l r h) ∧
        (liveAfter 15 false ops = false → search t2 15 = NULL) :=
  search_correct (node 10 (node 5 NULL NULL 1) (node 15 NULL NULL 1) 2) 15 (by decide)

/-- Claim C10: a duplicate insert is a no-op.  In both variants, on every tree that
satisfies I1, I2 and I3 and for every key `k` that is already a key of the tree,
`insert(t, k)` returns `t` itself: same shape, same keys and the same cached height at every
node.  Inserting one key twice into the empty tree leaves `countNodes` at 1, `search` still
finds the key, and the height of the root is unchanged. -/
theorem insert_duplicate_noop (v : Variant) (t : BSTNode) (k : Int)
    (h1 : I1 t) (h2 : I2 v t) (h3 : isBalanced v t = 1) (hk : k ∈ inorder t) :
    insert v t k = some t ∧
      ∀ x : Int, ∃ t1 t2, insert v NULL x = some t1 ∧ insert v t1 x = some t2 ∧
        countNodes t1 = 1 ∧ countNodes t2 = 1 ∧ keyOf (search t2 x) = some x ∧
        getHeight v t2 = getHeight v t1 ∧ t2 = t1 := by
  refine ⟨insert_duplicate v k t h1 h2 ((isBalanced_eq_one_iff v t).mp h3) hk, fun x => ?_⟩
  refine ⟨createNode v x, createNode v x, rfl, ?_, ?_, ?_, ?_, rfl, rfl⟩
  · simp [createNode, insert]
  · simp [createNode, countNodes]
  · simp [createNode, countNodes]
  · simp [createNode, search, keyOf]

theorem insert_duplicate_noop_witness :
    insert .c15 (node 20 (node 10 NULL NULL 1) (node 30 NULL (node 40 NULL NULL 1) 2) 3) 40 =
        some (node 20 (node 10 NULL NULL 1) (node 30 NULL (node 40 NULL NULL 1) 2) 3) ∧
      ∀ x : Int, ∃ t1 t2, insert .c15 NULL x = some t1 ∧ insert .c15 t1 x = some t2 ∧
        countNodes t1 = 1 ∧ countNodes t2 = 1 ∧ keyOf (search t2 x) = some x ∧
        getHeight .c15 t2 = getHeight .c15 t1 ∧ t2 = t1 :=
  insert_duplicate_noop .c15
    (node 20 (node 10 NULL NULL 1) (node 30 NULL (node 40 NULL NULL 1) 2) 3) 40
    (by decide) (by decide) (by decide) (by decide)

/-! Absent keys and node counts -/

theorem delete_absent (key : Int) : ∀ t : BSTNode, I2 .c15 t → I3 .c15 t →
    key ∉ inorder t → deleteNode t key = some t
  | NULL, _, _, _ => rfl
  | node k l r h, h2, h3, hn => by
      obtain ⟨hh, hl2, hr2⟩ := h2
      obtain ⟨⟨b1, b2⟩, hl3, hr3⟩ := h3
      simp only [getBalance] at b1 b2
      simp only [inorder, List.mem_append, List.mem_cons, not_or] at hn
      obtain ⟨hnl, hne, hnr⟩ := hn
      simp only [deleteNode]
      by_cases c1 : key < k
      · simp only [c1, if_true, delete_absent key l hl2 hl3 hnl, Option.some_bind]
        rw [deleteRebalance_balanced k l r h b1 b2, hh]
      · by_cases c2 : key > k
        · simp only [c1, c2, if_true, if_false, delete_absent key r hr2 hr3 hnr,
            Option.some_bind]
          rw [deleteRebalance_balanced k l r h b1 b2, hh]
        · exact absurd (show key = k by omega) hne

theorem countNodes_eq_length : ∀ t : BSTNode, countNodes t = ((inorder t).length : Int)
  | NULL => rfl
  | node k l r h => by
      simp only [countNodes, inorder, List.length_append, List.length_cons,
        countNodes_eq_length l, countNodes_eq_length r]
      push_cast
      omega

theorem insert_count (v : Variant) (key : Int) (t t2 : BSTNode) (h1 : I1 t)
    (h : insert v t key = some t2) :
    countNodes t2 = if key ∈ inorder t then countNodes t else countNodes t + 1 := by
  rw [countNodes_eq_length, countNodes_eq_length, insert_inorder v key t t2 h1 h]
  split_ifs
  · rfl
  · rw [List.orderedInsert_length]
    push_cast
    rfl

theorem delete_count (key : Int) (t t2 : BSTNode) (h1 : I1 t)
    (h : deleteNode t key = some t2) :
    countNodes t2 = if key ∈ inorder t then countNodes t - 1 else countNodes t := by
  rw [countNodes_eq_length, countNodes_eq_length, delete_inorder t key t2 h1 h]
  split_ifs with c
  · rw [List.length_erase_of_mem c]
    have : 0 < (inorder t).length := List.length_pos_of_mem c
    omega
  · rw [List.erase_of_not_mem c]

/-- A driver that inserts pairwise distinct new keys into a well-formed tree holds a
well-formed tree with one more node per key. -/
theorem insertAll_spec (v : Variant) : ∀ (ks : List Int) (t : BSTNode),
    I1 t → I2 v t → I3 v t → ks.Nodup → (∀ k ∈ ks, k ∉ inorder t) →
    ∃ t2, insertAll v t ks = some t2 ∧ I1 t2 ∧ I2 v t2 ∧ I3 v t2 ∧
      countNodes t2 = countNodes t + ks.length ∧
      ∀ x, x ∈ inorder t2 ↔ x ∈ inorder t ∨ x ∈ ks
  | [], t, h1, h2, h3, _, _ => ⟨t, rfl, h1, h2, h3, by simp, fun x => by simp⟩
  | k :: ks, t, h1, h2, h3, hnd, hnew => by
      obtain ⟨t1, e, a2, a3, -⟩ := insert_core v k t h2 h3
      have a1 := insert_I1 v k t t1 h1 e
      have hm := insert_mem v k t t1 h1 e
      have hc := insert_count v k t t1 h1 e
      rw [if_neg (hnew k (List.mem_cons_self k ks))] at hc
      obtain ⟨hk, hnd2⟩ := List.nodup_cons.mp hnd
      have hnew2 : ∀ x ∈ ks, x ∉ inorder t1 := by
        intro x hx hin
        rcases (hm x).mp hin with hin | rfl
        · exact hnew x (List.mem_cons_of_mem k hx) hin
        · exact hk hx
      obtain ⟨t2, e2, c1, c2, c3, c4, c5⟩ := insertAll_spec v ks t1 a1 a2 a3 hnd2 hnew2
      refine ⟨t2, by simp only [insertAll, e, Option.some_bind, e2], c1, c2, c3, ?_, fun x => ?_⟩
      · rw [c4, hc, List.length_cons]
        push_cast
        omega
      · rw [c5 x, hm x, List.mem_cons]
        tauto

/-! No NULL pointer is dereferenced on well-formed trees -/

theorem andKey_true (c : Prop) [Decidable c] (hc : c) (p : BSTNode) (rel : Int → Bool) :
    andKey (decide c) p rel = (keyOf p).map rel := by
  simp [andKey, hc]

theorem andKey_false (c : Prop) [Decidable c] (hc : ¬ c) (p : BSTNode) (rel : Int → Bool) :
    andKey (decide c) p rel = some false := by
  simp [andKey, hc]

theorem insertRebalance_some_derefs (v : Variant) (k : Int) (l r : BSTNode) (key : Int)
    (t2 : BSTNode) (h : insertRebalance v k l r key = some t2) :
    (getHeight v l - getHeight v r > 1 →
        ∃ lk ll lr lh, l = node lk ll lr lh ∧
          (key > lk → ∃ mk ml mr mh, lr = node mk ml mr mh)) ∧
      (getHeight v l - getHeight v r < -1 →
        ∃ rk rl rr rh, r = node rk rl rr rh ∧
          (key < rk → ∃ mk ml mr mh, rl = node mk ml mr mh)) := by
  unfold insertRebalance at h
  simp only [getBalance] at h
  constructor
  · intro hb
    have nb : ¬ (getHeight v l - getHeight v r < -1) := by omega
    cases l with
    | NULL =>
      simp only [andKey_true _ hb, andKey_false _ nb] at h
      simp [keyOf] at h
    | node lk ll lr lh =>
      refine ⟨lk, ll, lr, lh, rfl, fun hk => ?_⟩
      cases lr with
      | NULL =>
        have a : ¬ (key < lk) := by omega
        simp only [andKey_true _ hb, andKey_false _ nb] at h
        simp [keyOf, a, hk, leftRotate] at h
      | node mk ml mr mh => exact ⟨mk, ml, mr, mh, rfl⟩
  · intro hb
    have nb : ¬ (getHeight v l - getHeight v r > 1) := by omega
    cases r with
    | NULL =>
      simp only [andKey_true _ hb, andKey_false _ nb] at h
      simp [keyOf] at h
    | node rk rl rr rh =>
      refine ⟨rk, rl, rr, rh, rfl, fun hk => ?_⟩
      cases rl with
      | NULL =>
        have a : ¬ (key > rk) := by omega
        simp only [andKey_true _ hb, andKey_false _ nb] at h
        simp [keyOf, a, hk, rightRotate] at h
      | node mk ml mr mh => exact ⟨mk, ml, mr, mh, rfl⟩

theorem insertSteps_some (v : Variant) (key : Int) : ∀ t : BSTNode, I2 v t → I3 v t →
    ∀ k0 l r, (k0, l, r) ∈ insertSteps v t key → ∃ t2, insertRebalance v k0 l r key = some t2
  | NULL, _, _ => by simp [insertSteps]
  | node k l r h, h2, h3 => by
      obtain ⟨hh, hl2, hr2⟩ := h2
      obtain ⟨⟨b1, b2⟩, hl3, hr3⟩ := h3
      simp only [getBalance] at b1 b2
      intro k0 l0 r0 hs
      simp only [insertSteps] at hs
      by_cases c1 : key < k
      · obtain ⟨l2, e, a2, a3, g⟩ := insert_core v key l hl2 hl3
        simp only [c1, if_true, e, List.mem_append, List.mem_singleton, Prod.mk.injEq] at hs
        rcases hs with hs | ⟨rfl, rfl, rfl⟩
        · exact insertSteps_some v key l hl2 hl3 k0 l0 r0 hs
        · obtain ⟨t2, e2, -⟩ := insert_step_left v k0 l l0 r0 key a2 a3 hr2 hr3 hl2 b1 b2 c1 g
          exact ⟨t2, e2⟩
      · by_cases c2 : key > k
        · obtain ⟨r2, e, a2, a3, g⟩ := insert_core v key r hr2 hr3
          simp only [c1, c2, if_true, if_false, e, List.mem_append, List.mem_singleton,
            Prod.mk.injEq] at hs
          rcases hs with hs | ⟨rfl, rfl, rfl⟩
          · exact insertSteps_some v key r hr2 hr3 k0 l0 r0 hs
          · obtain ⟨t2, e2, -⟩ :=
              insert_step_right v k0 l0 r r0 key a2 a3 hl2 hl3 hr2 b1 b2 c2 g
            exact ⟨t2, e2⟩
        · simp [c1, c2] at hs

theorem deleteRebalance_some_derefs (k : Int) (l r : BSTNode) (h0 : Int) (t2 : BSTNode)
    (h : deleteRebalance (node k l r h0) = some t2) :
    (getHeight .c15 l - getHeight .c15 r > 1 →
        ∃ lk ll lr lh, l = node lk ll lr lh ∧
          (getBalance .c15 l < 0 → ∃ mk ml mr mh, lr = node mk ml mr mh)) ∧
      (getHeight .c15 l - getHeight .c15 r < -1 →
        ∃ rk rl rr rh, r = node rk rl rr rh ∧
          (getBalance .c15 r > 0 → ∃ mk ml mr mh, rl = node mk ml mr mh)) := by
  simp only [deleteRebalance, getBalance] at h
  constructor
  · intro hb
    cases l with
    | NULL =>
      rw [if_pos ⟨hb, by simp [getBalance]⟩] at h
      simp [rightRotate] at h
    | node lk ll lr lh =>
      refine ⟨lk, ll, lr, lh, rfl, fun hc => ?_⟩
      cases lr with
      | NULL =>
        simp only [getBalance] at hc h
        rw [if_neg (by omega), if_pos ⟨hb, hc⟩] at h
        simp [leftRotate] at h
      | node mk ml mr mh => exact ⟨mk, ml, mr, mh, rfl⟩
  · intro hb
    cases r with
    | NULL =>
      rw [if_neg (by omega), if_neg (by omega), if_pos ⟨hb, by simp [getBalance]⟩] at h
      simp [leftRotate] at h
    | node rk rl rr rh =>
      refine ⟨rk, rl, rr, rh, rfl, fun hc => ?_⟩
      cases rl with
      | NULL =>
        simp only [getBalance] at hc h
        rw [if_neg (by omega), if_neg (by omega), if_neg (by omega), if_pos ⟨hb, hc⟩] at h
        simp [rightRotate] at h
      | node mk ml mr mh => exact ⟨mk, ml, mr, mh, rfl⟩

theorem deleteSteps_some : ∀ (t : BSTNode) (key : Int), I2 .c15 t → I3 .c15 t →
    ∀ s ∈ deleteSteps t key, ∃ k l r h t2, s = node k l r h ∧ deleteRebalance s = some t2 := by
  intro t
  induction t with
  | NULL => intro key _ _ s hs; simp [deleteSteps] at hs
  | node k l r h ihl ihr =>
    intro key h2 h3 s hs
    obtain ⟨hh, hl2, hr2⟩ := h2
    obtain ⟨⟨b1, b2⟩, hl3, hr3⟩ := h3
    simp only [getBalance] at b1 b2
    simp only [deleteSteps] at hs
    by_cases c1 : key < k
    · obtain ⟨l2, e, a2, a3, g⟩ := delete_core l key hl2 hl3
      simp only [c1, if_true, e, List.mem_append, List.mem_singleton] at hs
      rcases hs with hs | rfl
      · exact ihl key hl2 hl3 s hs
      · obtain ⟨t2, e2, -⟩ := delete_step_left k l l2 r h a2 a3 hr2 hr3 b1 b2 g
        exact ⟨k, l2, r, h, t2, rfl, e2⟩
    · by_cases c2 : key > k
      · obtain ⟨r2, e, a2, a3, g⟩ := delete_core r key hr2 hr3
        simp only [c1, c2, if_true, if_false, e, List.mem_append, List.mem_singleton] at hs
        rcases hs with hs | rfl
        · exact ihr key hr2 hr3 s hs
        · obtain ⟨t2, e2, -⟩ := delete_step_right k l r r2 h a2 a3 hl2 hl3 b1 b2 g
          exact ⟨k, l, r2, h, t2, rfl, e2⟩
      · simp only [c1, c2, if_false] at hs
        by_cases c3 : l = NULL
        · simp [c3] at hs
        · by_cases c4 : r = NULL
          · simp [c3, c4] at hs
          · obtain ⟨tk, etk⟩ := keyOf_findMin r c4
            obtain ⟨r2, e, a2, a3, g⟩ := delete_core r tk hr2 hr3
            simp only [c3, c4, if_false, etk, e, List.mem_append, List.mem_singleton] at hs
            rcases hs with hs | rfl
            · exact ihr tk hr2 hr3 s hs
            · obtain ⟨t2, e2, -⟩ := delete_step_right tk l r r2 h a2 a3 hl2 hl3 b1 b2 g
              exact ⟨tk, l, r2, h, t2, rfl, e2⟩

theorem deleteTwoChildren_findMin : ∀ (t : BSTNode) (key : Int),
    ∀ n ∈ deleteTwoChildren t key, n ∈ nodes t ∧
      ∃ k l r h tk, n = node k l r h ∧ l ≠ NULL ∧ r ≠ NULL ∧ keyOf (findMin r) = some tk := by
  intro t
  induction t with
  | NULL => intro key n hn; simp [deleteTwoChildren] at hn
  | node k l r h ihl ihr =>
    intro key n hn
    simp only [deleteTwoChildren] at hn
    simp only [nodes, List.mem_cons, List.mem_append]
    by_cases c1 : key < k
    · simp only [c1, if_true] at hn
      exact ⟨Or.inr (Or.inl (ihl key n hn).1), (ihl key n hn).2⟩
    · by_cases c2 : key > k
      · simp only [c1, c2, if_true, if_false] at hn
        exact ⟨Or.inr (Or.inr (ihr key n hn).1), (ihr key n hn).2⟩
      · simp only [c1, c2, if_false] at hn
        by_cases c3 : l = NULL
        · simp [c3] at hn
        · by_cases c4 : r = NULL
          · simp [c3, c4] at hn
          · obtain ⟨tk, etk⟩ := keyOf_findMin r c4
            simp only [c3, c4, if_false, etk, List.mem_cons] at hn
            rcases hn with rfl | hn
            · exact ⟨Or.inl rfl, k, l, r, h, tk, rfl, c3, c4, etk⟩
            · exact ⟨Or.inr (Or.inr (ihr tk n hn).1), (ihr tk n hn).2⟩

/-! The traversal -/

theorem inorderTraversal_spec : ∀ (t : BSTNode) (arr : Int → Int) (i : Int),
    (inorderTraversal t arr i).2 = i + (inorder t).length ∧
      (∀ j, (j < i ∨ i + (inorder t).length ≤ j) → (inorderTraversal t arr i).1 j = arr j) ∧
      ∀ n : Nat, n < (inorder t).length →
        (inorder t)[n]? = some ((inorderTraversal t arr i).1 (i + n))
  | NULL, arr, i => by simp [inorderTraversal, inorder]
  | node k l r h, arr, i => by
      obtain ⟨l1, l2, l3⟩ := inorderTraversal_spec l arr i
      obtain ⟨r1, r2, r3⟩ := inorderTraversal_spec r
        (Function.update (inorderTraversal l arr i).1 (inorderTraversal l arr i).2 k)
        ((inorderTraversal l arr i).2 + 1)
      simp only [inorderTraversal, inorder, List.length_append, List.length_cons]
      rw [l1] at r1 r2 r3 ⊢
      push_cast
      refine ⟨?_, ?_, ?_⟩
      · rw [r1]; omega
      · intro j hj
        rw [r2 j (by omega), Function.update_noteq (by omega), l2 j (by omega)]
      · intro n hn
        rcases Nat.lt_trichotomy n (inorder l).length with c | c | c
        · rw [List.getElem?_append_left c, l3 n c, r2 _ (by omega),
            Function.update_noteq (by omega)]
        · rw [List.getElem?_append_right (by omega), c, Nat.sub_self, r2 _ (by omega)]
          simp
        · rw [List.getElem?_append_right (by omega)]
          obtain ⟨m, hm⟩ : ∃ m, n = (inorder l).length + 1 + m := ⟨n - (inorder l).length - 1, by omega⟩
          subst hm
          have e1 : (inorder l).length + 1 + m - (inorder l).length = m + 1 := by omega
          have e2 : i + (((inorder l).length + 1 + m : Nat) : Int) =
              i + ((inorder l).length : Int) + 1 + (m : Int) := by
            push_cast
            omega
          rw [e1, List.getElem?_cons_succ, r3 m (by omega), e2]

theorem deleteSteps_absent (key : Int) : ∀ t : BSTNode, I2 .c15 t → I3 .c15 t →
    key ∉ inorder t → ∀ s ∈ deleteSteps t key, s ∈ nodes t ∧ deleteRebalance s = some s
  | NULL, _, _, _ => by simp [deleteSteps]
  | node k l r h, h2, h3, hn => by
      obtain ⟨hh, hl2, hr2⟩ := h2
      obtain ⟨⟨b1, b2⟩, hl3, hr3⟩ := h3
      simp only [getBalance] at b1 b2
      simp only [inorder, List.mem_append, List.mem_cons, not_or] at hn
      obtain ⟨hnl, hne, hnr⟩ := hn
      intro s hs
      simp only [deleteSteps] at hs
      simp only [nodes, List.mem_cons, List.mem_append]
      by_cases c1 : key < k
      · simp only [c1, if_true, delete_absent key l hl2 hl3 hnl, List.mem_append,
          List.mem_singleton] at hs
        rcases hs with hs | rfl
        · have := deleteSteps_absent key l hl2 hl3 hnl s hs
          exact ⟨Or.inr (Or.inl this.1), this.2⟩
        · exact ⟨Or.inl rfl, by rw [deleteRebalance_balanced k l r h b1 b2, hh]⟩
      · by_cases c2 : key > k
        · simp only [c1, c2, if_true, if_false, delete_absent key r hr2 hr3 hnr,
            List.mem_append, List.mem_singleton] at hs
          rcases hs with hs | rfl
          · have := deleteSteps_absent key r hr2 hr3 hnr s hs
            exact ⟨Or.inr (Or.inr this.1), this.2⟩
          · exact ⟨Or.inl rfl, by rw [deleteRebalance_balanced k l r h b1 b2, hh]⟩
        · exact absurd (show key = k by omega) hne

/-! Absent-key delete, counts, delete after insert -/

/-- Claim C11: deleting an absent key leaves the tree unchanged.  On every tree of 15.c
with consistent heights (I2) and balanced nodes (I3) and for every key `k` that is not a key
of the tree, `deleteNode(t, k)` returns `t` itself, the same in shape, keys and every cached
height: each execution of the height update and of the decision table on the way back up
runs on a node of `t` and returns that node as it is.  `deleteNode(NULL, k)` is NULL.  The
order invariant I1 is not needed for this. -/
theorem deleteNode_absent_noop (t : BSTNode) (k : Int)
    (h2 : I2 .c15 t) (h3 : isBalanced .c15 t = 1) (hk : k ∉ inorder t) :
    deleteNode t k = some t ∧
      (∀ s ∈ deleteSteps t k, s ∈ nodes t ∧ deleteRebalance s = some s) ∧
      deleteNode NULL k = some NULL :=
  ⟨delete_absent k t h2 ((isBalanced_eq_one_iff .c15 t).mp h3) hk,
    deleteSteps_absent k t h2 ((isBalanced_eq_one_iff .c15 t).mp h3) hk, rfl⟩

theorem deleteNode_absent_noop_witness :
    deleteNode (node 20 (node 10 NULL NULL 1) (node 30 (node 25 NULL NULL 1) NULL 2) 3) 27 =
        some (node 20 (node 10 NULL NULL 1) (node 30 (node 25 NULL NULL 1) NULL 2) 3) ∧
      (∀ s ∈ deleteSteps
          (node 20 (node 10 NULL NULL 1) (node 30 (node 25 NULL NULL 1) NULL 2) 3) 27,
        s ∈ nodes (node 20 (node 10 NULL NULL 1) (node 30 (node 25 NULL NULL 1) NULL 2) 3) ∧
          deleteRebalance s = some s) ∧
      deleteNode NULL 27 = some NULL :=
  deleteNode_absent_noop (node 20 (node 10 NULL NULL 1) (node 30 (node 25 NULL NULL 1) NULL 2) 3)
    27 (by decide) (by decide) (by decide)

/-- Claim C12: count after insert.  In both variants, on every tree that satisfies I1, I2
and I3 and for every key `k`, `countNodes(insert(t, k))` is `countNodes(t) + 1` when `k` is
not a key of `t` and `countNodes(t)` when it is; hence inserting `n` pairwise distinct keys
into the empty tree gives `countNodes = n`. -/
theorem countNodes_after_insert (v : Variant) (t : BSTNode) (k : Int)
    (h1 : I1 t) (h2 : I2 v t) (h3 : isBalanced v t = 1) :
    ∃ t2, insert v t k = some t2 ∧
      (k ∉ inorder t → countNodes t2 = countNodes t + 1) ∧
      (k ∈ inorder t → countNodes t2 = countNodes t) ∧
      ∀ ks : List Int, ks.Nodup →
        ∃ t3, insertAll v NULL ks = some t3 ∧ countNodes t3 = ks.length := by
  obtain ⟨t2, e, -, -, -⟩ := insert_core v k t h2 ((isBalanced_eq_one_iff v t).mp h3)
  have hc := insert_count v k t t2 h1 e
  refine ⟨t2, e, fun hn => ?_, fun hm => ?_, fun ks hnd => ?_⟩
  · rw [hc, if_neg hn]
  · rw [hc, if_pos hm]
  · obtain ⟨t3, e3, -, -, -, c, -⟩ :=
      insertAll_spec v ks NULL trivial trivial trivial hnd (fun x _ => by simp [inorder])
    exact ⟨t3, e3, by simpa [countNodes] using c⟩

theorem countNodes_after_insert_witness :
    ∃ t2, insert .c8 (node 20 (node 10 NULL NULL 0) NULL 1) 15 = some t2 ∧
      (15 ∉ inorder (node 20 (node 10 NULL NULL 0) NULL 1) →
        countNodes t2 = countNodes (node 20 (node 10 NULL NULL 0) NULL 1) + 1) ∧
      (15 ∈ inorder (node 20 (node 10 NULL NULL 0) NULL 1) →
        countNodes t2 = countNodes (node 20 (node 10 NULL NULL 0) NULL 1)) ∧
      ∀ ks : List Int, ks.Nodup →
        ∃ t3, insertAll .c8 NULL ks = some t3 ∧ countNodes t3 = ks.length :=
  countNodes_after_insert .c8 (node 20 (node 10 NULL NULL 0) NULL 1) 15
    (by decide) (by decide) (by decide)

/-- Claim C13: count after delete.  On every tree of 15.c that satisfies I1, I2 and I3 and
for every key `k` of the tree, `countNodes(deleteNode(t, k))` is `countNodes(t) - 1`: exactly
one node is removed, also when the node found has two children; for `k` not a key of the
tree the count is unchanged. -/
theorem countNodes_after_delete (t : BSTNode) (k : Int)
    (h1 : I1 t) (h2 : I2 .c15 t) (h3 : isBalanced .c15 t = 1) :
    ∃ t2, deleteNode t k = some t2 ∧
      (k ∈ inorder t → countNodes t2 = countNodes t - 1) ∧
      (k ∉ inorder t → countNodes t2 = countNodes t) := by
  obtain ⟨t2, e, -, -, -⟩ := delete_core t k h2 ((isBalanced_eq_one_iff .c15 t).mp h3)
  have hc := delete_count k t t2 h1 e
  refine ⟨t2, e, fun hm => ?_, fun hn => ?_⟩
  · rw [hc, if_pos hm]
  · rw [hc, if_neg hn]

theorem countNodes_after_delete_witness :
    ∃ t2, deleteNode (node 20 (node 10 NULL NULL 1) (node 30 NULL (node 40 NULL NULL 1) 2) 3) 20
        = some t2 ∧
      (20 ∈ inorder (node 20 (node 10 NULL NULL 1) (node 30 NULL (node 40 NULL NULL 1) 2) 3) →
        countNodes t2 =
          countNodes (node 20 (node 10 NULL NULL 1) (node 30 NULL (node 40 NULL NULL 1) 2) 3) - 1) ∧
      (20 ∉ inorder (node 20 (node 10 NULL NULL 1) (node 30 NULL (node 40 NULL NULL 1) 2) 3) →
        countNodes t2 =
          countNodes (node 20 (node 10 NULL NULL 1) (node 30 NULL (node 40 NULL NULL 1) 2) 3)) :=
  countNodes_after_delete
    (node 20 (node 10 NULL NULL 1) (node 30 NULL (node 40 NULL NULL 1) 2) 3) 20
    (by decide) (by decide) (by decide)

/-- Claim C14: delete after insert.  On every tree `T` of 15.c that satisfies I1, I2 and I3
and for every key `k` that is not a key of `T`, `deleteNode(insert(T, k), k)` returns a tree
with the same inorder key sequence (so the same key set) as `T`, and that tree satisfies I1,
I2 and I3. -/
theorem delete_after_insert (T : BSTNode) (k : Int)
    (h1 : I1 T) (h2 : I2 .c15 T) (h3 : isBalanced .c15 T = 1) (hk : k ∉ inorder T) :
    ∃ t1 t2, insert .c15 T k = some t1 ∧ deleteNode t1 k = some t2 ∧
      inorder t2 = inorder T ∧ (∀ x, x ∈ inorder t2 ↔ x ∈ inorder T) ∧
      I1 t2 ∧ I2 .c15 t2 ∧ I3 .c15 t2 ∧ isBalanced .c15 t2 = 1 := by
  obtain ⟨t1, e1, a2, a3, -⟩ := insert_core .c15 k T h2 ((isBalanced_eq_one_iff .c15 T).mp h3)
  have a1 := insert_I1 .c15 k T t1 h1 e1
  obtain ⟨t2, e2, c2, c3, -⟩ := delete_core t1 k a2 a3
  have hi : inorder t2 = inorder T := by
    rw [delete_inorder t1 k t2 a1 e2, insert_inorder .c15 k T t1 h1 e1, if_neg hk,
      List.erase_orderedInsert_of_not_mem hk]
  exact ⟨t1, t2, e1, e2, hi, fun x => by rw [hi], delete_I1 k t1 t2 a1 e2, c2, c3,
    (isBalanced_eq_one_iff .c15 t2).mpr c3⟩

theorem delete_after_insert_witness :
    ∃ t1 t2, insert .c15 (node 10 NULL (node 20 NULL NULL 1) 2) 30 = some t1 ∧
      deleteNode t1 30 = some t2 ∧
      inorder t2 = inorder (node 10 NULL (node 20 NULL NULL 1) 2) ∧
      (∀ x, x ∈ inorder t2 ↔ x ∈ inorder (node 10 NULL (node 20 NULL NULL 1) 2)) ∧
      I1 t2 ∧ I2 .c15 t2 ∧ I3 .c15 t2 ∧ isBalanced .c15 t2 = 1 :=
  delete_after_insert (node 10 NULL (node 20 NULL NULL 1) 2) 30
    (by decide) (by decide) (by decide) (by decide)

/-! Totality -/

/-- Claim C15: insert is total on well-formed trees.  In both variants, on every tree with
consistent heights (I2) and balanced nodes (I3) and for every key, `insert` returns a tree:
no NULL pointer is dereferenced.  At every execution of lines 80-109 on the way back up,
when `balance > 1` the left child is present, when `balance < -1` the right child is
present, in the Left-Right case (`balance > 1` and `key > node->left->key`) the right child
of the left child is present before `leftRotate(node->left)`, in the Right-Left case the
left child of the right child is present before `rightRotate(node->right)`, and the step
returns a node.  The order invariant I1 is not needed for this. -/
theorem insert_total (v : Variant) (t : BSTNode) (key : Int)
    (h2 : I2 v t) (h3 : isBalanced v t = 1) :
    (∃ t2, insert v t key = some t2) ∧
      ∀ k l r, (k, l, r) ∈ insertSteps v t key →
        (getBalance v (node k l r (newHeight v l r)) > 1 →
          ∃ lk ll lr lh, l = node lk ll lr lh ∧
            (key > lk → ∃ mk ml mr mh, lr = node mk ml mr mh)) ∧
        (getBalance v (node k l r (newHeight v l r)) < -1 →
          ∃ rk rl rr rh, r = node rk rl rr rh ∧
            (key < rk → ∃ mk ml mr mh, rl = node mk ml mr mh)) ∧
        ∃ t2, insertRebalance v k l r key = some t2 := by
  have a3 := (isBalanced_eq_one_iff v t).mp h3
  obtain ⟨t2, e, -⟩ := insert_core v key t h2 a3
  refine ⟨⟨t2, e⟩, fun k l r hs => ?_⟩
  obtain ⟨s2, e2⟩ := insertSteps_some v key t h2 a3 k l r hs
  have d := insertRebalance_some_derefs v k l r key s2 e2
  exact ⟨d.1, d.2, s2, e2⟩

theorem insert_total_witness :
    (∃ t2, insert .c8 (node 30 (node 10 NULL NULL 0) NULL 1) 20 = some t2) ∧
      ∀ k l r, (k, l, r) ∈ insertSteps .c8 (node 30 (node 10 NULL NULL 0) NULL 1) 20 →
        (getBalance .c8 (node k l r (newHeight .c8 l r)) > 1 →
          ∃ lk ll lr lh, l = node lk ll lr lh ∧
            (20 > lk → ∃ mk ml mr mh, lr = node mk ml mr mh)) ∧
        (getBalance .c8 (node k l r (newHeight .c8 l r)) < -1 →
          ∃ rk rl rr rh, r = node rk rl rr rh ∧
            (20 < rk → ∃ mk ml mr mh, rl = node mk ml mr mh)) ∧
        ∃ t2, insertRebalance .c8 k l r 20 = some t2 :=
  insert_total .c8 (node 30 (node 10 NULL NULL 0) NULL 1) 20 (by decide) (by decide)

/-- Claim C16: delete is total on well-formed trees.  On every tree of 15.c with consistent
heights (I2) and balanced nodes (I3) and for every key, `deleteNode` returns: no NULL
pointer is dereferenced.  Where the node found has two children, `findMin(root->right)` is
a node; at every execution of lines 162-195 on the way back up, `root` is a node, its left
child is present when `balance > 1`, its right child is present when `balance < -1`, the
inner grandchild is present whenever the sign of the child's balance chooses the Left-Right
or the Right-Left double rotation, and the step returns.  The order invariant I1 is not
needed for this. -/
theorem deleteNode_total (t : BSTNode) (key : Int)
    (h2 : I2 .c15 t) (h3 : isBalanced .c15 t = 1) :
    (∃ t2, deleteNode t key = some t2) ∧
      (∀ n ∈ deleteTwoChildren t key, ∃ k l r h tk,
        n = node k l r h ∧ l ≠ NULL ∧ r ≠ NULL ∧ keyOf (findMin r) = some tk) ∧
      ∀ s ∈ deleteSteps t key, ∃ k l r h, s = node k l r h ∧
        (getBalance .c15 (node k l r (newHeight .c15 l r)) > 1 →
          ∃ lk ll lr lh, l = node lk ll lr lh ∧
            (getBalance .c15 l < 0 → ∃ mk ml mr mh, lr = node mk ml mr mh)) ∧
        (getBalance .c15 (node k l r (newHeight .c15 l r)) < -1 →
          ∃ rk rl rr rh, r = node rk rl rr rh ∧
            (getBalance .c15 r > 0 → ∃ mk ml mr mh, rl = node mk ml mr mh)) ∧
        ∃ t2, deleteRebalance s = some t2 := by
  have a3 := (isBalanced_eq_one_iff .c15 t).mp h3
  obtain ⟨t2, e, -⟩ := delete_core t key h2 a3
  refine ⟨⟨t2, e⟩, fun n hn => (deleteTwoChildren_findMin t key n hn).2, fun s hs => ?_⟩
  obtain ⟨k, l, r, h, s2, rfl, e2⟩ := deleteSteps_some t key h2 a3 s hs
  have d := deleteRebalance_some_derefs k l r h s2 e2
  exact ⟨k, l, r, h, rfl, d.1, d.2, s2, e2⟩

theorem deleteNode_total_witness :
    (∃ t2, deleteNode
        (node 20 (node 10 NULL (node 15 NULL NULL 1) 2) (node 30 NULL NULL 1) 3) 30 = some t2) ∧
      (∀ n ∈ deleteTwoChildren
          (node 20 (node 10 NULL (node 15 NULL NULL 1) 2) (node 30 NULL NULL 1) 3) 30,
        ∃ k l r h tk,
          n = node k l r h ∧ l ≠ NULL ∧ r ≠ NULL ∧ keyOf (findMin r) = some tk) ∧
      ∀ s ∈ deleteSteps
          (node 20 (node 10 NULL (node 15 NULL NULL 1) 2) (node 30 NULL NULL 1) 3) 30,
        ∃ k l r h, s = node k l r h ∧
          (getBalance .c15 (node k l r (newHeight .c15 l r)) > 1 →
            ∃ lk ll lr lh, l = node lk ll lr lh ∧
              (getBalance .c15 l < 0 → ∃ mk ml mr mh, lr = node mk ml mr mh)) ∧
          (getBalance .c15 (node k l r (newHeight .c15 l r)) < -1 →
            ∃ rk rl rr rh, r = node rk rl rr rh ∧
              (getBalance .c15 r > 0 → ∃ mk ml mr mh, rl = node mk ml mr mh)) ∧
          ∃ t2, deleteRebalance s = some t2 :=
  deleteNode_total (node 20 (node 10 NULL (node 15 NULL NULL 1) 2) (node 30 NULL NULL 1) 3) 30
    (by decide) (by decide)

/-! The checker of I1, the traversal, the rotations -/

/-- Claim C17: `isValidBST` is the I1 checker with exclusive bounds.  For every tree and all
bounds, `isValidBST(t, lo, hi)` is 1 if and only if the inorder key sequence of `t` is
strictly increasing and every key `x` of `t` satisfies `lo < x < hi` (and it is 0 otherwise);
on the empty tree it is 1 for all bounds. -/
theorem isValidBST_checks_I1 (t : BSTNode) (lo hi : Int) :
    (isValidBST t lo hi = 1 ↔
        (inorder t).Sorted (· < ·) ∧ ∀ x ∈ inorder t, lo < x ∧ x < hi) ∧
      (isValidBST t lo hi = 0 ∨ isValidBST t lo hi = 1) ∧
      isValidBST NULL lo hi = 1 := by
  refine ⟨?_, isValidBST_zero_or_one t lo hi, rfl⟩
  rw [isValidBST_eq_one_iff, I1_iff_sorted]

/-- Claim C18: the inorder traversal emits every key once, left, node, right.  For every
tree and start index `i`, `inorderTraversal(t, arr, &i)` advances the index by
`countNodes(t)`, leaves the cells outside `arr[i .. i+countNodes(t)-1]` unchanged, and
writes to those `countNodes(t)` cells the sequence `inorder(left) ++ [key] ++
inorder(right)`; on a tree that satisfies I1 the written sequence is ascending. -/
theorem inorderTraversal_emits (t : BSTNode) (arr : Int → Int) (i : Int) :
    (inorderTraversal t arr i).2 = i + countNodes t ∧
      (∀ j, (j < i ∨ i + countNodes t ≤ j) → (inorderTraversal t arr i).1 j = arr j) ∧
      (List.range (countNodes t).toNat).map (fun n : Nat => (inorderTraversal t arr i).1 (i + (n : Int)))
        = inorder t ∧
      (∀ k l r h, inorder (node k l r h) = inorder l ++ [k] ++ inorder r) ∧
      (I1 t → ((List.range (countNodes t).toNat).map
        (fun n : Nat => (inorderTraversal t arr i).1 (i + (n : Int)))).Sorted (· < ·)) := by
  obtain ⟨a, b, c⟩ := inorderTraversal_spec t arr i
  have hw : (List.range (countNodes t).toNat).map
      (fun n : Nat => (inorderTraversal t arr i).1 (i + (n : Int))) = inorder t := by
    rw [countNodes_eq_length, Int.toNat_natCast]
    apply List.ext_getElem?
    intro n
    by_cases hn : n < (inorder t).length
    · rw [c n hn, List.getElem?_map, List.getElem?_range hn]
      rfl
    · rw [List.getElem?_eq_none (by simpa using hn), List.getElem?_eq_none (by simpa using hn)]
  refine ⟨?_, ?_, hw, fun k l r h => by simp [inorder], fun h1 => ?_⟩
  · rw [a, countNodes_eq_length]
  · rw [countNodes_eq_length]
    exact b
  · rw [hw]
    exact (I1_iff_sorted t).mp h1

theorem inorderTraversal_emits_witness :
    ((List.range (countNodes (node 20 (node 10 NULL NULL 1) (node 30 NULL NULL 1) 2)).toNat).map
      (fun n : Nat => (inorderTraversal (node 20 (node 10 NULL NULL 1) (node 30 NULL NULL 1) 2)
        (fun _ => 0) 0).1 (0 + (n : Int)))).Sorted (· < ·) :=
  (inorderTraversal_emits (node 20 (node 10 NULL NULL 1) (node 30 NULL NULL 1) 2)
    (fun _ => 0) 0).2.2.2.2 (by decide)

/-- Claim C19: the rotations preserve the inorder key sequence and the node count.  In both
variants, for every tree `y` whose left child is present `rightRotate(y)` returns a tree
with the inorder sequence and the `countNodes` of `y`, and for every tree `x` whose right
child is present `leftRotate(x)` returns a tree with the inorder sequence and the
`countNodes` of `x`.  No invariant is assumed. -/
theorem rotations_preserve_inorder_and_count (v : Variant) (k1 k2 : Int) (A B C : BSTNode)
    (h1 h2 : Int) :
    (∃ t2, rightRotate v (node k1 (node k2 A B h2) C h1) = some t2 ∧
        inorder t2 = inorder (node k1 (node k2 A B h2) C h1) ∧
        countNodes t2 = countNodes (node k1 (node k2 A B h2) C h1)) ∧
      (∃ t2, leftRotate v (node k1 A (node k2 B C h2) h1) = some t2 ∧
        inorder t2 = inorder (node k1 A (node k2 B C h2) h1) ∧
        countNodes t2 = countNodes (node k1 A (node k2 B C h2) h1)) := by
  refine ⟨⟨_, rfl, ?_, ?_⟩, ⟨_, rfl, ?_, ?_⟩⟩
  · simp [inorder]
  · simp only [countNodes]; omega
  · simp [inorder]
  · simp only [countNodes]; omega

/-! The scenarios of the specification -/

/-- Claim C22: the Left-Left scenario in 15.c.  Inserting 30, then 20, then 10 into the
empty tree yields the tree with root 20 (height 2), left child 10 and right child 30, both
leaves with cached height 1.  The third insert reaches the root (key 30) with
`balance = 2` and `10 < node->left->key = 20`, the Left-Left row, and returns
`rightRotate(node)`. -/
theorem scenario_left_left :
    insertAll .c15 NULL [30, 20, 10] =
        some (node 20 (node 10 NULL NULL 1) (node 30 NULL NULL 1) 2) ∧
      insertAll .c15 NULL [30, 20] = some (node 30 (node 20 NULL NULL 1) NULL 2) ∧
      insertSteps .c15 (node 30 (node 20 NULL NULL 1) NULL 2) 10 =
        [(20, node 10 NULL NULL 1, NULL), (30, node 20 (node 10 NULL NULL 1) NULL 2, NULL)] ∧
      getBalance .c15 (node 30 (node 20 (node 10 NULL NULL 1) NULL 2) NULL 3) = 2 ∧
      insertRebalance .c15 30 (node 20 (node 10 NULL NULL 1) NULL 2) NULL 10 =
        rightRotate .c15 (node 30 (node 20 (node 10 NULL NULL 1) NULL 2) NULL 3) := by
  decide

/-- Claim C23: the Left-Right scenario.  In both variants, inserting 30, then 10, then 20
into the empty tree yields the tree with root 20, left child 10 and right child 30, both
leaves.  The third insert reaches the root (key 30) with `balance = 2` and
`20 > node->left->key = 10`, the Left-Right row: `leftRotate` on the left child, then
`rightRotate` on the root. -/
theorem scenario_left_right (v : Variant) :
    ∃ h10 h30 h20 l1 l2 hr,
      insertAll v NULL [30, 10, 20] =
          some (node 20 (node 10 NULL NULL h10) (node 30 NULL NULL h30) h20) ∧
        insertAll v NULL [30, 10] = some (node 30 (createNode v 10) NULL hr) ∧
        insertSteps v (node 30 (createNode v 10) NULL hr) 20 =
          [(10, NULL, createNode v 20), (30, l1, NULL)] ∧
        keyOf l1 = some 10 ∧
        getBalance v (node 30 l1 NULL (newHeight v l1 NULL)) = 2 ∧
        leftRotate v l1 = some l2 ∧
        rightRotate v (node 30 l2 NULL (newHeight v l1 NULL)) =
          some (node 20 (node 10 NULL NULL h10) (node 30 NULL NULL h30) h20) ∧
        insertRebalance v 30 l1 NULL 20 =
          some (node 20 (node 10 NULL NULL h10) (node 30 NULL NULL h30) h20) := by
  cases v
  · exact ⟨1, 1, 2, node 10 NULL (node 20 NULL NULL 1) 2,
      node 20 (node 10 NULL NULL 1) NULL 2, 2, by decide⟩
  · exact ⟨0, 0, 1, node 10 NULL (node 20 NULL NULL 0) 1,
      node 20 (node 10 NULL NULL 0) NULL 1, 1, by decide⟩

/-- Claim C24: the ascending scenario.  In both variants, inserting 10, 20, 30, 40 in that
order into the empty tree yields, after the fourth insert, the tree with root 20, left
child 10 (a leaf) and right subtree rooted at 30 whose only child is its right child 40.
One rotation takes place in the whole run, a `leftRotate` at the root: the third insert
reaches the root (key 10) with `balance = -2` and `30 > node->right->key = 20` and returns
`leftRotate(node)`, whose root is 20; every other execution of lines 80-109, those of the
fourth insert included, returns its node without a rotation. -/
theorem scenario_ascending (v : Variant) :
    ∃ t2 r3 t3 t4 h10 h30 h40 h20,
      insertAll v NULL [10, 20] = some t2 ∧ insert v t2 30 = some t3 ∧
        insert v t3 40 = some t4 ∧ insertAll v NULL [10, 20, 30, 40] = some t4 ∧
        t4 = node 20 (node 10 NULL NULL h10) (node 30 NULL (node 40 NULL NULL h40) h30) h20 ∧
        insertSteps v NULL 10 = [] ∧
        (∀ s ∈ insertSteps v (createNode v 10) 20,
          insertRebalance v s.1 s.2.1 s.2.2 20 =
            some (node s.1 s.2.1 s.2.2 (newHeight v s.2.1 s.2.2))) ∧
        insertSteps v t2 30 = [(20, NULL, createNode v 30), (10, NULL, r3)] ∧
        insertRebalance v 20 NULL (createNode v 30) 30 = some r3 ∧
        r3 = node 20 NULL (createNode v 30) (newHeight v NULL (createNode v 30)) ∧
        getBalance v (node 10 NULL r3 (newHeight v NULL r3)) = -2 ∧
        insertRebalance v 10 NULL r3 30 = leftRotate v (node 10 NULL r3 (newHeight v NULL r3)) ∧
        leftRotate v (node 10 NULL r3 (newHeight v NULL r3)) = some t3 ∧
        keyOf t3 = some 20 ∧
        (∀ s ∈ insertSteps v t3 40,
          insertRebalance v s.1 s.2.1 s.2.2 40 =
            some (node s.1 s.2.1 s.2.2 (newHeight v s.2.1 s.2.2))) := by
  cases v
  · exact ⟨node 10 NULL (node 20 NULL NULL 1) 2, node 20 NULL (node 30 NULL NULL 1) 2,
      node 20 (node 10 NULL NULL 1) (node 30 NULL NULL 1) 2,
      node 20 (node 10 NULL NULL 1) (node 30 NULL (node 40 NULL NULL 1) 2) 3,
      1, 2, 1, 3, by decide⟩
  · exact ⟨node 10 NULL (node 20 NULL NULL 0) 1, node 20 NULL (node 30 NULL NULL 0) 1,
      node 20 (node 10 NULL NULL 0) (node 30 NULL NULL 0) 1,
      node 20 (node 10 NULL NULL 0) (node 30 NULL (node 40 NULL NULL 0) 1) 2,
      0, 1, 0, 2, by decide⟩

/-- Claim C30: the delete decision table with a zero child balance, in 15.c.  Inserting 20,
10, 30, 5, 15 into the empty tree and then calling `deleteNode` with key 30 reaches line 162
once, at the root, with `balance = 2` and `getBalance(root->left) = 0`; the Left-Left row is
taken (`rightRotate(root)` alone, no double rotation), and the tree returned has root 10
(height 3), left child 5 (a leaf of height 1) and right child 20 (height 2) whose only
child is its left child 15 (height 1). -/
theorem scenario_delete_zero_child_balance :
    insertAll .c15 NULL [20, 10, 30, 5, 15] =
        some (node 20 (node 10 (node 5 NULL NULL 1) (node 15 NULL NULL 1) 2)
          (node 30 NULL NULL 1) 3) ∧
      deleteSteps (node 20 (node 10 (node 5 NULL NULL 1) (node 15 NULL NULL 1) 2)
          (node 30 NULL NULL 1) 3) 30 =
        [node 20 (node 10 (node 5 NULL NULL 1) (node 15 NULL NULL 1) 2) NULL 3] ∧
      getBalance .c15 (node 20 (node 10 (node 5 NULL NULL 1) (node 15 NULL NULL 1) 2) NULL 3)
        = 2 ∧
      getBalance .c15 (node 10 (node 5 NULL NULL 1) (node 15 NULL NULL 1) 2) = 0 ∧
      deleteRebalance (node 20 (node 10 (node 5 NULL NULL 1) (node 15 NULL NULL 1) 2) NULL 3) =
        rightRotate .c15
          (node 20 (node 10 (node 5 NULL NULL 1) (node 15 NULL NULL 1) 2) NULL 3) ∧
      deleteNode (node 20 (node 10 (node 5 NULL NULL 1) (node 15 NULL NULL 1) 2)
          (node 30 NULL NULL 1) 3) 30 =
        some (node 10 (node 5 NULL NULL 1) (node 20 (node 15 NULL NULL 1) NULL 2) 3) := by
  decide

/-! The two height conventions -/

theorem getHeight_shift (t : BSTNode) : getHeight .c15 (shift t) = getHeight .c8 t + 1 := by
  cases t <;> rfl

theorem getBalance_shift (t : BSTNode) : getBalance .c15 (shift t) = getBalance .c8 t := by
  cases t with
  | NULL => rfl
  | node k l r h =>
    simp only [shift, getBalance, getHeight_shift]
    omega

theorem newHeight_shift (l r : BSTNode) :
    newHeight .c15 (shift l) (shift r) = newHeight .c8 l r + 1 := by
  simp only [newHeight, getHeight_shift]
  split_ifs <;> omega

theorem keyOf_shift (t : BSTNode) : keyOf (shift t) = keyOf t := by
  cases t <;> rfl

theorem andKey_shift (c : Bool) (p : BSTNode) (rel : Int → Bool) :
    andKey c (shift p) rel = andKey c p rel := by
  simp only [andKey, keyOf_shift]

theorem rightRotate_shift (t : BSTNode) :
    rightRotate .c15 (shift t) = (rightRotate .c8 t).map shift := by
  cases t with
  | NULL => rfl
  | node k l r h =>
    cases l with
    | NULL => rfl
    | node lk ll lr lh =>
      have e1 := newHeight_shift lr r
      have e2 := newHeight_shift ll (node k lr r (newHeight .c8 lr r))
      simp only [shift] at e2
      simp only [shift, rightRotate, Option.map_some', e1, e2]

theorem leftRotate_shift (t : BSTNode) :
    leftRotate .c15 (shift t) = (leftRotate .c8 t).map shift := by
  cases t with
  | NULL => rfl
  | node k l r h =>
    cases r with
    | NULL => rfl
    | node rk rl rr rh =>
      have e1 := newHeight_shift l rl
      have e2 := newHeight_shift (node k l rl (newHeight .c8 l rl)) rr
      simp only [shift] at e2
      simp only [shift, leftRotate, Option.map_some', e1, e2]

theorem insertRebalance_shift (k : Int) (l r : BSTNode) (key : Int) :
    insertRebalance .c15 k (shift l) (shift r) key =
      (insertRebalance .c8 k l r key).map shift := by
  have hb : getHeight .c15 (shift l) - getHeight .c15 (shift r) =
      getHeight .c8 l - getHeight .c8 r := by
    rw [getHeight_shift, getHeight_shift]
    omega
  have hr := rightRotate_shift (node k l r (newHeight .c8 l r))
  have hl := leftRotate_shift (node k l r (newHeight .c8 l r))
  simp only [shift] at hr hl
  unfold insertRebalance
  simp only [getBalance, hb, newHeight_shift, andKey_shift, hr, hl]
  rcases andKey (decide (getHeight .c8 l - getHeight .c8 r > 1)) l
    (fun lk => decide (key < lk)) with _ | c1
  · rfl
  cases c1
  swap
  · rfl
  simp only [Option.some_bind, Bool.false_eq_true, if_false]
  rcases andKey (decide (getHeight .c8 l - getHeight .c8 r < -1)) r
    (fun rk => decide (key > rk)) with _ | c2
  · rfl
  cases c2
  swap
  · rfl
  simp only [Option.some_bind, Bool.false_eq_true, if_false]
  rcases andKey (decide (getHeight .c8 l - getHeight .c8 r > 1)) l
    (fun lk => decide (key > lk)) with _ | c3
  · rfl
  cases c3
  swap
  · simp only [Option.some_bind, if_true, leftRotate_shift]
    rcases leftRotate .c8 l with _ | l2
    · rfl
    · have := rightRotate_shift (node k l2 r (newHeight .c8 l r))
      simp only [shift] at this
      simp only [Option.map_some', Option.some_bind, this]
  simp only [Option.some_bind, Bool.false_eq_true, if_false]
  rcases andKey (decide (getHeight .c8 l - getHeight .c8 r < -1)) r
    (fun rk => decide (key < rk)) with _ | c4
  · rfl
  cases c4
  · rfl
  · simp only [Option.some_bind, if_true, rightRotate_shift]
    rcases rightRotate .c8 r with _ | r2
    · rfl
    · have := leftRotate_shift (node k l r2 (newHeight .c8 l r))
      simp only [shift] at this
      simp only [Option.map_some', Option.some_bind, this]

theorem insert_shift (key : Int) : ∀ t : BSTNode,
    insert .c15 (shift t) key = (insert .c8 t key).map shift
  | NULL => rfl
  | node k l r h => by
      simp only [shift, insert]
      split_ifs
      · rw [insert_shift key l]
        rcases insert .c8 l key with _ | l2
        · rfl
        · simp only [Option.map_some', Option.some_bind, insertRebalance_shift]
      · rw [insert_shift key r]
        rcases insert .c8 r key with _ | r2
        · rfl
        · simp only [Option.map_some', Option.some_bind, insertRebalance_shift]
      · rfl

theorem insertAll_shift : ∀ (ks : List Int) (t : BSTNode),
    insertAll .c15 (shift t) ks = (insertAll .c8 t ks).map shift
  | [], _ => rfl
  | k :: ks, t => by
      simp only [insertAll, insert_shift]
      rcases insert .c8 t k with _ | t1
      · rfl
      · simp only [Option.map_some', Option.some_bind, insertAll_shift ks t1]

theorem insertAll_some (v : Variant) : ∀ (ks : List Int) (t : BSTNode), I2 v t → I3 v t →
    ∃ t2, insertAll v t ks = some t2 ∧ I2 v t2 ∧ I3 v t2
  | [], t, h2, h3 => ⟨t, rfl, h2, h3⟩
  | k :: ks, t, h2, h3 => by
      obtain ⟨t1, e, a2, a3, -⟩ := insert_core v k t h2 h3
      obtain ⟨t2, e2, c2, c3⟩ := insertAll_some v ks t1 a2 a3
      exact ⟨t2, by simp only [insertAll, e, Option.some_bind, e2], c2, c3⟩

theorem nodes_shift : ∀ t : BSTNode, nodes (shift t) = (nodes t).map shift
  | NULL => rfl
  | node k l r h => by
      simp only [shift, nodes, List.map_cons, List.map_append, nodes_shift l, nodes_shift r]

theorem inorder_shift : ∀ t : BSTNode, inorder (shift t) = inorder t
  | NULL => rfl
  | node k l r h => by
      simp only [shift, inorder, inorder_shift l, inorder_shift r]

theorem shape_shift : ∀ t : BSTNode, shape (shift t) = shape t
  | NULL => rfl
  | node k l r h => by
      simp only [shift, shape, shape_shift l, shape_shift r]

/-- Claim C26: the empty-height convention does not affect the rotation decisions.  For
every finite sequence of keys, folding `insert` of 8.c and `insert` of 15.c over the
sequence from the empty tree returns two trees of identical shape and identical keys; every
node's cached height in the tree of 15.c is the cached height of the corresponding node in
the tree of 8.c plus 1, and every node's `getBalance` is equal in both. -/
theorem conventions_agree (ks : List Int) :
    ∃ t8 t15, insertAll .c8 NULL ks = some t8 ∧ insertAll .c15 NULL ks = some t15 ∧
      shape t15 = shape t8 ∧ inorder t15 = inorder t8 ∧
      t15 = shift t8 ∧ nodes t15 = (nodes t8).map shift ∧
      ∀ n ∈ nodes t8, keyOf (shift n) = keyOf n ∧ shape (shift n) = shape n ∧
        getHeight .c15 (shift n) = getHeight .c8 n + 1 ∧
        getBalance .c15 (shift n) = getBalance .c8 n := by
  obtain ⟨t8, e, -, -⟩ := insertAll_some .c8 ks NULL trivial trivial
  have e15 := insertAll_shift ks NULL
  rw [e] at e15
  exact ⟨t8, shift t8, e, e15, shape_shift t8, inorder_shift t8, rfl, nodes_shift t8,
    fun n _ => ⟨keyOf_shift n, shape_shift n, getHeight_shift n, getBalance_shift n⟩⟩

/-! The height is logarithmic -/

theorem Fib_le_succ : ∀ n : Nat, Fib n ≤ Fib (n + 1)
  | 0 => by decide
  | n + 1 => by
      show Fib (n + 1) ≤ Fib (n + 1) + Fib n
      omega

theorem Fib_mono {n m : Nat} (h : n ≤ m) : Fib n ≤ Fib m := by
  induction h with
  | refl => exact le_refl _
  | step _ ih => exact le_trans ih (Fib_le_succ _)

theorem pow_le_Fib : ∀ k : Nat, 2 ^ k ≤ Fib (2 * k + 2)
  | 0 => by decide
  | k + 1 => by
      have ih := pow_le_Fib k
      have m : Fib (2 * k + 2) ≤ Fib (2 * k + 3) := Fib_le_succ (2 * k + 2)
      have e : Fib (2 * (k + 1) + 2) = Fib (2 * k + 3) + Fib (2 * k + 2) := rfl
      rw [e, pow_succ]
      omega

theorem Fib_le_count : ∀ t : BSTNode, I2 .c15 t → I3 .c15 t →
    ∃ n : Nat, getHeight .c15 t = n ∧ (Fib (n + 2) : Int) ≤ countNodes t + 1
  | NULL, _, _ => ⟨0, rfl, by decide⟩
  | node k l r h, h2, h3 => by
      obtain ⟨hh, hl2, hr2⟩ := h2
      obtain ⟨⟨b1, b2⟩, hl3, hr3⟩ := h3
      obtain ⟨a, ha, fa⟩ := Fib_le_count l hl2 hl3
      obtain ⟨b, hb, fb⟩ := Fib_le_count r hr2 hr3
      simp only [getBalance, ha, hb] at b1 b2
      simp only [newHeight, ha, hb] at hh
      simp only [countNodes, getHeight_node]
      by_cases c : a ≥ b
      · refine ⟨a + 1, by rw [hh]; split_ifs <;> omega, ?_⟩
        have e : Fib (a + 1 + 2) = Fib (a + 2) + Fib (a + 1) := rfl
        have m : Fib (a + 1) ≤ Fib (b + 2) := Fib_mono (by omega)
        rw [e]
        push_cast
        have m2 : (Fib (a + 1) : Int) ≤ Fib (b + 2) := by exact_mod_cast m
        omega
      · refine ⟨b + 1, by rw [hh]; split_ifs <;> omega, ?_⟩
        have e : Fib (b + 1 + 2) = Fib (b + 2) + Fib (b + 1) := rfl
        have m : Fib (b + 1) ≤ Fib (a + 2) := Fib_mono (by omega)
        rw [e]
        push_cast
        have m2 : (Fib (b + 1) : Int) ≤ Fib (a + 2) := by exact_mod_cast m
        omega

theorem insertSteps_length (v : Variant) (key : Int) : ∀ t : BSTNode, I2 v t →
    ((insertSteps v t key).length : Int) ≤ getHeight v t - getHeight v NULL
  | NULL, _ => by simp [insertSteps]
  | node k l r h, h2 => by
      obtain ⟨hh, hl2, hr2⟩ := h2
      have il := insertSteps_length v key l hl2
      have ir := insertSteps_length v key r hr2
      have el := height_ge v l hl2
      have er := height_ge v r hr2
      simp only [newHeight] at hh
      simp only [insertSteps, getHeight_node]
      by_cases c1 : key < k
      · simp only [c1, if_true]
        rcases insert v l key with _ | l2 <;>
          simp only [List.length_append, List.length_nil, List.length_singleton] <;>
          push_cast <;> split_ifs at hh <;> omega
      · by_cases c2 : key > k
        · simp only [c1, c2, if_true, if_false]
          rcases insert v r key with _ | r2 <;>
            simp only [List.length_append, List.length_nil, List.length_singleton] <;>
            push_cast <;> split_ifs at hh <;> omega
        · simp only [c1, c2, if_false, List.length_nil]
          push_cast
          split_ifs at hh <;> omega

theorem deleteSteps_length : ∀ (t : BSTNode) (key : Int), I2 .c15 t →
    ((deleteSteps t key).length : Int) ≤ getHeight .c15 t := by
  intro t
  induction t with
  | NULL => intro key _; simp [deleteSteps, getHeight]
  | node k l r h ihl ihr =>
    intro key h2
    obtain ⟨hh, hl2, hr2⟩ := h2
    have el := height_ge .c15 l hl2
    have er := height_ge .c15 r hr2
    have e0 : getHeight .c15 NULL = 0 := rfl
    simp only [newHeight] at hh
    simp only [deleteSteps, getHeight_node]
    by_cases c1 : key < k
    · have il := ihl key hl2
      simp only [c1, if_true]
      rcases deleteNode l key with _ | l2 <;>
        simp only [List.length_append, List.length_nil, List.length_singleton] <;>
        push_cast <;> split_ifs at hh <;> omega
    · by_cases c2 : key > k
      · have ir := ihr key hr2
        simp only [c1, c2, if_true, if_false]
        rcases deleteNode r key with _ | r2 <;>
          simp only [List.length_append, List.length_nil, List.length_singleton] <;>
          push_cast <;> split_ifs at hh <;> omega
      · simp only [c1, c2, if_false]
        by_cases c3 : l = NULL
        · simp only [c3, if_true, List.length_nil]
          push_cast
          split_ifs at hh <;> omega
        · by_cases c4 : r = NULL
          · simp only [c3, c4, if_true, if_false, List.length_nil]
            push_cast
            split_ifs at hh <;> omega
          · simp only [c3, c4, if_false]
            rcases keyOf (findMin r) with _ | tk
            · simp only [List.length_nil]
              push_cast
              split_ifs at hh <;> omega
            · have ir := ihr tk hr2
              simp only []
              rcases deleteNode r tk with _ | r2 <;>
                simp only [List.length_append, List.length_nil, List.length_singleton] <;>
                push_cast <;> split_ifs at hh <;> omega

/-- Claim C27: logarithmic height.  On every tree of 15.c (empty height 0) that satisfies
I2 and I3, `countNodes(t) + 1 >= Fib(getHeight(t) + 2)`, where `Fib(1) = Fib(2) = 1` and
`Fib(n+2) = Fib(n+1) + Fib(n)`.  Hence the height is bounded by a logarithm of the node
count, `getHeight(t) <= 2 * log2(countNodes(t) + 1) + 1`, and so is the number of nested
calls of `insert` and of `deleteNode` that reach their rebalancing part, which is at most
the height. -/
theorem height_logarithmic (t : BSTNode) (h2 : I2 .c15 t) (h3 : isBalanced .c15 t = 1) :
    0 ≤ getHeight .c15 t ∧
      (Fib ((getHeight .c15 t).toNat + 2) : Int) ≤ countNodes t + 1 ∧
      (Fib 1 = 1 ∧ Fib 2 = 1 ∧ ∀ n, Fib (n + 2) = Fib (n + 1) + Fib n) ∧
      (getHeight .c15 t).toNat ≤ 2 * Nat.log 2 (countNodes t + 1).toNat + 1 ∧
      ∀ k, ((insertSteps .c15 t k).length : Int) ≤ getHeight .c15 t ∧
        ((deleteSteps t k).length : Int) ≤ getHeight .c15 t := by
  obtain ⟨n, hn, hf⟩ := Fib_le_count t h2 ((isBalanced_eq_one_iff .c15 t).mp h3)
  have hc : 0 ≤ countNodes t := by rw [countNodes_eq_length]; omega
  refine ⟨by omega, ?_, ⟨rfl, rfl, fun _ => rfl⟩, ?_, fun k => ⟨?_, deleteSteps_length t k h2⟩⟩
  · rw [hn, Int.toNat_natCast]
    exact hf
  · rw [hn, Int.toNat_natCast]
    have p1 : 2 ^ (n / 2) ≤ Fib (n + 2) :=
      le_trans (pow_le_Fib (n / 2)) (Fib_mono (by omega))
    have p2 : Fib (n + 2) ≤ (countNodes t + 1).toNat := by
      have : ((Fib (n + 2) : Nat) : Int) ≤ ((countNodes t + 1).toNat : Int) := by
        rw [Int.toNat_of_nonneg (by omega)]
        exact hf
      exact_mod_cast this
    have p3 := Nat.le_log_of_pow_le (by decide : 1 < 2) (le_trans p1 p2)
    omega
  · have := insertSteps_length .c15 k t h2
    have e0 : getHeight .c15 NULL = 0 := rfl
    omega

theorem height_logarithmic_witness :
    0 ≤ getHeight .c15 (node 20 (node 10 NULL NULL 1) (node 30 NULL (node 40 NULL NULL 1) 2) 3) ∧
      (Fib ((getHeight .c15
          (node 20 (node 10 NULL NULL 1) (node 30 NULL (node 40 NULL NULL 1) 2) 3)).toNat + 2) : Int)
        ≤ countNodes (node 20 (node 10 NULL NULL 1) (node 30 NULL (node 40 NULL NULL 1) 2) 3) + 1 ∧
      (Fib 1 = 1 ∧ Fib 2 = 1 ∧ ∀ n, Fib (n + 2) = Fib (n + 1) + Fib n) ∧
      (getHeight .c15
          (node 20 (node 10 NULL NULL 1) (node 30 NULL (node 40 NULL NULL 1) 2) 3)).toNat ≤
        2 * Nat.log 2
          (countNodes (node 20 (node 10 NULL NULL 1) (node 30 NULL (node 40 NULL NULL 1) 2) 3)
            + 1).toNat + 1 ∧
      ∀ k, ((insertSteps .c15
            (node 20 (node 10 NULL NULL 1) (node 30 NULL (node 40 NULL NULL 1) 2) 3) k).length : Int)
          ≤ getHeight .c15 (node 20 (node 10 NULL NULL 1) (node 30 NULL (node 40 NULL NULL 1) 2) 3) ∧
        ((deleteSteps
            (node 20 (node 10 NULL NULL 1) (node 30 NULL (node 40 NULL NULL 1) 2) 3) k).length : Int)
          ≤ getHeight .c15 (node 20 (node 10 NULL NULL 1) (node 30 NULL (node 40 NULL NULL 1) 2) 3) :=
  height_logarithmic (node 20 (node 10 NULL NULL 1) (node 30 NULL (node 40 NULL NULL 1) 2) 3)
    (by decide) (by decide)

/-! When `deleteNode` returns NULL, and what `findMin` returns -/

theorem rightRotate_ne_null (v : Variant) (t t2 : BSTNode) (h : rightRotate v t = some t2) :
    t2 ≠ NULL := by
  unfold rightRotate at h
  split at h
  · simp only [Option.some.injEq] at h
    subst h
    exact fun e => BSTNode.noConfusion e
  · exact absurd h (by simp)

theorem leftRotate_ne_null (v : Variant) (t t2 : BSTNode) (h : leftRotate v t = some t2) :
    t2 ≠ NULL := by
  unfold leftRotate at h
  split at h
  · simp only [Option.some.injEq] at h
    subst h
    exact fun e => BSTNode.noConfusion e
  · exact absurd h (by simp)

theorem deleteRebalance_ne_null (k : Int) (l r : BSTNode) (h0 : Int) (t2 : BSTNode)
    (h : deleteRebalance (node k l r h0) = some t2) : t2 ≠ NULL := by
  simp only [deleteRebalance] at h
  split_ifs at h
  · exact rightRotate_ne_null _ _ _ h
  · simp only [Option.bind_eq_some] at h
    obtain ⟨l2, -, h⟩ := h
    exact rightRotate_ne_null _ _ _ h
  · exact leftRotate_ne_null _ _ _ h
  · simp only [Option.bind_eq_some] at h
    obtain ⟨r2, -, h⟩ := h
    exact leftRotate_ne_null _ _ _ h
  · simp only [Option.some.injEq] at h
    subst h
    exact fun e => BSTNode.noConfusion e

theorem deleteNode_eq_null_iff (t : BSTNode) (key : Int) (t2 : BSTNode)
    (h : deleteNode t key = some t2) :
    t2 = NULL ↔ (t = NULL ∨ ∃ h0, t = node key NULL NULL h0) := by
  cases t with
  | NULL =>
    simp only [deleteNode, Option.some.injEq] at h
    subst h
    simp
  | node k l r h0 =>
    simp only [deleteNode] at h
    have hn : ∀ x a b, deleteRebalance (node x a b h0) = some t2 → ¬ (t2 = NULL) :=
      fun x a b e => deleteRebalance_ne_null x a b h0 t2 e
    by_cases c1 : key < k
    · simp only [c1, if_true, Option.bind_eq_some] at h
      obtain ⟨l2, -, h⟩ := h
      have : key ≠ k := by omega
      simp [hn k l2 r h, this.symm]
    · by_cases c2 : key > k
      · simp only [c1, c2, if_true, if_false, Option.bind_eq_some] at h
        obtain ⟨r2, -, h⟩ := h
        have : key ≠ k := by omega
        simp [hn k l r2 h, this.symm]
      · have hk : key = k := by omega
        subst hk
        simp only [c1, c2, if_false] at h
        by_cases c3 : l = NULL
        · subst c3
          simp only [if_true, Option.some.injEq] at h
          subst h
          simp
        · by_cases c4 : r = NULL
          · subst c4
            simp only [c3, if_true, if_false, Option.some.injEq] at h
            subst h
            simp [c3]
          · simp only [c3, c4, if_false, Option.bind_eq_some] at h
            obtain ⟨tk, -, r2, -, h⟩ := h
            simp [hn tk l r2 h, c3]

/-- Claim C28: delete yields the empty tree only for a single-node tree.  On every tree of
15.c with consistent heights (I2) and balanced nodes (I3) and for every key `k`,
`deleteNode(t, k)` returns NULL if and only if `t` is NULL or `t` is a single node without
children whose key is `k`; for such a single node NULL is returned without reaching the
height update or a rotation.  In particular deleting a key from a tree of at least two
nodes returns a non-empty tree.  The order invariant I1 is not needed for this. -/
theorem deleteNode_null_iff_single (t : BSTNode) (k : Int)
    (h2 : I2 .c15 t) (h3 : isBalanced .c15 t = 1) :
    ∃ t2, deleteNode t k = some t2 ∧
      (t2 = NULL ↔ (t = NULL ∨ ∃ h, t = node k NULL NULL h)) ∧
      (∀ h, deleteNode (node k NULL NULL h) k = some NULL ∧
        deleteSteps (node k NULL NULL h) k = []) ∧
      (2 ≤ countNodes t → t2 ≠ NULL) := by
  obtain ⟨t2, e, -⟩ := delete_core t k h2 ((isBalanced_eq_one_iff .c15 t).mp h3)
  have hiff := deleteNode_eq_null_iff t k t2 e
  refine ⟨t2, e, hiff, fun h => ⟨by simp [deleteNode], by simp [deleteSteps]⟩, fun hc hn => ?_⟩
  rcases hiff.mp hn with rfl | ⟨h, rfl⟩
  · simp [countNodes] at hc
  · simp [countNodes] at hc

theorem deleteNode_null_iff_single_witness :
    ∃ t2, deleteNode (node 20 (node 10 NULL NULL 1) NULL 2) 20 = some t2 ∧
      (t2 = NULL ↔ (node 20 (node 10 NULL NULL 1) NULL 2 = NULL ∨
        ∃ h, node 20 (node 10 NULL NULL 1) NULL 2 = node 20 NULL NULL h)) ∧
      (∀ h, deleteNode (node 20 NULL NULL h) 20 = some NULL ∧
        deleteSteps (node 20 NULL NULL h) 20 = []) ∧
      (2 ≤ countNodes (node 20 (node 10 NULL NULL 1) NULL 2) → t2 ≠ NULL) :=
  deleteNode_null_iff_single (node 20 (node 10 NULL NULL 1) NULL 2) 20 (by decide) (by decide)

theorem findMin_spec (t : BSTNode) (hne : t ≠ NULL) :
    ∃ k r h rest, findMin t = node k NULL r h ∧ node k NULL r h ∈ nodes t ∧
      inorder t = k :: rest := by
  induction t with
  | NULL => exact absurd rfl hne
  | node k l r h ihl _ =>
    simp only [findMin, nodes, List.mem_cons, List.mem_append]
    split_ifs with c
    · obtain ⟨k2, r2, h2, rest, e1, e2, e3⟩ := ihl c
      exact ⟨k2, r2, h2, rest ++ k :: inorder r, e1, Or.inr (Or.inl e2), by simp [inorder, e3]⟩
    · have : l = NULL := not_not.mp c
      subst this
      exact ⟨k, r, h, inorder r, rfl, Or.inl rfl, rfl⟩

/-- Claim C29: `findMin` returns the node of the inorder successor.  On every non-empty
tree that satisfies I1, `findMin(t)` returns the leftmost node of `t`: a node of `t` without
left child whose key is the first element of the inorder sequence of `t`, the smallest key
of `t`; `findMin(NULL)` is NULL.  Hence where `deleteNode` finds its key in a node with two
children whose right subtree is `t`, the key copied into the node is the smallest key of
`t`, and that key is then deleted from `t`. -/
theorem findMin_leftmost (t : BSTNode) (h1 : I1 t) (hne : t ≠ NULL) :
    (∃ k r h rest, findMin t = node k NULL r h ∧ node k NULL r h ∈ nodes t ∧
        inorder t = k :: rest ∧ ∀ x ∈ inorder t, k ≤ x) ∧
      findMin NULL = NULL ∧
      ∀ x l h0, l ≠ NULL → ∃ tk, keyOf (findMin t) = some tk ∧ tk ∈ inorder t ∧
        (∀ y ∈ inorder t, tk ≤ y) ∧
        deleteNode (node x l t h0) x =
          (deleteNode t tk).bind fun r2 => deleteRebalance (node tk l r2 h0) := by
  obtain ⟨k, r, h, rest, e1, e2, e3⟩ := findMin_spec t hne
  have hs := (I1_iff_sorted t).mp h1
  rw [e3] at hs
  have hmin : ∀ x ∈ inorder t, k ≤ x := by
    intro x hx
    rw [e3] at hx
    rcases List.mem_cons.mp hx with rfl | hx
    · exact le_refl _
    · exact le_of_lt (List.rel_of_sorted_cons hs x hx)
  refine ⟨⟨k, r, h, rest, e1, e2, e3, hmin⟩, rfl, fun x l h0 hl => ?_⟩
  refine ⟨k, by rw [e1]; rfl, by rw [e3]; exact List.mem_cons_self k rest, hmin, ?_⟩
  simp only [deleteNode, lt_irrefl, gt_iff_lt, if_false, hl, hne, e1, keyOf, Option.some_bind]

theorem findMin_leftmost_witness :
    (∃ k r h rest, findMin (node 30 (node 25 NULL NULL 1) (node 40 NULL NULL 1) 2) =
          node k NULL r h ∧
        node k NULL r h ∈ nodes (node 30 (node 25 NULL NULL 1) (node 40 NULL NULL 1) 2) ∧
        inorder (node 30 (node 25 NULL NULL 1) (node 40 NULL NULL 1) 2) = k :: rest ∧
        ∀ x ∈ inorder (node 30 (node 25 NULL NULL 1) (node 40 NULL NULL 1) 2), k ≤ x) ∧
      findMin NULL = NULL ∧
      ∀ x l h0, l ≠ NULL →
        ∃ tk, keyOf (findMin (node 30 (node 25 NULL NULL 1) (node 40 NULL NULL 1) 2)) = some tk ∧
          tk ∈ inorder (node 30 (node 25 NULL NULL 1) (node 40 NULL NULL 1) 2) ∧
          (∀ y ∈ inorder (node 30 (node 25 NULL NULL 1) (node 40 NULL NULL 1) 2), tk ≤ y) ∧
          deleteNode (node x l (node 30 (node 25 NULL NULL 1) (node 40 NULL NULL 1) 2) h0) x =
            (deleteNode (node 30 (node 25 NULL NULL 1) (node 40 NULL NULL 1) 2) tk).bind
              fun r2 => deleteRebalance (node tk l r2 h0) :=
  findMin_leftmost (node 30 (node 25 NULL NULL 1) (node 40 NULL NULL 1) 2)
    (by decide) (by decide)

/-! The balance checker and recomputed heights -/

theorem getHeight_eq_structHeight (v : Variant) : ∀ t : BSTNode, I2 v t →
    getHeight v t = structHeight t + getHeight v NULL
  | NULL, _ => by simp [structHeight]
  | node k l r h, h2 => by
      obtain ⟨hh, hl2, hr2⟩ := h2
      have el := getHeight_eq_structHeight v l hl2
      have er := getHeight_eq_structHeight v r hr2
      simp only [getHeight_node, structHeight, hh, newHeight]
      split_ifs <;> omega

theorem I3_iff_structBalance (v : Variant) : ∀ t : BSTNode, I2 v t →
    (I3 v t ↔ ∀ n ∈ nodes t, -1 ≤ structBalance n ∧ structBalance n ≤ 1)
  | NULL, _ => by simp [I3, nodes]
  | node k l r h, h2 => by
      obtain ⟨hh, hl2, hr2⟩ := h2
      have el := getHeight_eq_structHeight v l hl2
      have er := getHeight_eq_structHeight v r hr2
      have e : getHeight v l - getHeight v r = structHeight l - structHeight r := by omega
      simp only [I3, nodes, List.mem_cons, List.mem_append, getBalance, e,
        I3_iff_structBalance v l hl2, I3_iff_structBalance v r hr2]
      constructor
      · rintro ⟨a, b, c⟩ n (rfl | hn | hn)
        · exact a
        · exact b n hn
        · exact c n hn
      · intro a
        exact ⟨a _ (Or.inl rfl), fun n hn => a n (Or.inr (Or.inl hn)),
          fun n hn => a n (Or.inr (Or.inr hn))⟩

/-- Claim C31: `isBalanced` checks the true balance only through the cached heights.  In
both variants, on every tree that satisfies I2 (every cached height is 1 + the larger
`getHeight` of the two children), `isBalanced(t)` is 1 if and only if at every node the
heights of the left and the right subtree recomputed from the shape differ by at most 1;
`isBalanced(NULL)` is 1. -/
theorem isBalanced_iff_structBalance (v : Variant) (t : BSTNode) (h2 : I2 v t) :
    (isBalanced v t = 1 ↔
        ∀ k l r h, node k l r h ∈ nodes t →
          -1 ≤ structHeight l - structHeight r ∧ structHeight l - structHeight r ≤ 1) ∧
      isBalanced v NULL = 1 := by
  refine ⟨?_, rfl⟩
  rw [isBalanced_eq_one_iff, I3_iff_structBalance v t h2]
  constructor
  · intro a k l r h hn
    exact a _ hn
  · intro a n hn
    cases n with
    | NULL => simp [structBalance]
    | node k l r h => exact a k l r h hn

theorem isBalanced_iff_structBalance_witness :
    (isBalanced .c8 (node 20 (node 10 (node 5 NULL NULL 0) NULL 1) NULL 2) = 1 ↔
        ∀ k l r h, node k l r h ∈ nodes (node 20 (node 10 (node 5 NULL NULL 0) NULL 1) NULL 2) →
          -1 ≤ structHeight l - structHeight r ∧ structHeight l - structHeight r ≤ 1) ∧
      isBalanced .c8 NULL = 1 :=
  isBalanced_iff_structBalance .c8 (node 20 (node 10 (node 5 NULL NULL 0) NULL 1) NULL 2)
    (by decide)

/-! Height changes -/

/-- Claim C32: insert changes the height by at most one and never lowers it.  In both
variants, on every tree with consistent heights (I2) and balanced nodes (I3) and for every
key `k`, `getHeight(t) <= getHeight(insert(t, k)) <= getHeight(t) + 1`.  The order invariant
I1 is not needed for this. -/
theorem insert_height_bounds (v : Variant) (t : BSTNode) (k : Int)
    (h2 : I2 v t) (h3 : isBalanced v t = 1) :
    ∃ t2, insert v t k = some t2 ∧
      getHeight v t ≤ getHeight v t2 ∧ getHeight v t2 ≤ getHeight v t + 1 := by
  obtain ⟨t2, e, -, -, g⟩ := insert_core v k t h2 ((isBalanced_eq_one_iff v t).mp h3)
  refine ⟨t2, e, ?_, ?_⟩ <;> rcases g with g | ⟨g, -⟩ <;> omega

theorem insert_height_bounds_witness :
    ∃ t2, insert .c15 (node 20 (node 10 NULL NULL 1) (node 30 NULL NULL 1) 2) 25 = some t2 ∧
      getHeight .c15 (node 20 (node 10 NULL NULL 1) (node 30 NULL NULL 1) 2) ≤ getHeight .c15 t2 ∧
      getHeight .c15 t2 ≤ getHeight .c15 (node 20 (node 10 NULL NULL 1) (node 30 NULL NULL 1) 2) + 1 :=
  insert_height_bounds .c15 (node 20 (node 10 NULL NULL 1) (node 30 NULL NULL 1) 2) 25
    (by decide) (by decide)

/-- Claim C33: delete changes the height by at most one and never raises it.  On every
tree of 15.c with consistent heights (I2) and balanced nodes (I3) and for every key `k`,
`getHeight(t) - 1 <= getHeight(deleteNode(t, k)) <= getHeight(t)`.  The order invariant I1
is not needed for this. -/
theorem deleteNode_height_bounds (t : BSTNode) (k : Int)
    (h2 : I2 .c15 t) (h3 : isBalanced .c15 t = 1) :
    ∃ t2, deleteNode t k = some t2 ∧
      getHeight .c15 t - 1 ≤ getHeight .c15 t2 ∧ getHeight .c15 t2 ≤ getHeight .c15 t := by
  obtain ⟨t2, e, -, -, g⟩ := delete_core t k h2 ((isBalanced_eq_one_iff .c15 t).mp h3)
  refine ⟨t2, e, ?_, ?_⟩ <;> rcases g with g | g <;> omega

theorem deleteNode_height_bounds_witness :
    ∃ t2, deleteNode (node 20 (node 10 NULL NULL 1) NULL 2) 10 = some t2 ∧
      getHeight .c15 (node 20 (node 10 NULL NULL 1) NULL 2) - 1 ≤ getHeight .c15 t2 ∧
      getHeight .c15 t2 ≤ getHeight .c15 (node 20 (node 10 NULL NULL 1) NULL 2) :=
  deleteNode_height_bounds (node 20 (node 10 NULL NULL 1) NULL 2) 10 (by decide) (by decide)

/-! Rotations undo each other -/

/-- Claim C36: the rotations are mutually inverse.  In both variants, for every tree `y`
whose left child is present, `leftRotate(rightRotate(y))` has the shape and the keys of `y`,
and it is `y` itself, cached heights included, whenever the cached heights of `y` and of
`y->left` are consistent with their children; symmetrically `rightRotate(leftRotate(x))`
restores every `x` whose right child is present, with its cached heights whenever those of
`x` and of `x->right` are consistent. -/
theorem rotations_inverse (v : Variant) (k1 k2 : Int) (A B C : BSTNode) (h1 h2 : Int) :
    (∃ y2 y3, rightRotate v (node k1 (node k2 A B h2) C h1) = some y2 ∧
        leftRotate v y2 = some y3 ∧
        shape y3 = shape (node k1 (node k2 A B h2) C h1) ∧
        inorder y3 = inorder (node k1 (node k2 A B h2) C h1) ∧
        (h1 = newHeight v (node k2 A B h2) C → h2 = newHeight v A B →
          y3 = node k1 (node k2 A B h2) C h1)) ∧
      (∃ x2 x3, leftRotate v (node k1 A (node k2 B C h2) h1) = some x2 ∧
        rightRotate v x2 = some x3 ∧
        shape x3 = shape (node k1 A (node k2 B C h2) h1) ∧
        inorder x3 = inorder (node k1 A (node k2 B C h2) h1) ∧
        (h1 = newHeight v A (node k2 B C h2) → h2 = newHeight v B C →
          x3 = node k1 A (node k2 B C h2) h1)) := by
  refine ⟨⟨_, _, rfl, rfl, rfl, rfl, fun e1 e2 => ?_⟩, ⟨_, _, rfl, rfl, rfl, rfl, fun e1 e2 => ?_⟩⟩
  · subst e2
    subst e1
    rfl
  · subst e2
    subst e1
    rfl

theorem rotations_inverse_witness :
    ∃ y2, rightRotate .c15 (node 20 (node 10 (node 5 NULL NULL 1) NULL 2) NULL 3) = some y2 ∧
      leftRotate .c15 y2 = some (node 20 (node 10 (node 5 NULL NULL 1) NULL 2) NULL 3) :=
  match (rotations_inverse .c15 20 10 (node 5 NULL NULL 1) NULL NULL 3 2).1 with
  | ⟨y2, _, a, b, _, _, c⟩ => ⟨y2, a, by rw [b, c (by decide) (by decide)]⟩

/-! The test after the recursive calls of `deleteNode` -/

theorem deleteSteps_are_nodes : ∀ (t : BSTNode) (key : Int),
    ∀ s ∈ deleteSteps t key, ∃ k l r h, s = node k l r h := by
  intro t
  induction t with
  | NULL => intro key s hs; simp [deleteSteps] at hs
  | node k l r h ihl ihr =>
    intro key s hs
    simp only [deleteSteps] at hs
    split_ifs at hs
    · rcases List.mem_append.mp hs with hs | hs
      · exact ihl key s hs
      · cases hd : deleteNode l key with
        | none => simp [hd] at hs
        | some l2 =>
          simp only [hd, List.mem_singleton] at hs
          exact ⟨k, l2, r, h, hs⟩
    · rcases List.mem_append.mp hs with hs | hs
      · exact ihr key s hs
      · cases hd : deleteNode r key with
        | none => simp [hd] at hs
        | some r2 =>
          simp only [hd, List.mem_singleton] at hs
          exact ⟨k, l, r2, h, hs⟩
    · simp at hs
    · simp at hs
    · cases hf : keyOf (findMin r) with
      | none => simp [hf] at hs
      | some tk =>
        simp only [hf] at hs
        rcases List.mem_append.mp hs with hs | hs
        · exact ihr tk s hs
        · cases hd : deleteNode r tk with
          | none => simp [hd] at hs
          | some r2 =>
            simp only [hd, List.mem_singleton] at hs
            exact ⟨tk, l, r2, h, hs⟩

theorem deleteNodeUnchecked_eq : ∀ (t : BSTNode) (key : Int),
    deleteNodeUnchecked t key = deleteNode t key := by
  intro t
  induction t with
  | NULL => intro key; rfl
  | node k l r h ihl ihr =>
    intro key
    have e : ∀ x a b, deleteRebalanceUnchecked (node x a b h) = deleteRebalance (node x a b h) :=
      fun _ _ _ => rfl
    simp only [deleteNodeUnchecked, deleteNode, ihl, ihr, e]

/-- Claim C37: the emptiness test after the recursive calls of `deleteNode` never holds.
For every tree and key, whether the tree is well formed or not, each time `deleteNode(t, k)`
reaches the test `root == NULL` of line 162 `root` is a node: the empty input has returned
at line 137 and a node found with at most one child has returned at line 149 or 153.  So
`deleteNode` is equal to the same function with lines 162-164 removed. -/
theorem deleteNode_null_check_dead (t : BSTNode) (key : Int) :
    (∀ s ∈ deleteSteps t key, s ≠ NULL ∧ deleteRebalanceUnchecked s = deleteRebalance s) ∧
      deleteNodeUnchecked t key = deleteNode t key ∧
      (deleteNode NULL key = some NULL ∧ deleteSteps NULL key = []) ∧
      (∀ r h, deleteNode (node key NULL r h) key = some r ∧
        deleteSteps (node key NULL r h) key = []) ∧
      (∀ l h, l ≠ NULL → deleteNode (node key l NULL h) key = some l ∧
        deleteSteps (node key l NULL h) key = []) := by
  refine ⟨fun s hs => ?_, deleteNodeUnchecked_eq t key, ⟨rfl, rfl⟩, fun r h => ?_,
    fun l h hl => ?_⟩
  · obtain ⟨k, l, r, h, rfl⟩ := deleteSteps_are_nodes t key s hs
    exact ⟨fun e => BSTNode.noConfusion e, rfl⟩
  · simp [deleteNode, deleteSteps]
  · simp [deleteNode, deleteSteps, hl]

theorem deleteNode_null_check_dead_witness :
    deleteNode (node 20 (node 10 NULL NULL 1) NULL 2) 20 = some (node 10 NULL NULL 1) ∧
      deleteSteps (node 20 (node 10 NULL NULL 1) NULL 2) 20 = [] :=
  (deleteNode_null_check_dead NULL 20).2.2.2.2 (node 10 NULL NULL 1) 2 (by decide)

/-! The extreme keys, and delete after insert -/

/-- Claim C38: `isValidBST` cannot accept the extreme `int` keys.  For every tree that
contains the key `INT_MIN` or the key `INT_MAX` of a 32-bit `int`, and for all bounds `lo`
and `hi` that are 32-bit `int` values, `isValidBST(t, lo, hi)` is 0, also when the tree
satisfies the order invariant I1, as a single node with such a key does. -/
theorem isValidBST_rejects_extreme_keys (t : BSTNode) (lo hi : Int)
    (hlo : INT_MIN ≤ lo) (hhi : hi ≤ INT_MAX)
    (hk : INT_MIN ∈ inorder t ∨ INT_MAX ∈ inorder t) :
    isValidBST t lo hi = 0 ∧
      (I1 (node INT_MIN NULL NULL 1) ∧ isValidBST (node INT_MIN NULL NULL 1) lo hi = 0) ∧
      (I1 (node INT_MAX NULL NULL 1) ∧ isValidBST (node INT_MAX NULL NULL 1) lo hi = 0) := by
  refine ⟨?_, ⟨by simp [I1, inorder], ?_⟩, ⟨by simp [I1, inorder], ?_⟩⟩
  · rcases isValidBST_zero_or_one t lo hi with e | e
    · exact e
    · have hb := ((isValidBST_eq_one_iff t lo hi).mp e).2
      rcases hk with hk | hk
      · have := (hb _ hk).1
        omega
      · have := (hb _ hk).2
        omega
  · simp only [isValidBST]
    rw [if_pos (Or.inl hlo)]
  · simp only [isValidBST]
    rw [if_pos (Or.inr hhi)]

theorem isValidBST_rejects_extreme_keys_witness :
    isValidBST (node 0 (node INT_MIN NULL NULL 1) NULL 2) INT_MIN 101 = 0 ∧
      (I1 (node INT_MIN NULL NULL 1) ∧ isValidBST (node INT_MIN NULL NULL 1) INT_MIN 101 = 0) ∧
      (I1 (node INT_MAX NULL NULL 1) ∧ isValidBST (node INT_MAX NULL NULL 1) INT_MIN 101 = 0) :=
  isValidBST_rejects_extreme_keys (node 0 (node INT_MIN NULL NULL 1) NULL 2) INT_MIN 101
    (by decide) (by decide) (by decide)

/-- Claim C39: delete does not undo insert structurally.  In 15.c there are a tree `T` that
satisfies I1, I2 and I3 and a key `k` not in `T` such that `deleteNode(insert(T, k), k)` has
a shape different from that of `T`, although the keys are the same: for `T` built by
inserting 10 then 20 (root 10 with right child 20) and `k = 30`, the result has root 20 with
left child 10. -/
theorem delete_does_not_undo_insert :
    insertAll .c15 NULL [10, 20] = some (node 10 NULL (node 20 NULL NULL 1) 2) ∧
      I1 (node 10 NULL (node 20 NULL NULL 1) 2) ∧ I2 .c15 (node 10 NULL (node 20 NULL NULL 1) 2) ∧
      isBalanced .c15 (node 10 NULL (node 20 NULL NULL 1) 2) = 1 ∧
      30 ∉ inorder (node 10 NULL (node 20 NULL NULL 1) 2) ∧
      insert .c15 (node 10 NULL (node 20 NULL NULL 1) 2) 30 =
        some (node 20 (node 10 NULL NULL 1) (node 30 NULL NULL 1) 2) ∧
      deleteNode (node 20 (node 10 NULL NULL 1) (node 30 NULL NULL 1) 2) 30 =
        some (node 20 (node 10 NULL NULL 1) NULL 2) ∧
      shape (node 20 (node 10 NULL NULL 1) NULL 2) ≠
        shape (node 10 NULL (node 20 NULL NULL 1) 2) ∧
      inorder (node 20 (node 10 NULL NULL 1) NULL 2) =
        inorder (node 10 NULL (node 20 NULL NULL 1) 2) := by
  decide

/-! A rotation at the root restores the height -/

theorem insert_step_left_rotated (v : Variant) (k : Int) (l l2 r : BSTNode) (key : Int)
    (hl2 : I2 v l2) (hl3 : I3 v l2) (hr2 : I2 v r)
    (b1 : -1 ≤ getHeight v l - getHeight v r) (b2 : getHeight v l - getHeight v r ≤ 1)
    (hg : getHeight v l2 = getHeight v l ∨ (getHeight v l2 = getHeight v l + 1 ∧ Grew v key l2))
    (hb : getHeight v l2 - getHeight v r > 1) :
    ∃ t2, insertRebalance v k l2 r key = some t2 ∧ getHeight v t2 = newHeight v l r := by
  have er := height_ge v r hr2
  obtain ⟨hh, g⟩ : getHeight v l2 = getHeight v l + 1 ∧ Grew v key l2 := by
    rcases hg with hg | hg
    · omega
    · exact hg
  cases l2 with
  | NULL => exact absurd g (by simp [Grew])
  | node lk ll lr lh =>
    simp only [I2, I3, getBalance, getHeight_node] at hl2 hl3 hh hb
    obtain ⟨hlh, hll2, hlr2⟩ := hl2
    obtain ⟨⟨c1, c2⟩, -, hlr3⟩ := hl3
    have ell := height_ge v ll hll2
    simp only [Grew] at g
    rcases g with ⟨rfl, rfl⟩ | ⟨gk, gh⟩ | ⟨gk, gh⟩
    · simp only [newHeight] at hlh
      split_ifs at hlh <;> omega
    · rw [insertRebalance_LL v k lk ll lr lh r key (by simp only [getHeight_node]; omega) gk]
      simp only [newHeight] at hlh
      refine ⟨_, rfl, ?_⟩
      simp only [getHeight_node, newHeight]
      split_ifs at hlh ⊢ <;> omega
    · obtain ⟨mk, ml, mr, mh, rfl⟩ := node_of_height_gt v lr (by omega)
      simp only [I2, I3, getBalance, getHeight_node] at hlr2 hlr3 gh
      obtain ⟨hmh, -, -⟩ := hlr2
      obtain ⟨⟨d1, d2⟩, -, -⟩ := hlr3
      rw [insertRebalance_LR v k lk ll mk ml mr mh lh r key
        (by simp only [getHeight_node]; omega) gk]
      simp only [newHeight, getHeight_node] at hlh hmh
      refine ⟨_, rfl, ?_⟩
      simp only [getHeight_node, newHeight]
      split_ifs at hlh hmh ⊢ <;> omega

theorem insert_step_right_rotated (v : Variant) (k : Int) (l r r2 : BSTNode) (key : Int)
    (hr2 : I2 v r2) (hr3 : I3 v r2) (hl2 : I2 v l)
    (b1 : -1 ≤ getHeight v l - getHeight v r) (b2 : getHeight v l - getHeight v r ≤ 1)
    (hg : getHeight v r2 = getHeight v r ∨ (getHeight v r2 = getHeight v r + 1 ∧ Grew v key r2))
    (hb : getHeight v l - getHeight v r2 < -1) :
    ∃ t2, insertRebalance v k l r2 key = some t2 ∧ getHeight v t2 = newHeight v l r := by
  have el := height_ge v l hl2
  obtain ⟨hh, g⟩ : getHeight v r2 = getHeight v r + 1 ∧ Grew v key r2 := by
    rcases hg with hg | hg
    · omega
    · exact hg
  cases r2 with
  | NULL => exact absurd g (by simp [Grew])
  | node rk rl rr rh =>
    simp only [I2, I3, getBalance, getHeight_node] at hr2 hr3 hh hb
    obtain ⟨hrh, hrl2, hrr2⟩ := hr2
    obtain ⟨⟨c1, c2⟩, hrl3, -⟩ := hr3
    have err := height_ge v rr hrr2
    simp only [Grew] at g
    rcases g with ⟨rfl, rfl⟩ | ⟨gk, gh⟩ | ⟨gk, gh⟩
    · simp only [newHeight] at hrh
      split_ifs at hrh <;> omega
    · obtain ⟨mk, ml, mr, mh, rfl⟩ := node_of_height_gt v rl (by omega)
      simp only [I2, I3, getBalance, getHeight_node] at hrl2 hrl3 gh
      obtain ⟨hmh, -, -⟩ := hrl2
      obtain ⟨⟨d1, d2⟩, -, -⟩ := hrl3
      rw [insertRebalance_RL v k l rk mk ml mr mh rr rh key
        (by simp only [getHeight_node]; omega) gk]
      simp only [newHeight, getHeight_node] at hrh hmh
      refine ⟨_, rfl, ?_⟩
      simp only [getHeight_node, newHeight]
      split_ifs at hrh hmh ⊢ <;> omega
    · rw [insertRebalance_RR v k l rk rl rr rh key (by simp only [getHeight_node]; omega) gk]
      simp only [newHeight] at hrh
      refine ⟨_, rfl, ?_⟩
      simp only [getHeight_node, newHeight]
      split_ifs at hrh ⊢ <;> omega

theorem insert_root_key_or_height (v : Variant) (key : Int) (k : Int) (l r : BSTNode) (h : Int)
    (h2 : I2 v (node k l r h)) (h3 : I3 v (node k l r h)) :
    ∃ t2, insert v (node k l r h) key = some t2 ∧
      (keyOf t2 = some k ∨ getHeight v t2 = h) := by
  obtain ⟨hh, hl2, hr2⟩ := h2
  obtain ⟨⟨b1, b2⟩, hl3, hr3⟩ := h3
  simp only [getBalance] at b1 b2
  simp only [insert]
  by_cases c1 : key < k
  · obtain ⟨l2, e, a2, a3, g⟩ := insert_core v key l hl2 hl3
    simp only [c1, if_true, e, Option.some_bind]
    by_cases hb : getHeight v l2 - getHeight v r ≤ 1
    · have : -1 ≤ getHeight v l2 - getHeight v r := by rcases g with g | ⟨g, -⟩ <;> omega
      rw [insertRebalance_balanced v k l2 r key this hb]
      exact ⟨_, rfl, Or.inl rfl⟩
    · obtain ⟨t2, e2, e3⟩ :=
        insert_step_left_rotated v k l l2 r key a2 a3 hr2 b1 b2 g (by omega)
      exact ⟨t2, e2, Or.inr (by rw [e3, hh])⟩
  · by_cases c2 : key > k
    · obtain ⟨r2, e, a2, a3, g⟩ := insert_core v key r hr2 hr3
      simp only [c1, c2, if_true, if_false, e, Option.some_bind]
      by_cases hb : -1 ≤ getHeight v l - getHeight v r2
      · have : getHeight v l - getHeight v r2 ≤ 1 := by rcases g with g | ⟨g, -⟩ <;> omega
        rw [insertRebalance_balanced v k l r2 key hb this]
        exact ⟨_, rfl, Or.inl rfl⟩
      · obtain ⟨t2, e2, e3⟩ :=
          insert_step_right_rotated v k l r r2 key a2 a3 hl2 b1 b2 g (by omega)
        exact ⟨t2, e2, Or.inr (by rw [e3, hh])⟩
    · simp only [c1, c2, if_false]
      exact ⟨_, rfl, Or.inl rfl⟩

/-- Claim C34: a rotation during insert restores the old height of the subtree, so the
rebalancing does not propagate.  In both variants, on every non-empty tree with consistent
heights (I2) and balanced nodes (I3) and for every key `k`, if the key at the root of
`insert(t, k)` differs from the key at the root of `t` (a single or a double rotation took
place at the root), then `getHeight(insert(t, k)) = getHeight(t)`.  The order invariant I1
is not needed for this. -/
theorem insert_rotation_restores_height (v : Variant) (t : BSTNode) (k : Int)
    (h2 : I2 v t) (h3 : isBalanced v t = 1) (hne : t ≠ NULL) :
    ∃ t2, insert v t k = some t2 ∧
      (keyOf t2 ≠ keyOf t → getHeight v t2 = getHeight v t) := by
  cases t with
  | NULL => exact absurd rfl hne
  | node x l r h =>
    obtain ⟨t2, e, g⟩ :=
      insert_root_key_or_height v k x l r h h2 ((isBalanced_eq_one_iff v _).mp h3)
    refine ⟨t2, e, fun hk => ?_⟩
    rcases g with g | g
    · exact absurd g hk
    · exact g

theorem insert_rotation_restores_height_witness :
    ∃ t2, insert .c8 (node 30 (node 20 NULL NULL 0) NULL 1) 10 = some t2 ∧
      (keyOf t2 ≠ keyOf (node 30 (node 20 NULL NULL 0) NULL 1) →
        getHeight .c8 t2 = getHeight .c8 (node 30 (node 20 NULL NULL 0) NULL 1)) :=
  insert_rotation_restores_height .c8 (node 30 (node 20 NULL NULL 0) NULL 1) 10
    (by decide) (by decide) (by decide)

/-! The two decision tables on the insert path -/

theorem tables_agree_left (k : Int) (l l2 r : BSTNode) (key : Int) (h0 : Int)
    (hl2 : I2 .c15 l2) (hr2 : I2 .c15 r)
    (b1 : -1 ≤ getHeight .c15 l - getHeight .c15 r)
    (b2 : getHeight .c15 l - getHeight .c15 r ≤ 1)
    (hg : getHeight .c15 l2 = getHeight .c15 l ∨
      (getHeight .c15 l2 = getHeight .c15 l + 1 ∧ Grew .c15 key l2)) :
    deleteRebalance (node k l2 r h0) = insertRebalance .c15 k l2 r key := by
  have er := height_ge .c15 r hr2
  by_cases hb : getHeight .c15 l2 - getHeight .c15 r ≤ 1
  · have hb1 : -1 ≤ getHeight .c15 l2 - getHeight .c15 r := by
      rcases hg with hg | ⟨hg, -⟩ <;> omega
    rw [insertRebalance_balanced .c15 k l2 r key hb1 hb, deleteRebalance_balanced k l2 r h0 hb1 hb]
  · obtain ⟨hh, g⟩ : getHeight .c15 l2 = getHeight .c15 l + 1 ∧ Grew .c15 key l2 := by
      rcases hg with hg | hg
      · omega
      · exact hg
    cases l2 with
    | NULL => exact absurd g (by simp [Grew])
    | node lk ll lr lh =>
      simp only [I2, getHeight_node] at hl2 hh hb
      obtain ⟨hlh, hll2, -⟩ := hl2
      have ell := height_ge .c15 ll hll2
      simp only [Grew] at g
      rcases g with ⟨rfl, rfl⟩ | ⟨gk, gh⟩ | ⟨gk, gh⟩
      · simp only [newHeight] at hlh
        split_ifs at hlh <;> omega
      · rw [insertRebalance_LL .c15 k lk ll lr lh r key (by simp only [getHeight_node]; omega) gk,
          deleteRebalance_LL k lk ll lr lh r h0 (by simp only [getHeight_node]; omega)
            (by omega)]
      · obtain ⟨mk, ml, mr, mh, rfl⟩ := node_of_height_gt .c15 lr (by omega)
        rw [insertRebalance_LR .c15 k lk ll mk ml mr mh lh r key
            (by simp only [getHeight_node]; omega) gk,
          deleteRebalance_LR k lk ll mk ml mr mh lh r h0
            (by simp only [getHeight_node]; omega) (by omega)]

theorem tables_agree_right (k : Int) (l r r2 : BSTNode) (key : Int) (h0 : Int)
    (hr2 : I2 .c15 r2) (hl2 : I2 .c15 l)
    (b1 : -1 ≤ getHeight .c15 l - getHeight .c15 r)
    (b2 : getHeight .c15 l - getHeight .c15 r ≤ 1)
    (hg : getHeight .c15 r2 = getHeight .c15 r ∨
      (getHeight .c15 r2 = getHeight .c15 r + 1 ∧ Grew .c15 key r2)) :
    deleteRebalance (node k l r2 h0) = insertRebalance .c15 k l r2 key := by
  have el := height_ge .c15 l hl2
  by_cases hb : -1 ≤ getHeight .c15 l - getHeight .c15 r2
  · have hb1 : getHeight .c15 l - getHeight .c15 r2 ≤ 1 := by
      rcases hg with hg | ⟨hg, -⟩ <;> omega
    rw [insertRebalance_balanced .c15 k l r2 key hb hb1, deleteRebalance_balanced k l r2 h0 hb hb1]
  · obtain ⟨hh, g⟩ : getHeight .c15 r2 = getHeight .c15 r + 1 ∧ Grew .c15 key r2 := by
      rcases hg with hg | hg
      · omega
      · exact hg
    cases r2 with
    | NULL => exact absurd g (by simp [Grew])
    | node rk rl rr rh =>
      simp only [I2, getHeight_node] at hr2 hh hb
      obtain ⟨hrh, -, hrr2⟩ := hr2
      have err := height_ge .c15 rr hrr2
      simp only [Grew] at g
      rcases g with ⟨rfl, rfl⟩ | ⟨gk, gh⟩ | ⟨gk, gh⟩
      · simp only [newHeight] at hrh
        split_ifs at hrh <;> omega
      · obtain ⟨mk, ml, mr, mh, rfl⟩ := node_of_height_gt .c15 rl (by omega)
        rw [insertRebalance_RL .c15 k l rk mk ml mr mh rr rh key
            (by simp only [getHeight_node]; omega) gk,
          deleteRebalance_RL k l rk mk ml mr mh rr rh h0
            (by simp only [getHeight_node]; omega) (by omega)]
      · rw [insertRebalance_RR .c15 k l rk rl rr rh key (by simp only [getHeight_node]; omega) gk,
          deleteRebalance_RR k l rk rl rr rh h0 (by simp only [getHeight_node]; omega)
            (by omega)]

theorem insertByChildBalance_eq (key : Int) : ∀ t : BSTNode, I2 .c15 t → I3 .c15 t →
    insertByChildBalance t key = insert .c15 t key
  | NULL, _, _ => rfl
  | node k l r h, h2, h3 => by
      obtain ⟨hh, hl2, hr2⟩ := h2
      obtain ⟨⟨b1, b2⟩, hl3, hr3⟩ := h3
      simp only [getBalance] at b1 b2
      simp only [insertByChildBalance, insert]
      by_cases c1 : key < k
      · obtain ⟨l2, e, a2, -, g⟩ := insert_core .c15 key l hl2 hl3
        simp only [c1, if_true, insertByChildBalance_eq key l hl2 hl3, e, Option.some_bind]
        exact tables_agree_left k l l2 r key h a2 hr2 b1 b2 g
      · by_cases c2 : key > k
        · obtain ⟨r2, e, a2, -, g⟩ := insert_core .c15 key r hr2 hr3
          simp only [c1, c2, if_true, if_false, insertByChildBalance_eq key r hr2 hr3, e,
            Option.some_bind]
          exact tables_agree_right k l r r2 key h a2 hl2 b1 b2 g
        · simp only [c1, c2, if_false]

/-- Claim C35: on the insert path the two decision procedures agree.  On every tree of 15.c
with consistent heights (I2) and balanced nodes (I3) and for every key, the variant of
`insert` that chooses its rotation by the delete table (with `balance > 1`, Left-Left when
`getBalance(node->left) >= 0` and Left-Right when it is `< 0`; with `balance < -1`,
Right-Right when `getBalance(node->right) <= 0` and Right-Left when it is `> 0`) returns
exactly the tree `insert` returns, the same in shape, keys and heights; `insert` chooses by
comparing the key with `node->left->key` and `node->right->key`.  The order invariant I1 is
not needed for this. -/
theorem insert_tables_agree (t : BSTNode) (k : Int)
    (h2 : I2 .c15 t) (h3 : isBalanced .c15 t = 1) :
    ∃ t2, insert .c15 t k = some t2 ∧ insertByChildBalance t k = some t2 := by
  have a3 := (isBalanced_eq_one_iff .c15 t).mp h3
  obtain ⟨t2, e, -⟩ := insert_core .c15 k t h2 a3
  exact ⟨t2, e, by rw [insertByChildBalance_eq k t h2 a3, e]⟩

theorem insert_tables_agree_witness :
    ∃ t2, insert .c15 (node 30 (node 10 NULL NULL 1) NULL 2) 20 = some t2 ∧
      insertByChildBalance (node 30 (node 10 NULL NULL 1) NULL 2) 20 = some t2 :=
  insert_tables_agree (node 30 (node 10 NULL NULL 1) NULL 2) 20 (by decide) (by decide)

/-! Rotations and the balance in 32-bit `int` arithmetic -/

theorem wrap32_eq (x : Int) (lo : INT_MIN ≤ x) (hi : x ≤ INT_MAX) : wrap32 x = x := by
  unfold wrap32
  unfold INT_MIN at lo
  unfold INT_MAX at hi
  omega

theorem ite_gt_eq_max (a b : Int) : (if a > b then a else b) = max a b := by
  split_ifs <;> omega

theorem newHeight32_eq_newHeight (v : Variant) (l r : BSTNode)
    (lo : INT_MIN ≤ newHeight v l r) (hi : newHeight v l r ≤ INT_MAX) :
    newHeight32 v l r = newHeight v l r :=
  wrap32_eq _ lo hi

theorem getBalance32_eq_getBalance (v : Variant) (t : BSTNode)
    (lo : INT_MIN ≤ getBalance v t) (hi : getBalance v t ≤ INT_MAX) :
    getBalance32 v t = getBalance v t := by
  cases t with
  | NULL => rfl
  | node k l r h => exact wrap32_eq _ lo hi

/-- At a node with a consistent cached height that is a value of `int`, above subtrees
with consistent heights, the height update and the balance of the source do not overflow:
the 32-bit computations give the values of `newHeight` and `getBalance`. -/
theorem consistent_node_no_overflow (v : Variant) (k : Int) (l r : BSTNode) (h : Int)
    (h2 : I2 v (node k l r h)) (hh : h ≤ INT_MAX) :
    newHeight32 v l r = h ∧
      getBalance32 v (node k l r h) = getBalance v (node k l r h) := by
  obtain ⟨e, hl2, hr2⟩ := h2
  have el := height_ge v l hl2
  have er := height_ge v r hr2
  have e0 : -1 ≤ getHeight v NULL := by cases v <;> decide
  have e1 := e
  simp only [newHeight] at e1
  unfold INT_MAX at hh
  constructor
  · rw [newHeight32_eq_newHeight v l r (by unfold INT_MIN; split_ifs at e1 <;> omega)
      (by unfold INT_MAX; omega), e]
  · exact getBalance32_eq_getBalance v _
      (by unfold INT_MIN; simp only [getBalance]; split_ifs at e1 <;> omega)
      (by unfold INT_MAX; simp only [getBalance]; split_ifs at e1 <;> omega)

theorem rightRotate_shape_overflow :
    rightRotate32 .c15 (node 20 (node 10 (node 5 NULL NULL INT_MAX) NULL 1) NULL 2) =
        some (node 10 (node 5 NULL NULL INT_MAX) (node 20 NULL NULL 1) (-2147483648)) ∧
      rightRotate32 .c15 (node 20 (node 10 (node 5 NULL NULL INT_MAX) NULL 1) NULL 2) ≠
        some (node 10 (node 5 NULL NULL INT_MAX)
          (node 20 NULL NULL (1 + max (getHeight .c15 NULL) (getHeight .c15 NULL)))
          (1 + max (getHeight .c15 (node 5 NULL NULL INT_MAX))
            (1 + max (getHeight .c15 NULL) (getHeight .c15 NULL)))) := by
  decide

/-- Claim C20, amended: shape and frame of `rightRotate`.  In both variants, for every
`y = Node(Node(A, kx, B), ky, C)`, `rightRotate(y)` returns `Node(A, kx, Node(B, ky, C))` in
which `A`, `B` and `C` are unchanged (shape, keys and every cached height) and no key is
changed, and no height other than those of the two rotated nodes is written.  When
`1 + max(getHeight(B), getHeight(C))` and `1 + max(getHeight(A), that value)` are values of
`int`, so that neither height update overflows, the height of the demoted node is the
first and the height of the new root is the second, computed from the demoted node's new
height. -/
theorem rightRotate32_shape (v : Variant) (ky kx : Int) (A B C : BSTNode) (hy hx : Int)
    (lo : INT_MIN ≤ 1 + max (getHeight v B) (getHeight v C))
    (hi1 : 1 + max (getHeight v B) (getHeight v C) ≤ INT_MAX)
    (hi2 : 1 + max (getHeight v A) (1 + max (getHeight v B) (getHeight v C)) ≤ INT_MAX) :
    rightRotate32 v (node ky (node kx A B hx) C hy) =
        some (node kx A (node ky B C (1 + max (getHeight v B) (getHeight v C)))
          (1 + max (getHeight v A) (1 + max (getHeight v B) (getHeight v C)))) ∧
      ∀ (A2 B2 C2 : BSTNode) (hy2 hx2 : Int), ∃ h1 h2,
        rightRotate32 v (node ky (node kx A2 B2 hx2) C2 hy2) =
          some (node kx A2 (node ky B2 C2 h1) h2) := by
  refine ⟨?_, fun A2 B2 C2 hy2 hx2 => ⟨_, _, rfl⟩⟩
  have lo2 : INT_MIN ≤ 1 + max (getHeight v A) (1 + max (getHeight v B) (getHeight v C)) := by
    have := le_max_right (getHeight v A) (1 + max (getHeight v B) (getHeight v C))
    omega
  simp only [rightRotate32, newHeight32, getHeight_node, ite_gt_eq_max]
  rw [wrap32_eq _ lo hi1, wrap32_eq _ lo2 hi2]

theorem rightRotate32_shape_witness :
    rightRotate32 .c8 (node 30 (node 20 (node 10 NULL NULL 0) NULL 1) NULL 2) =
        some (node 20 (node 10 NULL NULL 0)
          (node 30 NULL NULL (1 + max (getHeight .c8 NULL) (getHeight .c8 NULL)))
          (1 + max (getHeight .c8 (node 10 NULL NULL 0))
            (1 + max (getHeight .c8 NULL) (getHeight .c8 NULL)))) ∧
      ∀ (A2 B2 C2 : BSTNode) (hy2 hx2 : Int), ∃ h1 h2,
        rightRotate32 .c8 (node 30 (node 20 A2 B2 hx2) C2 hy2) =
          some (node 20 A2 (node 30 B2 C2 h1) h2) :=
  rightRotate32_shape .c8 30 20 (node 10 NULL NULL 0) NULL NULL 2 1
    (by decide) (by decide) (by decide)

theorem leftRotate_shape_overflow :
    leftRotate32 .c15 (node 10 NULL (node 20 NULL (node 30 NULL NULL INT_MAX) 1) 2) =
        some (node 20 (node 10 NULL NULL 1) (node 30 NULL NULL INT_MAX) (-2147483648)) ∧
      leftRotate32 .c15 (node 10 NULL (node 20 NULL (node 30 NULL NULL INT_MAX) 1) 2) ≠
        some (node 20
          (node 10 NULL NULL (1 + max (getHeight .c15 NULL) (getHeight .c15 NULL)))
          (node 30 NULL NULL INT_MAX)
          (1 + max (1 + max (getHeight .c15 NULL) (getHeight .c15 NULL))
            (getHeight .c15 (node 30 NULL NULL INT_MAX)))) := by
  decide

/-- Claim C21, amended: shape and frame of `leftRotate`.  In both variants, for every
`x = Node(A, kx, Node(B, ky, C))`, `leftRotate(x)` returns `Node(Node(A, kx, B), ky, C)` in
which `A`, `B` and `C` are unchanged (shape, keys and every cached height) and no key is
changed, and no height other than those of the two rotated nodes is written.  When
`1 + max(getHeight(A), getHeight(B))` and `1 + max(that value, getHeight(C))` are values of
`int`, so that neither height update overflows, the height of the demoted node is the
first and the height of the new root is the second, computed from the demoted node's new
height. -/
theorem leftRotate32_shape (v : Variant) (kx ky : Int) (A B C : BSTNode) (hx hy : Int)
    (lo : INT_MIN ≤ 1 + max (getHeight v A) (getHeight v B))
    (hi1 : 1 + max (getHeight v A) (getHeight v B) ≤ INT_MAX)
    (hi2 : 1 + max (1 + max (getHeight v A) (getHeight v B)) (getHeight v C) ≤ INT_MAX) :
    leftRotate32 v (node kx A (node ky B C hy) hx) =
        some (node ky (node kx A B (1 + max (getHeight v A) (getHeight v B))) C
          (1 + max (1 + max (getHeight v A) (getHeight v B)) (getHeight v C))) ∧
      ∀ (A2 B2 C2 : BSTNode) (hx2 hy2 : Int), ∃ h1 h2,
        leftRotate32 v (node kx A2 (node ky B2 C2 hy2) hx2) =
          some (node ky (node kx A2 B2 h1) C2 h2) := by
  refine ⟨?_, fun A2 B2 C2 hx2 hy2 => ⟨_, _, rfl⟩⟩
  have lo2 : INT_MIN ≤ 1 + max (1 + max (getHeight v A) (getHeight v B)) (getHeight v C) := by
    have := le_max_left (1 + max (getHeight v A) (getHeight v B)) (getHeight v C)
    omega
  simp only [leftRotate32, newHeight32, getHeight_node, ite_gt_eq_max]
  rw [wrap32_eq _ lo hi1, wrap32_eq _ lo2 hi2]

theorem leftRotate32_shape_witness :
    leftRotate32 .c15 (node 10 NULL (node 20 NULL (node 30 NULL NULL 1) 2) 3) =
        some (node 20
          (node 10 NULL NULL (1 + max (getHeight .c15 NULL) (getHeight .c15 NULL)))
          (node 30 NULL NULL 1)
          (1 + max (1 + max (getHeight .c15 NULL) (getHeight .c15 NULL))
            (getHeight .c15 (node 30 NULL NULL 1)))) ∧
      ∀ (A2 B2 C2 : BSTNode) (hx2 hy2 : Int), ∃ h1 h2,
        leftRotate32 .c15 (node 10 A2 (node 20 B2 C2 hy2) hx2) =
          some (node 20 (node 10 A2 B2 h1) C2 h2) :=
  leftRotate32_shape .c15 10 20 NULL NULL (node 30 NULL NULL 1) 3 2
    (by decide) (by decide) (by decide)

end AVL
